import Mathlib

/-!
Verification of the Python-OS simulator core: process lifecycle, dispatcher
loop, I/O manager, schedulers (MLFQ, Lottery, CFS) and the fit-family heap
allocators.  Each Python class is embedded as Lean data plus pure transition
functions; randomness is an explicit oracle argument (a drawn natural is
reduced into the requested range the way `random.randint` bounds it).
-/

namespace PyOS

/-- Process identifiers. -/
abbrev Pid := Nat

/-- The four lifecycle states of a process (`process.py`, `ProcessState`). -/
inductive PState where
  | READY
  | RUNNING
  | WAITING
  | TERMINATED
deriving DecidableEq, Repr

/-- A process record (`process.py`, `Process.__init__`): identity, remaining
work, cumulative work and lifecycle state.  `io_probability` enters the model
only through the Bernoulli trigger oracle of `run_for`. -/
structure Process where
  pid : Pid
  arrival_time : Nat
  time_to_completion : Nat
  cumulative_time_ran : Nat
  state : PState
deriving DecidableEq, Repr

/-- `random.randint(a, b)` driven by an oracle draw `d`: a value in `[a, b]`. -/
def randint (a b d : Nat) : Nat := a + d % (b - a + 1)

/-- `Process.run_for` (`process.py` lines 40-75).  `trig` is the outcome of
`random.random() < self.io_probability`, `d` the oracle for the inner
`random.randint(1, max_run - 1)`.  Returns the updated process and the time
actually ran.  The TERMINATED state incorporates `Process.terminate`. -/
def Process.run_for (p : Process) (time_slice : Nat) (trig : Bool) (d : Nat) :
    Process × Nat :=
  let p0 : Process := { p with state := PState.RUNNING }
  let max_run := min time_slice p0.time_to_completion
  if trig = true ∧ 1 < max_run then
    let effective_run_time := randint 1 (max_run - 1) d
    ({ p0 with
        time_to_completion := p0.time_to_completion - effective_run_time
        cumulative_time_ran := p0.cumulative_time_ran + effective_run_time
        state := PState.WAITING }, effective_run_time)
  else
    let actual_time := max_run
    let p1 : Process :=
      { p0 with
          time_to_completion := p0.time_to_completion - actual_time
          cumulative_time_ran := p0.cumulative_time_ran + actual_time }
    if p1.time_to_completion = 0 then
      ({ p1 with state := PState.TERMINATED }, actual_time)
    else
      (p1, actual_time)

/-- Association-list lookup used for the process table (`pid -> Process`). -/
def alookup {α : Type} : List (Pid × α) → Pid → Option α
  | [], _ => none
  | (k, v) :: rest, k' => if k = k' then some v else alookup rest k'

/-- Python-dict style set: replace the first binding of `k` or append. -/
def aset {α : Type} : List (Pid × α) → Pid → α → List (Pid × α)
  | [], k, v => [(k, v)]
  | (k', v') :: rest, k, v =>
      if k' = k then (k, v) :: rest else (k', v') :: aset rest k v

/-- `del table[pid]` — drop every binding of `k`. -/
def aremove {α : Type} : List (Pid × α) → Pid → List (Pid × α)
  | [], _ => []
  | (k1, v) :: rest, k =>
      if k1 = k then aremove rest k else (k1, v) :: aremove rest k

/-- The global process table. -/
abbrev Table := List (Pid × Process)

/-- One dispatch of a process against the table: run it, then mirror the
mutation in the table — `Process.terminate` deletes the entry, otherwise the
(aliased) entry carries the updated fields. -/
def runDispatch (t : Table) (p : Process) (q : Nat) (trig : Bool) (d : Nat) :
    Process × Table × Nat :=
  let res := p.run_for q trig d
  let t' := if res.1.state = PState.TERMINATED
            then aremove t p.pid
            else aset t p.pid res.1
  (res.1, t', res.2)

/-- State of the I/O manager (`io_manager.py`): the ordered waiting list of
`(pid, completion_tick)` entries and the single-server watermark. -/
structure IOMState where
  waiting_processes : List (Pid × Nat)
  next_free_time : Nat
deriving DecidableEq, Repr

/-- `IOManager.add_waiting_process` (park): service time drawn from `[2,5]`,
start at `max(now, next_free_time)`, append the completion and advance the
watermark. -/
def IOMState.add_waiting_process (m : IOMState) (pid : Pid) (clock_time : Nat)
    (d : Nat) : IOMState :=
  let io_service_time := randint 2 5 d
  let start_time := max clock_time m.next_free_time
  let completion_time := start_time + io_service_time
  { waiting_processes := m.waiting_processes ++ [(pid, completion_time)]
    next_free_time := completion_time }

/-- `IOManager.update` (drain): release, in insertion order, every entry whose
completion tick has been reached; keep the rest in order. -/
def IOMState.update (m : IOMState) (clock_time : Nat) :
    List Pid × IOMState :=
  ((m.waiting_processes.filter (fun e => decide (e.2 ≤ clock_time))).map Prod.fst,
   { m with waiting_processes :=
      m.waiting_processes.filter (fun e => decide (clock_time < e.2)) })

/-- The scheduler capability set of `scheduler.py` (`add_process`,
`get_next_process`, `has_processes`, `get_alloted_time`), abstracted over the
scheduler's state together with the laws every variant satisfies: admission
adds exactly the admitted pid to the ready multiset, `get_next_process`
removes and returns one ready pid, `has_processes` reflects non-emptiness and
quanta are positive. -/
structure SchedModel (σ : Type) where
  add_process : σ → Pid → σ
  get_next : σ → Option (Pid × σ)
  has_processes : σ → Bool
  get_alloted_time : σ → Pid → Nat
  pids : σ → Multiset Pid
  pids_add : ∀ s p, pids (add_process s p) = p ::ₘ pids s
  has_iff : ∀ s, has_processes s = true ↔ pids s ≠ 0
  next_mem : ∀ s p s2, get_next s = some (p, s2) →
    p ∈ pids s ∧ pids s2 = (pids s).erase p
  next_none : ∀ s, get_next s = none → pids s = 0
  alloted_pos : ∀ s p, 1 ≤ get_alloted_time s p

/-- Per-iteration random draws: the I/O trigger, the effective-run draw and
the I/O service-time draw. -/
structure Draw where
  trig : Bool
  rd : Nat
  svc : Nat

/-- The dispatcher's state (`cpu.py`): global clock, process table, scheduler
state, I/O manager state and the cursor into the random stream. -/
structure CPUState (σ : Type) where
  clock : Nat
  table : Table
  sched : σ
  ioman : IOMState
  cursor : Nat

/-- A drained process is set back to READY (`update` mutates the aliased
table entry). -/
def setReady (t : Table) (pid : Pid) : Table :=
  match alookup t pid with
  | some p => aset t pid { p with state := PState.READY }
  | none => t

/-- The `while` guard of `CPU.run` is false: no ready work and no waiting
I/O. -/
def cpuDone {σ : Type} (S : SchedModel σ) (st : CPUState σ) : Bool :=
  !(S.has_processes st.sched) && st.ioman.waiting_processes.isEmpty

/-- One iteration of the `CPU.run` loop (`cpu.py` lines 42-67): drain the I/O
manager and admit the released processes, then either dispatch one process
(routing the outcome to the I/O manager / nowhere / back to the scheduler) or
let the clock idle one tick.  A finished simulation is a fixpoint. -/
def cpuStep {σ : Type} (S : SchedModel σ) (ds : Nat → Draw)
    (st : CPUState σ) : CPUState σ :=
  if cpuDone S st then st else
  let dr := st.ioman.update st.clock
  let ready := dr.1
  let ioman1 := dr.2
  let table1 := ready.foldl setReady st.table
  let sched1 := ready.foldl S.add_process st.sched
  let draw := ds st.cursor
  if S.has_processes sched1 then
    match S.get_next sched1 with
    | none =>
        { st with clock := st.clock + 1, table := table1, sched := sched1,
                  ioman := ioman1, cursor := st.cursor + 1 }
    | some (pid, sched2) =>
      match alookup table1 pid with
      | none =>
          { st with clock := st.clock + 1, table := table1, sched := sched2,
                    ioman := ioman1, cursor := st.cursor + 1 }
      | some p =>
        let pR : Process := { p with state := PState.RUNNING }
        let q := S.get_alloted_time sched2 pid
        let rd := runDispatch table1 pR q draw.trig draw.rd
        let p2 := rd.1
        let table2 := rd.2.1
        let ran := rd.2.2
        let clock2 := st.clock + ran
        if p2.state = PState.WAITING then
          { clock := clock2, table := table2, sched := sched2,
            ioman := ioman1.add_waiting_process pid clock2 draw.svc,
            cursor := st.cursor + 1 }
        else if p2.state = PState.TERMINATED then
          { clock := clock2, table := table2, sched := sched2,
            ioman := ioman1, cursor := st.cursor + 1 }
        else
          { clock := clock2, table := aset table2 pid { p2 with state := PState.READY },
            sched := S.add_process sched2 pid, ioman := ioman1,
            cursor := st.cursor + 1 }
  else
    { st with clock := st.clock + 1, table := table1, sched := sched1,
              ioman := ioman1, cursor := st.cursor + 1 }

/-- `n` iterations of the dispatcher loop. -/
def cpuIter {σ : Type} (S : SchedModel σ) (ds : Nat → Draw) :
    Nat → CPUState σ → CPUState σ
  | 0, st => st
  | n + 1, st => cpuIter S ds n (cpuStep S ds st)

/-! ## Multi-level feedback queue (`scheduler/mlfq.py`) -/

/-- MLFQ scheduler state: per-level quanta and FIFO queues plus the four
per-pid side tables. -/
structure MLFQ where
  levels : List Nat
  queues : List (List Pid)
  process_levels : List (Pid × Nat)
  process_time_in_level : List (Pid × Nat)
  process_previous_cumulative_runtime : List (Pid × Nat)
  process_last_boost : List (Pid × Nat)
  boost_threshold : Nat
deriving DecidableEq, Repr

/-- `MultiLevelFeedbackQueueScheduler.get_alloted_time`. -/
def MLFQ.get_alloted_time (m : MLFQ) (pid : Pid) : Nat :=
  m.levels.getD ((alookup m.process_levels pid).getD 0) 0

/-- `MultiLevelFeedbackQueueScheduler.update_usage_time`: accumulate the run
time at the current level; on reaching the level quantum demote (clamped at
the lowest level) and reset the accumulator. -/
def MLFQ.update_usage_time (m : MLFQ) (pid : Pid) (time_used : Nat) : MLFQ :=
  let current_level := (alookup m.process_levels pid).getD 0
  let t := (alookup m.process_time_in_level pid).getD 0 + time_used
  let m1 := { m with process_time_in_level := aset m.process_time_in_level pid t }
  let quantum := m.levels.getD current_level 0
  if quantum ≤ t then
    let m2 := if current_level < m.levels.length - 1
              then { m1 with process_levels := aset m1.process_levels pid (current_level + 1) }
              else m1
    { m2 with process_time_in_level := aset m2.process_time_in_level pid 0 }
  else m1

/-- `MultiLevelFeedbackQueueScheduler.add_process` at simulation time `now`:
a first admission lands at level 0 with `last_boost = now`; a re-admission
charges the cumulative-runtime delta to the current level.  The process is
then enqueued at its (possibly updated) level. -/
def MLFQ.add_process (m : MLFQ) (p : Process) (now : Nat) : MLFQ :=
  let m1 :=
    if (alookup m.process_levels p.pid).isSome then
      m.update_usage_time p.pid
        (p.cumulative_time_ran -
          (alookup m.process_previous_cumulative_runtime p.pid).getD 0)
    else
      { m with process_levels := aset m.process_levels p.pid 0
               process_time_in_level := aset m.process_time_in_level p.pid 0
               process_last_boost := aset m.process_last_boost p.pid now }
  let pc := aset m1.process_previous_cumulative_runtime p.pid p.cumulative_time_ran
  let m2 := { m1 with process_previous_cumulative_runtime := pc }
  let level := (alookup m2.process_levels p.pid).getD 0
  { m2 with queues := m2.queues.set level ((m2.queues.getD level []) ++ [p.pid]) }

/-- The auto-boost trigger: `curr_time - last_boost >= boost_threshold`
(Python integer arithmetic, hence the comparison over `Int`). -/
def boostCond (lastB : List (Pid × Nat)) (thr now : Nat) (pid : Pid) : Bool :=
  decide ((thr : Int) ≤ (now : Int) - ((alookup lastB pid).getD 0 : Int))

/-- One level of `auto_boost_processes`: pop the level's queue left to right
(`new_queue` holds the kept pids so far), moving boosted pids to the tail of
queue 0 (resetting their side tables) and keeping the rest in order.  Returns
the updated scheduler and the rebuilt queue for this level. -/
def boostLevel (now : Nat) : MLFQ → List Pid → List Pid → MLFQ × List Pid
  | m, new_queue, [] => (m, new_queue)
  | m, new_queue, pid :: q =>
      if boostCond m.process_last_boost m.boost_threshold now pid then
        boostLevel now
          { m with
              process_levels := aset m.process_levels pid 0
              process_time_in_level := aset m.process_time_in_level pid 0
              process_last_boost := aset m.process_last_boost pid now
              queues := m.queues.set 0 ((m.queues.getD 0 []) ++ [pid]) }
          new_queue q
      else boostLevel now m (new_queue ++ [pid]) q

/-- `MultiLevelFeedbackQueueScheduler.auto_boost_processes` at time `now`:
process every non-top level in order. -/
def MLFQ.auto_boost_processes (m : MLFQ) (now : Nat) : MLFQ :=
  (List.range' 1 (m.queues.length - 1)).foldl
    (fun m i =>
      let bl := boostLevel now m [] (m.queues.getD i [])
      { bl.1 with queues := bl.1.queues.set i bl.2 })
    m

/-- `MultiLevelFeedbackQueueScheduler.cleanup`, with `live pid` standing for
"`pid` is in the process table and not terminated": drop dead pids from the
queues and the side tables. -/
def MLFQ.cleanup (m : MLFQ) (live : Pid → Bool) : MLFQ :=
  { m with
    queues := m.queues.map (fun q => q.filter live)
    process_levels := m.process_levels.filter (fun e => live e.1)
    process_time_in_level := m.process_time_in_level.filter (fun e => live e.1)
    process_previous_cumulative_runtime :=
      m.process_previous_cumulative_runtime.filter (fun e => live e.1)
    process_last_boost := m.process_last_boost.filter (fun e => live e.1) }

/-- Pop the first pid of the highest non-empty queue. -/
def popFirst : List (List Pid) → Option (Pid × List (List Pid))
  | [] => none
  | [] :: rest =>
      match popFirst rest with
      | some (p, rest2) => some (p, [] :: rest2)
      | none => none
  | (p :: q) :: rest => some (p, q :: rest)

/-- `MultiLevelFeedbackQueueScheduler.get_next_process`: cleanup, auto-boost,
then dequeue FIFO from the highest-priority non-empty level. -/
def MLFQ.get_next_process (m : MLFQ) (live : Pid → Bool) (now : Nat) :
    Option (Pid × MLFQ) :=
  let m1 := (m.cleanup live).auto_boost_processes now
  match popFirst m1.queues with
  | some (p, qs) => some (p, { m1 with queues := qs })
  | none => none

/-! ## Lottery scheduler (`scheduler/lottery.py`) -/

/-- Lottery scheduler state.  The Python `processes` and `tickets` dicts share
their keys and insertion order, so both are one insertion-ordered
`pid -> ticket count` list here. -/
structure Lottery where
  default_quantum : Nat
  entries : List (Pid × Nat)
  total_tickets : Nat
deriving DecidableEq, Repr

/-- `LotteryScheduler.add_process` (default 10 tickets). -/
def Lottery.add_process (L : Lottery) (pid : Pid) (tickets : Nat) : Lottery :=
  { L with entries := aset L.entries pid tickets
           total_tickets := L.total_tickets + tickets }

/-- `LotteryScheduler.cleanup`: remove dead pids and subtract their ticket
contribution. -/
def Lottery.cleanup (L : Lottery) (live : Pid → Bool) : Lottery :=
  { L with entries := L.entries.filter (fun e => live e.1)
           total_tickets :=
             L.total_tickets -
               ((L.entries.filter (fun e => !live e.1)).map Prod.snd).sum }

/-- The winner-selection loop of `get_next_process`: accumulate ticket counts
in insertion order and return the first pid whose running sum reaches the
winning ticket. -/
def lotteryPickLoop (w : Nat) : Nat → List (Pid × Nat) → Option Pid
  | _, [] => none
  | cum, (pid, t) :: rest =>
      if w ≤ cum + t then some pid else lotteryPickLoop w (cum + t) rest

/-- `LotteryScheduler.get_next_process`: cleanup, draw
`w = randint(1, total_tickets)` (oracle `d`), select the winner and remove it
together with its tickets.  `none` covers both the empty-scheduler raise and
the "Lottery draw failed" fallback. -/
def Lottery.get_next_process (L : Lottery) (live : Pid → Bool) (d : Nat) :
    Option (Pid × Lottery) :=
  let L1 := L.cleanup live
  if L1.entries.isEmpty then none
  else
    let w := randint 1 L1.total_tickets d
    match lotteryPickLoop w 0 L1.entries with
    | some pid =>
        some (pid,
          { L1 with entries := L1.entries.filter (fun e => e.1 ≠ pid)
                    total_tickets :=
                      L1.total_tickets - (alookup L1.entries pid).getD 0 })
    | none => none

/-! ## Completely-fair scheduler (`scheduler/cfs.py`) -/

/-- Strict lexicographic order on `(vruntime, pid)` keys. -/
def keyLt (a b : Nat × Nat) : Bool :=
  decide (a.1 < b.1 ∨ (a.1 = b.1 ∧ a.2 < b.2))

/-- `SortedDict` assignment: insert in key order, overwriting an equal key. -/
def sdInsert (e : (Nat × Nat) × Pid) :
    List ((Nat × Nat) × Pid) → List ((Nat × Nat) × Pid)
  | [] => [e]
  | x :: rest =>
      if keyLt e.1 x.1 then e :: x :: rest
      else if e.1 = x.1 then e :: rest
      else x :: sdInsert e rest

/-- CFS scheduler state: the ordered map keyed by `(vruntime, pid)` (the
mapped-to process is identified by its pid) and the `id_to_vruntime` side
table. -/
structure CFS where
  base_quantum : Nat
  min_quantum : Nat
  virtual_tree : List ((Nat × Nat) × Pid)
  id_to_vruntime : List (Pid × Nat)
deriving DecidableEq, Repr

/-- `CompletelyFairScheduler.get_alloted_time`. -/
def CFS.get_alloted_time (c : CFS) : Nat :=
  max (c.base_quantum / (c.virtual_tree.length + 1)) c.min_quantum

/-- `CompletelyFairScheduler.add_process`: a process entering a non-empty tree
gets `vruntime = max(cumulative_time_ran, current minimum vruntime)`
(`peekitem(0)` of the sorted map); into an empty tree, its own
`cumulative_time_ran`. -/
def CFS.add_process (c : CFS) (p : Process) : CFS :=
  let vr := match c.virtual_tree with
            | [] => p.cumulative_time_ran
            | x :: _ => max p.cumulative_time_ran x.1.1
  { c with id_to_vruntime := aset c.id_to_vruntime p.pid vr
           virtual_tree := sdInsert ((vr, p.pid), p.pid) c.virtual_tree }

/-- `CompletelyFairScheduler.cleanup`. -/
def CFS.cleanup (c : CFS) (live : Pid → Bool) : CFS :=
  { c with virtual_tree := c.virtual_tree.filter (fun e => live e.2)
           id_to_vruntime := c.id_to_vruntime.filter (fun e => live e.1) }

/-- `CompletelyFairScheduler.get_next_process`: cleanup, then `popitem(0)` —
remove and return the entry with the smallest `(vruntime, pid)` key. -/
def CFS.get_next_process (c : CFS) (live : Pid → Bool) : Option (Pid × CFS) :=
  let c1 := c.cleanup live
  match c1.virtual_tree with
  | [] => none
  | x :: rest => some (x.2, { c1 with virtual_tree := rest })

/-! ## Fit-family heap allocator (`memory/heap_allocator/`) -/

/-- `XFitAllocator` state: the arena size, the header store (start address to
recorded total block size — the 8-byte little-endian header of the Python
bytearray) and the free list of `(start, size)` regions. -/
structure XFitState where
  total_available_memory : Nat
  memory : Nat → Nat
  free_list : List (Nat × Nat)

/-- `XFitAllocator.__init__`. -/
def XFitState.init (total_memory : Nat) : XFitState :=
  { total_available_memory := total_memory
    memory := fun _ => 0
    free_list := [(0, total_memory)] }

/-- Write a block header. -/
def writeHeader (mem : Nat → Nat) (a v : Nat) : Nat → Nat :=
  fun x => if x = a then v else mem x

/-- The merge pass of `XFitAllocator.free`: walk the sorted list merging a
region into its successor whenever they are contiguous. -/
def coalesceAux : (Nat × Nat) → List (Nat × Nat) → List (Nat × Nat)
  | cur, [] => [cur]
  | cur, nxt :: rest =>
      if cur.1 + cur.2 = nxt.1 then coalesceAux (cur.1, cur.2 + nxt.2) rest
      else cur :: coalesceAux nxt rest

/-- Coalesce a start-sorted free list. -/
def coalesce : List (Nat × Nat) → List (Nat × Nat)
  | [] => []
  | x :: rest => coalesceAux x rest

/-- Stable insertion step for the start-address sort: a new element goes
after every element with a strictly smaller start and before the rest, as
Python's stable `list.sort(key=lambda x: x[0])` places it. -/
def sortInsert (x : Nat × Nat) : List (Nat × Nat) → List (Nat × Nat)
  | [] => [x]
  | y :: rest => if y.1 < x.1 then y :: sortInsert x rest else x :: y :: rest

/-- The stable sort by start address used by `XFitAllocator.free`
(`self.free_list.sort(key=lambda x: x[0])`). -/
def sortByStart : List (Nat × Nat) → List (Nat × Nat)
  | [] => []
  | x :: rest => sortInsert x (sortByStart rest)

/-- `XFitAllocator.free`: read the total size back from the header, append
the freed region, sort the free list by start address and coalesce. -/
def XFitState.free (st : XFitState) (pointer : Nat) : XFitState :=
  let block_start := pointer - 8
  let total_size := st.memory block_start
  let fl := st.free_list ++ [(block_start, total_size)]
  { st with free_list := coalesce (sortByStart fl) }

/-- The fit-family `malloc`, parameterised over the policy that chooses the
index of the candidate free region (first/best/worst fit): reserve
`size + 8`, write the header, shrink or remove the chosen region and return
the address past the header; `none` is the `OutOfMemory` raise. -/
def xmalloc (pick : List (Nat × Nat) → Nat → Option Nat)
    (st : XFitState) (size : Nat) : Option (Nat × XFitState) :=
  let total_size := size + 8
  match pick st.free_list total_size with
  | none => none
  | some i =>
    match st.free_list.get? i with
    | none => none
    | some r =>
      some (r.1 + 8,
        { st with
            memory := writeHeader st.memory r.1 total_size
            free_list :=
              if r.2 = total_size then st.free_list.eraseIdx i
              else st.free_list.set i (r.1 + total_size, r.2 - total_size) })

/-- `FirstFitAllocator.malloc`'s search: earliest region that fits. -/
def firstFitPick (l : List (Nat × Nat)) (total_size : Nat) : Option Nat :=
  l.findIdx? (fun r => decide (total_size ≤ r.2))

/-- `BestFitAllocator.malloc`'s search loop: scan left to right keeping the
index of the smallest fitting region seen so far (strict improvement only,
`best_fit_size` starting at infinity — `Option.all` is true at `none`). -/
def bestFitLoop (total_size : Nat) :
    List (Nat × Nat) → Nat → Option (Nat × Nat) → Option (Nat × Nat)
  | [], _, acc => acc
  | r :: rest, i, acc =>
      bestFitLoop total_size rest (i + 1)
        (if decide (total_size ≤ r.2) && acc.all (fun b => decide (r.2 < b.2))
         then some (i, r.2) else acc)

/-- `BestFitAllocator.malloc`'s chosen index. -/
def bestFitPick (l : List (Nat × Nat)) (total_size : Nat) : Option Nat :=
  (bestFitLoop total_size l 0 none).map Prod.fst

/-- `WorstFitAllocator.malloc`'s search loop (largest fitting region, strict
improvement, `worst_fit_size` starting below every size). -/
def worstFitLoop (total_size : Nat) :
    List (Nat × Nat) → Nat → Option (Nat × Nat) → Option (Nat × Nat)
  | [], _, acc => acc
  | r :: rest, i, acc =>
      worstFitLoop total_size rest (i + 1)
        (if decide (total_size ≤ r.2) && acc.all (fun b => decide (b.2 < r.2))
         then some (i, r.2) else acc)

/-- `WorstFitAllocator.malloc`'s chosen index. -/
def worstFitPick (l : List (Nat × Nat)) (total_size : Nat) : Option Nat :=
  (worstFitLoop total_size l 0 none).map Prod.fst

/-- What the fit policies guarantee: a returned index designates a free
region large enough for the request. -/
def PickSpec (pick : List (Nat × Nat) → Nat → Option Nat) : Prop :=
  ∀ l total i, pick l total = some i →
    ∃ r, l.get? i = some r ∧ total ≤ r.2

/-- `BestFitAllocator.malloc` as a state transformer. -/
def bestFitMalloc : XFitState → Nat → Option (Nat × XFitState) :=
  xmalloc bestFitPick

/-- The caller-visible state after a `malloc` attempt: a `MemoryError` raise
leaves the allocator untouched. -/
def mallocRun (pick : List (Nat × Nat) → Nat → Option Nat)
    (st : XFitState) (size : Nat) : XFitState :=
  match xmalloc pick st size with
  | none => st
  | some r => r.2

/-- Heap workload operations. -/
inductive HeapOp where
  | alloc (n : Nat)
  | dealloc (ptr : Nat)
deriving DecidableEq, Repr

/-- Allocator state paired with bookkeeping for the outstanding (not yet
freed) blocks: `allocd` lists `(start, total size)` of live allocations and
`ok` records that every `free` so far handed back a pointer previously
returned by `malloc` and not yet freed. -/
structure SimState where
  st : XFitState
  allocd : List (Nat × Nat)
  ok : Bool

/-- One workload step: a failed `malloc` leaves the state untouched; a `free`
of anything but a live allocation invalidates the run. -/
def simStep (pick : List (Nat × Nat) → Nat → Option Nat)
    (s : SimState) (op : HeapOp) : SimState :=
  if s.ok = false then s else
  match op with
  | HeapOp.alloc n =>
      match xmalloc pick s.st n with
      | none => s
      | some r => { st := r.2, allocd := (r.1 - 8, n + 8) :: s.allocd, ok := true }
  | HeapOp.dealloc ptr =>
      let b := (ptr - 8, s.st.memory (ptr - 8))
      if b ∈ s.allocd then
        { st := s.st.free ptr, allocd := s.allocd.erase b, ok := true }
      else { s with ok := false }

/-- Run a heap workload from a fresh arena of `total_memory` bytes. -/
def simRun (pick : List (Nat × Nat) → Nat → Option Nat)
    (total_memory : Nat) (ops : List HeapOp) : SimState :=
  ops.foldl (simStep pick) ⟨XFitState.init total_memory, [], true⟩

/-! ## Derived notions used by the statements and proofs -/

/-- The multiset of pids currently owned by the scheduler or the I/O
manager. -/
def schedWaitPids {σ : Type} (S : SchedModel σ) (st : CPUState σ) :
    Multiset Pid :=
  S.pids st.sched + (st.ioman.waiting_processes.map Prod.fst : List Pid)

/-- Remaining work of a pid as recorded in the table (0 if absent). -/
def ttcOf (t : Table) (pid : Pid) : Nat :=
  match alookup t pid with
  | some p => p.time_to_completion
  | none => 0

/-- A pid is registered in the table under itself with work remaining. -/
def pidOkB (t : Table) (pid : Pid) : Bool :=
  match alookup t pid with
  | some p => decide (1 ≤ p.time_to_completion) && decide (p.pid = pid)
  | none => false

/-- Dispatcher sanity invariant: each pid held by the scheduler or the I/O
manager is held exactly once, is present in the process table under its own
pid, and still has work to do. -/
def cpuInv {σ : Type} (S : SchedModel σ) (st : CPUState σ) : Prop :=
  (schedWaitPids S st).Nodup ∧
  ∀ pid ∈ schedWaitPids S st, pidOkB st.table pid = true

/-- Total outstanding work over scheduler-held and I/O-held pids. -/
def measW {σ : Type} (S : SchedModel σ) (st : CPUState σ) : Nat :=
  ((schedWaitPids S st).map (ttcOf st.table)).sum

/-- Largest completion tick in the waiting list. -/
def maxCompletion (l : List (Pid × Nat)) : Nat :=
  l.foldr (fun e acc => max e.2 acc) 0

/-- Ticks left until the last pending I/O completion. -/
def measC {σ : Type} (st : CPUState σ) : Nat :=
  maxCompletion st.ioman.waiting_processes - st.clock

/-- The round-robin scheduler (`scheduler/round_robin.py`, quantum 3) packaged
as a `SchedModel`: a FIFO queue of pids. -/
def fifoSched : SchedModel (List Pid) where
  add_process s p := s ++ [p]
  get_next s := match s with
    | [] => none
    | p :: rest => some (p, rest)
  has_processes s := !s.isEmpty
  get_alloted_time _ _ := 3
  pids s := (s : List Pid)
  pids_add := by
    intro s p
    show ((s ++ [p] : List Pid) : Multiset Pid) = p ::ₘ (s : Multiset Pid)
    simp [Multiset.cons_swap]
  has_iff := by intro s; cases s <;> simp
  next_mem := by
    intro s p s2 h
    cases s with
    | nil => exact absurd h (by simp)
    | cons a rest =>
        simp only [Option.some.injEq, Prod.mk.injEq] at h
        obtain ⟨h1, h2⟩ := h
        subst h1; subst h2
        constructor
        · show a ∈ ((a :: rest : List Pid) : Multiset Pid)
          simp
        · show ((rest : List Pid) : Multiset Pid) =
            Multiset.erase ((a :: rest : List Pid) : Multiset Pid) a
          simp
  next_none := by
    intro s h
    cases s with
    | nil => rfl
    | cons a rest => exact absurd h (by simp)
  alloted_pos := by intro s p; exact Nat.le_of_sub_eq_zero rfl

/-! ### Heap reasoning vocabulary -/

/-- The set of unit addresses covered by a `(start, size)` block. -/
def blockSet (b : Nat × Nat) : Finset Nat := Finset.Ico b.1 (b.1 + b.2)

/-- The set of unit addresses covered by a list of blocks. -/
def listSet : List (Nat × Nat) → Finset Nat
  | [] => ∅
  | b :: rest => blockSet b ∪ listSet rest

/-- Every block has a positive size. -/
def posBlocks (l : List (Nat × Nat)) : Prop := ∀ b ∈ l, 0 < b.2

/-- The list is ordered with each block ending no later than the next block
starts (hence sorted by start and internally disjoint). -/
def chainBlocks (l : List (Nat × Nat)) : Prop :=
  l.Pairwise (fun a b => a.1 + a.2 ≤ b.1)

/-- The allocator/bookkeeping invariant of a heap workload over an arena of
`n` bytes: free and allocated blocks have positive sizes, are mutually
disjoint, and tile the arena exactly; the free list is ordered; headers of
live allocations record their total size; and whenever nothing is
outstanding the free list is the single coalesced region. -/
structure HeapInv (s : SimState) (n : Nat) : Prop where
  pos_f : posBlocks s.st.free_list
  pos_a : posBlocks s.allocd
  chain_f : chainBlocks s.st.free_list
  disj_a : s.allocd.Pairwise (fun a b => Disjoint (blockSet a) (blockSet b))
  disj_fa : Disjoint (listSet s.st.free_list) (listSet s.allocd)
  cover : listSet s.st.free_list ∪ listSet s.allocd = Finset.Ico 0 n
  hdr : ∀ b ∈ s.allocd, s.st.memory b.1 = b.2
  tot : s.st.total_available_memory = n
  coal : s.allocd = [] → s.st.free_list = [(0, n)]

/-- Lottery bookkeeping invariant: the cached total is the sum of the ticket
counts. -/
def lotteryInv (L : Lottery) : Prop :=
  L.total_tickets = (L.entries.map Prod.snd).sum

/-- The CFS tree is strictly sorted by its `(vruntime, pid)` keys. -/
def cfsSorted (c : CFS) : Prop :=
  c.virtual_tree.Pairwise (fun a b => keyLt a.1 b.1 = true)

/-- I/O manager invariant: completion ticks appear in nondecreasing insertion
order and never exceed the single-server watermark. -/
def iomInv (m : IOMState) : Prop :=
  m.waiting_processes.Pairwise (fun a b => a.2 ≤ b.2) ∧
  ∀ e ∈ m.waiting_processes, e.2 ≤ m.next_free_time

/-- Every table entry is registered under its own pid (as the `Process`
constructor guarantees). -/
def tblOk (t : Table) : Prop := ∀ e ∈ t, (e.2).pid = e.1

/-- Work-accounting refinement between two tables: every process still
present preserves `cumulative_time_ran + time_to_completion` and has not
gained remaining work. -/
def tblRel (t t2 : Table) : Prop :=
  ∀ pid p2, alookup t2 pid = some p2 →
    ∃ p, alookup t pid = some p ∧
      p2.cumulative_time_ran + p2.time_to_completion =
        p.cumulative_time_ran + p.time_to_completion ∧
      p2.time_to_completion ≤ p.time_to_completion

/-! ## Theorems -/

theorem alookup_aset {α : Type} (l : List (Pid × α)) (k : Pid) (v : α) :
    alookup (aset l k v) k = some v := by
  induction l with
  | nil => simp [aset, alookup]
  | cons e rest ih =>
      obtain ⟨k1, v1⟩ := e
      by_cases h : k1 = k
      · simp [aset, h, alookup]
      · simp [aset, h, alookup, ih]

theorem alookup_aset_ne {α : Type} (l : List (Pid × α)) (k k2 : Pid) (v : α)
    (h : k ≠ k2) : alookup (aset l k v) k2 = alookup l k2 := by
  induction l with
  | nil => simp [aset, alookup, h]
  | cons e rest ih =>
      obtain ⟨k1, v1⟩ := e
      by_cases h1 : k1 = k
      · subst h1; simp [aset, alookup, h]
      · simp [aset, h1, alookup, ih]

theorem alookup_aremove {α : Type} (l : List (Pid × α)) (k : Pid) :
    alookup (aremove l k) k = none := by
  induction l with
  | nil => simp [aremove, alookup]
  | cons e rest ih =>
      obtain ⟨k1, v1⟩ := e
      by_cases h : k1 = k
      · simpa [aremove, h] using ih
      · simpa [aremove, alookup, h] using ih

theorem alookup_aremove_ne {α : Type} (l : List (Pid × α)) (k k2 : Pid)
    (h : k ≠ k2) : alookup (aremove l k) k2 = alookup l k2 := by
  induction l with
  | nil => simp [aremove, alookup]
  | cons e rest ih =>
      obtain ⟨k1, v1⟩ := e
      by_cases h1 : k1 = k
      · subst h1
        have h2 : ¬ (k1 = k2) := h
        simp [aremove, alookup, h2, ih]
      · by_cases h2 : k1 = k2
        · subst h2; simp [aremove, alookup, h1]
        · simp [aremove, alookup, h1, h2, ih]

theorem randint_bounds (a b d : Nat) (h : a ≤ b) :
    a ≤ randint a b d ∧ randint a b d ≤ b := by
  unfold randint
  have h1 : d % (b - a + 1) < b - a + 1 := Nat.mod_lt _ (by omega)
  omega

theorem randint_hits (a b v : Nat) (h1 : a ≤ v) (h2 : v ≤ b) :
    randint a b (v - a) = v := by
  unfold randint
  have h3 : v - a < b - a + 1 := by omega
  rw [Nat.mod_eq_of_lt h3]
  omega

theorem run_for_io (p : Process) (q d : Nat)
    (h1 : 1 < min q p.time_to_completion) :
    p.run_for q true d =
      ({ p with
          time_to_completion :=
            p.time_to_completion - randint 1 (min q p.time_to_completion - 1) d
          cumulative_time_ran :=
            p.cumulative_time_ran + randint 1 (min q p.time_to_completion - 1) d
          state := PState.WAITING },
       randint 1 (min q p.time_to_completion - 1) d) := by
  unfold Process.run_for
  simp [h1]

theorem run_for_else (p : Process) (q : Nat) (trig : Bool) (d : Nat)
    (h : ¬(trig = true ∧ 1 < min q p.time_to_completion)) :
    p.run_for q trig d =
      if p.time_to_completion - min q p.time_to_completion = 0 then
        ({ p with
            time_to_completion := p.time_to_completion - min q p.time_to_completion
            cumulative_time_ran := p.cumulative_time_ran + min q p.time_to_completion
            state := PState.TERMINATED },
         min q p.time_to_completion)
      else
        ({ p with
            time_to_completion := p.time_to_completion - min q p.time_to_completion
            cumulative_time_ran := p.cumulative_time_ran + min q p.time_to_completion
            state := PState.RUNNING },
         min q p.time_to_completion) := by
  unfold Process.run_for
  rw [if_neg h]

/-- C1.  For a RUNNING process `p` and quantum `q ≥ 1` with
`max_run = min(q, time_to_completion)`: on the I/O branch (trigger true and
`max_run > 1`) the effective run `r` is drawn from `[1, max_run − 1]` (every
value in the range is attainable), `time_to_completion` drops and
`cumulative_time_ran` rises by `r`, the state becomes WAITING and `r` is
returned; otherwise the full `max_run` is consumed, the process is TERMINATED
and removed from the process table exactly when `time_to_completion` reaches
0, and `max_run` is returned. -/
theorem run_for_dispatch_spec (t : Table) (p : Process) (q : Nat)
    (trig : Bool) (d : Nat)
    (hs : p.state = PState.RUNNING) (hq : 1 ≤ q)
    (ht : alookup t p.pid = some p) :
    (trig = true → 1 < min q p.time_to_completion →
      (runDispatch t p q trig d).2.2 = randint 1 (min q p.time_to_completion - 1) d ∧
      1 ≤ (runDispatch t p q trig d).2.2 ∧
      (runDispatch t p q trig d).2.2 ≤ min q p.time_to_completion - 1 ∧
      (∀ v, 1 ≤ v → v ≤ min q p.time_to_completion - 1 →
        ∃ d2, randint 1 (min q p.time_to_completion - 1) d2 = v) ∧
      (runDispatch t p q trig d).1.time_to_completion =
        p.time_to_completion - (runDispatch t p q trig d).2.2 ∧
      (runDispatch t p q trig d).1.cumulative_time_ran =
        p.cumulative_time_ran + (runDispatch t p q trig d).2.2 ∧
      (runDispatch t p q trig d).1.state = PState.WAITING ∧
      alookup (runDispatch t p q trig d).2.1 p.pid = some (runDispatch t p q trig d).1)
    ∧ (¬(trig = true ∧ 1 < min q p.time_to_completion) →
      (runDispatch t p q trig d).2.2 = min q p.time_to_completion ∧
      (runDispatch t p q trig d).1.time_to_completion =
        p.time_to_completion - min q p.time_to_completion ∧
      (runDispatch t p q trig d).1.cumulative_time_ran =
        p.cumulative_time_ran + min q p.time_to_completion ∧
      ((runDispatch t p q trig d).1.state = PState.TERMINATED ↔
        p.time_to_completion - min q p.time_to_completion = 0) ∧
      (p.time_to_completion - min q p.time_to_completion = 0 →
        alookup (runDispatch t p q trig d).2.1 p.pid = none) ∧
      (p.time_to_completion - min q p.time_to_completion ≠ 0 →
        alookup (runDispatch t p q trig d).2.1 p.pid =
          some (runDispatch t p q trig d).1)) := by
  constructor
  · intro htr h1
    subst htr
    have hio := run_for_io p q d h1
    have hb := randint_bounds 1 (min q p.time_to_completion - 1) d (by omega)
    unfold runDispatch
    rw [hio]
    refine ⟨rfl, hb.1, hb.2, ?_, rfl, rfl, rfl, ?_⟩
    · intro v hv1 hv2
      exact ⟨v - 1, randint_hits 1 (min q p.time_to_completion - 1) v hv1 hv2⟩
    · simp [alookup_aset]
  · intro h
    have he := run_for_else p q trig d h
    unfold runDispatch
    rw [he]
    by_cases h0 : p.time_to_completion - min q p.time_to_completion = 0
    · rw [if_pos h0]
      refine ⟨rfl, rfl, rfl, by simp [h0], ?_, by simp [h0]⟩
      intro _
      simp [alookup_aremove]
    · rw [if_neg h0]
      refine ⟨rfl, rfl, rfl, by simp [h0], by simp [h0], ?_⟩
      intro _
      simp [alookup_aset]

theorem run_for_dispatch_spec_witness :
    (⟨1, 0, 5, 0, PState.RUNNING⟩ : Process).state = PState.RUNNING ∧
    1 ≤ 3 ∧
    alookup [(1, (⟨1, 0, 5, 0, PState.RUNNING⟩ : Process))]
      (⟨1, 0, 5, 0, PState.RUNNING⟩ : Process).pid =
      some ⟨1, 0, 5, 0, PState.RUNNING⟩ ∧
    (runDispatch [(1, ⟨1, 0, 5, 0, PState.RUNNING⟩)]
      ⟨1, 0, 5, 0, PState.RUNNING⟩ 3 true 0).2.2 = 1 := by
  refine ⟨rfl, by decide, by decide, ?_⟩
  have h := run_for_dispatch_spec [(1, ⟨1, 0, 5, 0, PState.RUNNING⟩)]
      ⟨1, 0, 5, 0, PState.RUNNING⟩ 3 true 0 rfl (by decide) (by decide)
  exact ((h.1 rfl (by decide)).1).trans (by decide)

theorem alookup_mem {α : Type} (l : List (Pid × α)) (k : Pid) (v : α)
    (h : alookup l k = some v) : (k, v) ∈ l := by
  induction l with
  | nil => simp [alookup] at h
  | cons e rest ih =>
      obtain ⟨k1, v1⟩ := e
      by_cases h1 : k1 = k
      · subst h1
        have h2 : v1 = v := by simpa [alookup] using h
        subst h2
        exact List.mem_cons_self _ _
      · simp only [alookup, if_neg h1] at h
        exact List.mem_cons_of_mem _ (ih h)

theorem run_for_facts (p : Process) (q : Nat) (trig : Bool) (d : Nat) :
    (p.run_for q trig d).1.pid = p.pid ∧
    (p.run_for q trig d).2 ≤ p.time_to_completion ∧
    (p.run_for q trig d).1.time_to_completion =
      p.time_to_completion - (p.run_for q trig d).2 ∧
    (p.run_for q trig d).1.cumulative_time_ran =
      p.cumulative_time_ran + (p.run_for q trig d).2 ∧
    (1 ≤ q → 1 ≤ p.time_to_completion → 1 ≤ (p.run_for q trig d).2) ∧
    ((p.run_for q trig d).1.state = PState.WAITING →
      1 ≤ (p.run_for q trig d).1.time_to_completion) ∧
    ((p.run_for q trig d).1.state = PState.TERMINATED →
      (p.run_for q trig d).1.time_to_completion = 0) ∧
    ((p.run_for q trig d).1.state = PState.RUNNING →
      1 ≤ (p.run_for q trig d).1.time_to_completion) ∧
    ((p.run_for q trig d).1.state = PState.WAITING ∨
     (p.run_for q trig d).1.state = PState.TERMINATED ∨
     (p.run_for q trig d).1.state = PState.RUNNING) := by
  by_cases hc : trig = true ∧ 1 < min q p.time_to_completion
  · obtain ⟨ht, h1⟩ := hc
    subst ht
    rw [run_for_io p q d h1]
    have hb := randint_bounds 1 (min q p.time_to_completion - 1) d (by omega)
    refine ⟨rfl, by omega, rfl, rfl, fun _ _ => hb.1, fun _ => ?_,
      fun hT => by simp at hT, fun hR => by simp at hR, Or.inl rfl⟩
    show 1 ≤ p.time_to_completion - randint 1 (min q p.time_to_completion - 1) d
    omega
  · rw [run_for_else p q trig d hc]
    by_cases h0 : p.time_to_completion - min q p.time_to_completion = 0
    · rw [if_pos h0]
      refine ⟨rfl, Nat.min_le_right _ _, rfl, rfl, fun hq hp => by omega,
        fun hW => by simp at hW, fun _ => h0, fun hR => by simp at hR,
        Or.inr (Or.inl rfl)⟩
    · rw [if_neg h0]
      refine ⟨rfl, Nat.min_le_right _ _, rfl, rfl, fun hq hp => by omega,
        fun hW => by simp at hW, fun hT => by simp at hT, fun _ => ?_,
        Or.inr (Or.inr rfl)⟩
      show 1 ≤ p.time_to_completion - min q p.time_to_completion
      omega

theorem tblRel_refl (t : Table) : tblRel t t :=
  fun _ p2 h => ⟨p2, h, rfl, le_refl _⟩

theorem tblRel_trans {a b c : Table} (h1 : tblRel a b) (h2 : tblRel b c) :
    tblRel a c := by
  intro pid p2 h
  obtain ⟨p1, hb, e1, l1⟩ := h2 pid p2 h
  obtain ⟨p0, ha, e0, l0⟩ := h1 pid p1 hb
  exact ⟨p0, ha, by omega, le_trans l1 l0⟩

theorem tblRel_aset (t : Table) (k : Pid) (p p2 : Process)
    (h : alookup t k = some p)
    (hc : p2.cumulative_time_ran + p2.time_to_completion =
      p.cumulative_time_ran + p.time_to_completion)
    (hl : p2.time_to_completion ≤ p.time_to_completion) :
    tblRel t (aset t k p2) := by
  intro k2 p3 h3
  by_cases hk : k = k2
  · subst hk
    rw [alookup_aset] at h3
    cases h3
    exact ⟨p, h, hc, hl⟩
  · rw [alookup_aset_ne _ _ _ _ hk] at h3
    exact ⟨p3, h3, rfl, le_refl _⟩

theorem tblRel_aremove (t : Table) (k : Pid) : tblRel t (aremove t k) := by
  intro k2 p3 h3
  by_cases hk : k = k2
  · subst hk; rw [alookup_aremove] at h3; cases h3
  · rw [alookup_aremove_ne _ _ _ hk] at h3
    exact ⟨p3, h3, rfl, le_refl _⟩

theorem tblRel_setReady (t : Table) (pid : Pid) : tblRel t (setReady t pid) := by
  unfold setReady
  cases h : alookup t pid with
  | none => exact tblRel_refl t
  | some p => exact tblRel_aset t pid p _ h rfl (le_refl _)

theorem tblRel_foldl_setReady (l : List Pid) (t : Table) :
    tblRel t (l.foldl setReady t) := by
  induction l generalizing t with
  | nil => exact tblRel_refl t
  | cons a rest ih =>
      exact tblRel_trans (tblRel_setReady t a) (ih (setReady t a))

theorem mem_aset {α : Type} (l : List (Pid × α)) (k : Pid) (v : α) (e : Pid × α)
    (h : e ∈ aset l k v) : e = (k, v) ∨ e ∈ l := by
  induction l with
  | nil => simpa [aset] using h
  | cons e1 rest ih =>
      obtain ⟨k1, v1⟩ := e1
      by_cases h1 : k1 = k
      · rw [aset, if_pos h1] at h
        rcases List.mem_cons.1 h with h2 | h2
        · exact Or.inl h2
        · exact Or.inr (List.mem_cons_of_mem _ h2)
      · rw [aset, if_neg h1] at h
        rcases List.mem_cons.1 h with h2 | h2
        · exact Or.inr (h2 ▸ List.mem_cons_self _ _)
        · rcases ih h2 with h3 | h3
          · exact Or.inl h3
          · exact Or.inr (List.mem_cons_of_mem _ h3)

theorem mem_aremove {α : Type} (l : List (Pid × α)) (k : Pid) (e : Pid × α)
    (h : e ∈ aremove l k) : e ∈ l := by
  induction l with
  | nil => simpa [aremove] using h
  | cons e1 rest ih =>
      obtain ⟨k1, v1⟩ := e1
      by_cases h1 : k1 = k
      · rw [aremove, if_pos h1] at h
        exact List.mem_cons_of_mem _ (ih h)
      · rw [aremove, if_neg h1] at h
        rcases List.mem_cons.1 h with h2 | h2
        · exact h2 ▸ List.mem_cons_self _ _
        · exact List.mem_cons_of_mem _ (ih h2)

theorem tblOk_aset (t : Table) (k : Pid) (v : Process) (hok : tblOk t)
    (hv : v.pid = k) : tblOk (aset t k v) := by
  intro e he
  rcases mem_aset t k v e he with h | h
  · subst h; exact hv
  · exact hok e h

theorem tblOk_aremove (t : Table) (k : Pid) (hok : tblOk t) :
    tblOk (aremove t k) :=
  fun e he => hok e (mem_aremove t k e he)

theorem tblOk_setReady (t : Table) (pid : Pid) (hok : tblOk t) :
    tblOk (setReady t pid) := by
  unfold setReady
  cases h : alookup t pid with
  | none => exact hok
  | some p =>
      exact tblOk_aset t pid _ hok (hok (pid, p) (alookup_mem t pid p h))

theorem tblOk_foldl_setReady (l : List Pid) (t : Table) (hok : tblOk t) :
    tblOk (l.foldl setReady t) := by
  induction l generalizing t with
  | nil => exact hok
  | cons a rest ih => exact ih (setReady t a) (tblOk_setReady t a hok)

theorem cpuStep_tbl {σ : Type} (S : SchedModel σ) (ds : Nat → Draw)
    (st : CPUState σ) (hok : tblOk st.table) :
    tblOk (cpuStep S ds st).table ∧ tblRel st.table (cpuStep S ds st).table := by
  unfold cpuStep
  by_cases hdone : cpuDone S st = true
  · rw [if_pos hdone]; exact ⟨hok, tblRel_refl _⟩
  rw [if_neg hdone]
  dsimp only
  have h1ok : tblOk ((st.ioman.update st.clock).1.foldl setReady st.table) :=
    tblOk_foldl_setReady _ _ hok
  have h1rel : tblRel st.table ((st.ioman.update st.clock).1.foldl setReady st.table) :=
    tblRel_foldl_setReady _ _
  by_cases hsp : S.has_processes ((st.ioman.update st.clock).1.foldl S.add_process st.sched) = true
  · rw [if_pos hsp]
    cases hnext : S.get_next ((st.ioman.update st.clock).1.foldl S.add_process st.sched) with
    | none => dsimp only; exact ⟨h1ok, h1rel⟩
    | some pr =>
        obtain ⟨pid, sched2⟩ := pr
        dsimp only
        cases hlk : alookup ((st.ioman.update st.clock).1.foldl setReady st.table) pid with
        | none => dsimp only; exact ⟨h1ok, h1rel⟩
        | some p =>
            dsimp only
            have hpid : p.pid = pid :=
              h1ok (pid, p) (alookup_mem _ pid p hlk)
            have hf := run_for_facts { p with state := PState.RUNNING }
              (S.get_alloted_time sched2 pid) (ds st.cursor).trig (ds st.cursor).rd
            obtain ⟨hfpid, hfle, hfttc, hfcum, -, -, -, -, -⟩ := hf
            dsimp only at hfpid hfle hfttc hfcum
            have hlk2 : alookup ((st.ioman.update st.clock).1.foldl setReady st.table)
                ({ p with state := PState.RUNNING } : Process).pid = some p := by
              show alookup _ p.pid = some p
              rw [hpid]; exact hlk
            have h2rel : tblRel ((st.ioman.update st.clock).1.foldl setReady st.table)
                (runDispatch ((st.ioman.update st.clock).1.foldl setReady st.table)
                  { p with state := PState.RUNNING } (S.get_alloted_time sched2 pid)
                  (ds st.cursor).trig (ds st.cursor).rd).2.1 := by
              unfold runDispatch
              dsimp only
              by_cases hT : (Process.run_for { p with state := PState.RUNNING }
                  (S.get_alloted_time sched2 pid) (ds st.cursor).trig (ds st.cursor).rd).1.state
                  = PState.TERMINATED
              · rw [if_pos hT]; exact tblRel_aremove _ _
              · rw [if_neg hT]
                exact tblRel_aset _ _ p _ hlk2 (by omega) (by omega)
            have h2ok : tblOk (runDispatch ((st.ioman.update st.clock).1.foldl setReady st.table)
                { p with state := PState.RUNNING } (S.get_alloted_time sched2 pid)
                (ds st.cursor).trig (ds st.cursor).rd).2.1 := by
              unfold runDispatch
              dsimp only
              by_cases hT : (Process.run_for { p with state := PState.RUNNING }
                  (S.get_alloted_time sched2 pid) (ds st.cursor).trig (ds st.cursor).rd).1.state
                  = PState.TERMINATED
              · rw [if_pos hT]; exact tblOk_aremove _ _ h1ok
              · rw [if_neg hT]
                exact tblOk_aset _ _ _ h1ok hfpid
            by_cases hW : (runDispatch ((st.ioman.update st.clock).1.foldl setReady st.table)
                { p with state := PState.RUNNING } (S.get_alloted_time sched2 pid)
                (ds st.cursor).trig (ds st.cursor).rd).1.state = PState.WAITING
            · rw [if_pos hW]
              exact ⟨h2ok, tblRel_trans h1rel h2rel⟩
            · rw [if_neg hW]
              by_cases hT : (runDispatch ((st.ioman.update st.clock).1.foldl setReady st.table)
                  { p with state := PState.RUNNING } (S.get_alloted_time sched2 pid)
                  (ds st.cursor).trig (ds st.cursor).rd).1.state = PState.TERMINATED
              · rw [if_pos hT]
                exact ⟨h2ok, tblRel_trans h1rel h2rel⟩
              · rw [if_neg hT]
                have hres : alookup (runDispatch ((st.ioman.update st.clock).1.foldl setReady st.table)
                    { p with state := PState.RUNNING } (S.get_alloted_time sched2 pid)
                    (ds st.cursor).trig (ds st.cursor).rd).2.1 pid =
                    some (runDispatch ((st.ioman.update st.clock).1.foldl setReady st.table)
                    { p with state := PState.RUNNING } (S.get_alloted_time sched2 pid)
                    (ds st.cursor).trig (ds st.cursor).rd).1 := by
                  unfold runDispatch
                  dsimp only
                  rw [if_neg (by exact fun hx => hT hx)]
                  have : ({ p with state := PState.RUNNING } : Process).pid = pid := hpid
                  rw [← this]
                  exact alookup_aset _ _ _
                constructor
                · refine tblOk_aset _ _ _ h2ok ?_
                  show (runDispatch _ _ _ _ _).1.pid = pid
                  unfold runDispatch; dsimp only
                  rw [hfpid]; exact hpid
                · refine tblRel_trans (tblRel_trans h1rel h2rel) ?_
                  exact tblRel_aset _ pid _ _ hres rfl (le_refl _)
  · rw [if_neg hsp]
    exact ⟨h1ok, h1rel⟩

theorem cpuIter_tbl {σ : Type} (S : SchedModel σ) (ds : Nat → Draw)
    (n : Nat) (st : CPUState σ) (hok : tblOk st.table) :
    tblOk (cpuIter S ds n st).table ∧ tblRel st.table (cpuIter S ds n st).table := by
  induction n generalizing st with
  | zero => exact ⟨hok, tblRel_refl _⟩
  | succ n ih =>
      have hs := cpuStep_tbl S ds st hok
      have hi := ih (cpuStep S ds st) hs.1
      exact ⟨hi.1, tblRel_trans hs.2 hi.2⟩

/-- C2.  Along any run of the dispatcher (drains, admissions, dispatches,
parks, idle ticks), every process still present in the table preserves
`cumulative_time_ran + time_to_completion`; in particular a process created
with `cumulative_time_ran = 0` always satisfies
`cumulative_time_ran + time_to_completion = initial time_to_completion`, and
`time_to_completion` never increases. -/
theorem work_conservation_invariant {σ : Type} (S : SchedModel σ)
    (ds : Nat → Draw) (st : CPUState σ) (hok : tblOk st.table) (n : Nat)
    (pid : Pid) (p0 pn : Process)
    (h0 : alookup st.table pid = some p0)
    (hn : alookup (cpuIter S ds n st).table pid = some pn) :
    pn.cumulative_time_ran + pn.time_to_completion =
      p0.cumulative_time_ran + p0.time_to_completion ∧
    pn.time_to_completion ≤ p0.time_to_completion ∧
    (p0.cumulative_time_ran = 0 →
      pn.cumulative_time_ran + pn.time_to_completion = p0.time_to_completion) := by
  obtain ⟨p, hp, he, hl⟩ := (cpuIter_tbl S ds n st hok).2 pid pn hn
  rw [h0] at hp
  cases hp
  exact ⟨he, hl, fun h => by omega⟩

theorem work_conservation_invariant_witness :
    tblOk [(1, (⟨1, 0, 5, 0, PState.READY⟩ : Process))] ∧
    alookup [(1, (⟨1, 0, 5, 0, PState.READY⟩ : Process))] 1 =
      some ⟨1, 0, 5, 0, PState.READY⟩ ∧
    alookup (cpuIter fifoSched (fun _ => ⟨false, 0, 0⟩) 1
        ⟨0, [(1, ⟨1, 0, 5, 0, PState.READY⟩)], [1], ⟨[], 0⟩, 0⟩).table 1 =
      some ⟨1, 0, 2, 3, PState.READY⟩ ∧
    ((⟨1, 0, 2, 3, PState.READY⟩ : Process).cumulative_time_ran +
        (⟨1, 0, 2, 3, PState.READY⟩ : Process).time_to_completion =
      (⟨1, 0, 5, 0, PState.READY⟩ : Process).cumulative_time_ran +
        (⟨1, 0, 5, 0, PState.READY⟩ : Process).time_to_completion ∧
     (⟨1, 0, 2, 3, PState.READY⟩ : Process).time_to_completion ≤
        (⟨1, 0, 5, 0, PState.READY⟩ : Process).time_to_completion ∧
     ((⟨1, 0, 5, 0, PState.READY⟩ : Process).cumulative_time_ran = 0 →
       (⟨1, 0, 2, 3, PState.READY⟩ : Process).cumulative_time_ran +
         (⟨1, 0, 2, 3, PState.READY⟩ : Process).time_to_completion =
         (⟨1, 0, 5, 0, PState.READY⟩ : Process).time_to_completion)) := by
  refine ⟨by unfold tblOk; decide, by decide, by decide, ?_⟩
  exact work_conservation_invariant fifoSched (fun _ => ⟨false, 0, 0⟩)
    ⟨0, [(1, ⟨1, 0, 5, 0, PState.READY⟩)], [1], ⟨[], 0⟩, 0⟩
    (by unfold tblOk; decide) 1 1
    ⟨1, 0, 5, 0, PState.READY⟩ ⟨1, 0, 2, 3, PState.READY⟩ (by decide) (by decide)

theorem pidOkB_iff (t : Table) (pid : Pid) :
    pidOkB t pid = true ↔
      ∃ p, alookup t pid = some p ∧ 1 ≤ p.time_to_completion ∧ p.pid = pid := by
  unfold pidOkB
  cases h : alookup t pid with
  | none => simp
  | some p => simp

theorem pids_foldl_add {σ : Type} (S : SchedModel σ) (l : List Pid) (s : σ) :
    S.pids (l.foldl S.add_process s) = (l : Multiset Pid) + S.pids s := by
  induction l generalizing s with
  | nil => simp
  | cons a rest ih =>
      show S.pids (rest.foldl S.add_process (S.add_process s a)) = _
      rw [ih, S.pids_add, ← Multiset.cons_coe, Multiset.cons_add,
        Multiset.add_cons]

theorem decide_lt_eq_not_le (c n : Nat) :
    decide (c < n) = !decide (n ≤ c) := by
  by_cases h : n ≤ c
  · simp [h, Nat.not_lt.2 h]
  · simp [h, Nat.lt_of_not_le h]

theorem drain_split (l : List (Pid × Nat)) (c : Nat) :
    ((l.filter (fun e => decide (e.2 ≤ c))).map Prod.fst : Multiset Pid) +
      ((l.filter (fun e => decide (c < e.2))).map Prod.fst : Multiset Pid) =
      (l.map Prod.fst : Multiset Pid) := by
  induction l with
  | nil => simp
  | cons e rest ih =>
      by_cases h : e.2 ≤ c
      · rw [List.filter_cons_of_pos (by simpa using h),
          List.filter_cons_of_neg (by simp; omega), List.map_cons,
          List.map_cons, ← Multiset.cons_coe, Multiset.cons_add, ih,
          Multiset.cons_coe]
      · rw [List.filter_cons_of_neg (by simpa using h),
          List.filter_cons_of_pos (by simp; omega), List.map_cons,
          List.map_cons, ← Multiset.cons_coe, Multiset.add_cons, ih,
          Multiset.cons_coe]

theorem alookup_setReady (t : Table) (k k2 : Pid) :
    alookup (setReady t k) k2 = alookup t k2 ∨
    alookup (setReady t k) k2 =
      (alookup t k2).map (fun p => { p with state := PState.READY }) := by
  unfold setReady
  cases h : alookup t k with
  | none => exact Or.inl rfl
  | some p =>
      by_cases hk : k = k2
      · subst hk
        right
        rw [alookup_aset, h]
        rfl
      · left
        exact alookup_aset_ne _ _ _ _ hk

theorem alookup_foldl_setReady (l : List Pid) (t : Table) (k : Pid) :
    alookup (l.foldl setReady t) k = alookup t k ∨
    alookup (l.foldl setReady t) k =
      (alookup t k).map (fun p => { p with state := PState.READY }) := by
  induction l generalizing t with
  | nil => exact Or.inl rfl
  | cons a rest ih =>
      show alookup (rest.foldl setReady (setReady t a)) k = _ ∨ _
      rcases ih (setReady t a) with h | h <;>
        rcases alookup_setReady t a k with h2 | h2
      · exact Or.inl (h.trans h2)
      · exact Or.inr (h.trans h2)
      · exact Or.inr (h.trans (congrArg _ h2))
      · refine Or.inr ((h.trans (congrArg _ h2)).trans ?_)
        cases alookup t k <;> rfl

theorem ttcOf_foldl_setReady (l : List Pid) (t : Table) (k : Pid) :
    ttcOf (l.foldl setReady t) k = ttcOf t k := by
  unfold ttcOf
  rcases alookup_foldl_setReady l t k with h | h <;> rw [h]
  cases alookup t k <;> rfl

theorem pidOkB_foldl_setReady (l : List Pid) (t : Table) (k : Pid) :
    pidOkB (l.foldl setReady t) k = pidOkB t k := by
  unfold pidOkB
  rcases alookup_foldl_setReady l t k with h | h <;> rw [h]
  cases alookup t k <;> rfl

theorem maxCompletion_lt (l : List (Pid × Nat)) (c : Nat)
    (hne : l ≠ []) (hall : ∀ e ∈ l, c < e.2) : c < maxCompletion l := by
  cases l with
  | nil => exact absurd rfl hne
  | cons e rest =>
      have h1 : c < e.2 := hall e (List.mem_cons_self _ _)
      unfold maxCompletion
      simp only [List.foldr_cons]
      omega

theorem maxCompletion_filter_le (l : List (Pid × Nat)) (p : Pid × Nat → Bool) :
    maxCompletion (l.filter p) ≤ maxCompletion l := by
  induction l with
  | nil => simp [maxCompletion]
  | cons e rest ih =>
      unfold maxCompletion at ih ⊢
      by_cases h : p e = true
      · rw [List.filter_cons_of_pos h]
        simp only [List.foldr_cons]
        omega
      · rw [List.filter_cons_of_neg (by simpa using h)]
        simp only [List.foldr_cons]
        omega

theorem cpuInv_of {σ : Type} (S : SchedModel σ) (st2 : CPUState σ)
    (M : Multiset Pid) (hM : schedWaitPids S st2 = M) (hnd : M.Nodup)
    (hall : ∀ pid ∈ M, pidOkB st2.table pid = true) : cpuInv S st2 := by
  unfold cpuInv
  rw [hM]
  exact ⟨hnd, hall⟩

theorem pidOkB_aset_ne (t : Table) (pid k : Pid) (v : Process) (h : pid ≠ k) :
    pidOkB (aset t pid v) k = pidOkB t k := by
  unfold pidOkB
  rw [alookup_aset_ne _ _ _ _ h]

theorem pidOkB_aremove_ne (t : Table) (pid k : Pid) (h : pid ≠ k) :
    pidOkB (aremove t pid) k = pidOkB t k := by
  unfold pidOkB
  rw [alookup_aremove_ne _ _ _ h]

theorem sum_ttc_congr (M : Multiset Pid) (t t2 : Table)
    (h : ∀ k ∈ M, ttcOf t2 k = ttcOf t k) :
    (M.map (ttcOf t2)).sum = (M.map (ttcOf t)).sum := by
  rw [Multiset.map_congr rfl h]

theorem sum_ttc_lt (M : Multiset Pid) (t t2 : Table) (pid : Pid)
    (hmem : pid ∈ M)
    (hothers : ∀ k ∈ M.erase pid, ttcOf t2 k = ttcOf t k)
    (hlt : ttcOf t2 pid < ttcOf t pid) :
    (M.map (ttcOf t2)).sum < (M.map (ttcOf t)).sum := by
  rw [← Multiset.cons_erase hmem, Multiset.map_cons, Multiset.sum_cons,
    Multiset.map_cons, Multiset.sum_cons, Multiset.map_congr rfl hothers]
  omega

theorem sum_ttc_erase_lt (M : Multiset Pid) (t t2 : Table) (pid : Pid)
    (hmem : pid ∈ M)
    (hothers : ∀ k ∈ M.erase pid, ttcOf t2 k = ttcOf t k)
    (hpos : 1 ≤ ttcOf t pid) :
    ((M.erase pid).map (ttcOf t2)).sum < (M.map (ttcOf t)).sum := by
  have h2 : ((M.erase pid).map (ttcOf t2)).sum =
      ((M.erase pid).map (ttcOf t)).sum :=
    congrArg Multiset.sum (Multiset.map_congr rfl hothers)
  have h3 : (M.map (ttcOf t)).sum =
      ttcOf t pid + ((M.erase pid).map (ttcOf t)).sum := by
    nth_rewrite 1 [← Multiset.cons_erase hmem]
    rw [Multiset.map_cons, Multiset.sum_cons]
  omega

theorem waitPids_append (A : List (Pid × Nat)) (e : Pid × Nat) :
    (((A ++ [e]).map Prod.fst : List Pid) : Multiset Pid) =
      ((A.map Prod.fst : List Pid) : Multiset Pid) + {e.1} := by
  rw [List.map_append]
  rfl

theorem erase_add_singleton (s1 R : Multiset Pid) (pid : Pid)
    (hmem : pid ∈ s1) : s1.erase pid + (R + {pid}) = s1 + R := by
  have h1 : s1.erase pid + (R + {pid}) = {pid} + (s1.erase pid + R) := by
    rw [add_comm R ({pid} : Multiset Pid), ← add_assoc,
      add_comm (s1.erase pid) ({pid} : Multiset Pid), add_assoc]
  rw [h1, Multiset.singleton_add, ← Multiset.cons_add, Multiset.cons_erase hmem]

theorem schedWaitPids_mk {σ : Type} (S : SchedModel σ) (c : Nat) (t : Table)
    (sch : σ) (m : IOMState) (cur : Nat) :
    schedWaitPids S ⟨c, t, sch, m, cur⟩ =
      S.pids sch + ((m.waiting_processes.map Prod.fst : List Pid) : Multiset Pid) :=
  rfl

theorem measW_mk {σ : Type} (S : SchedModel σ) (c : Nat) (t : Table)
    (sch : σ) (m : IOMState) (cur : Nat) :
    measW S ⟨c, t, sch, m, cur⟩ =
      ((S.pids sch +
        ((m.waiting_processes.map Prod.fst : List Pid) : Multiset Pid)).map
        (ttcOf t)).sum :=
  rfl

theorem measC_mk {σ : Type} (c : Nat) (t : Table) (sch : σ) (m : IOMState)
    (cur : Nat) :
    measC (⟨c, t, sch, m, cur⟩ : CPUState σ) =
      maxCompletion m.waiting_processes - c :=
  rfl

theorem add_waiting_waiting (m : IOMState) (pid : Pid) (c d : Nat) :
    (m.add_waiting_process pid c d).waiting_processes =
      m.waiting_processes ++ [(pid, max c m.next_free_time + randint 2 5 d)] :=
  rfl

theorem ne_of_mem_erase {M : Multiset Pid} {k pid : Pid}
    (hnd : M.Nodup) (hk : k ∈ M.erase pid) : k ≠ pid := by
  intro h
  subst h
  exact hnd.not_mem_erase hk

theorem cpuStep_progress {σ : Type} (S : SchedModel σ) (ds : Nat → Draw)
    (st : CPUState σ) (hInv : cpuInv S st) (hnd0 : cpuDone S st = false) :
    cpuInv S (cpuStep S ds st) ∧
    (measW S (cpuStep S ds st) < measW S st ∨
      (measW S (cpuStep S ds st) = measW S st ∧
        measC (cpuStep S ds st) < measC st)) := by
  obtain ⟨hnodup, hall⟩ := hInv
  have hsplit : (((st.ioman.update st.clock).1 : List Pid) : Multiset Pid) +
      (((st.ioman.update st.clock).2.waiting_processes.map Prod.fst : List Pid) :
        Multiset Pid) =
      ((st.ioman.waiting_processes.map Prod.fst : List Pid) : Multiset Pid) :=
    drain_split st.ioman.waiting_processes st.clock
  have hpids1 : S.pids ((st.ioman.update st.clock).1.foldl S.add_process st.sched) =
      (((st.ioman.update st.clock).1 : List Pid) : Multiset Pid) + S.pids st.sched :=
    pids_foldl_add S _ _
  have hM : S.pids ((st.ioman.update st.clock).1.foldl S.add_process st.sched) +
      (((st.ioman.update st.clock).2.waiting_processes.map Prod.fst : List Pid) :
        Multiset Pid) =
      schedWaitPids S st := by
    rw [hpids1, add_comm (((st.ioman.update st.clock).1 : List Pid) : Multiset Pid)
      (S.pids st.sched), add_assoc, hsplit]
    rfl
  have httc1 : ∀ k,
      ttcOf ((st.ioman.update st.clock).1.foldl setReady st.table) k =
        ttcOf st.table k :=
    ttcOf_foldl_setReady _ _
  have hok1 : ∀ k,
      pidOkB ((st.ioman.update st.clock).1.foldl setReady st.table) k =
        pidOkB st.table k :=
    pidOkB_foldl_setReady _ _
  unfold cpuStep
  rw [if_neg (by simp [hnd0])]
  dsimp only
  by_cases hsp : S.has_processes
      ((st.ioman.update st.clock).1.foldl S.add_process st.sched) = true
  · rw [if_pos hsp]
    cases hnext : S.get_next ((st.ioman.update st.clock).1.foldl S.add_process st.sched) with
    | none => exact absurd (S.next_none _ hnext) ((S.has_iff _).1 hsp)
    | some pr =>
        obtain ⟨pid, sched2⟩ := pr
        dsimp only
        obtain ⟨hpmem, hps2⟩ := S.next_mem _ _ _ hnext
        have hpmemM : pid ∈ schedWaitPids S st := by
          rw [← hM]
          exact Multiset.mem_add.2 (Or.inl hpmem)
        obtain ⟨p0, hp0, hp0ttc, hp0pid⟩ := (pidOkB_iff _ _).1 (hall pid hpmemM)
        have httc0 : ttcOf st.table pid = p0.time_to_completion := by
          unfold ttcOf
          rw [hp0]
        cases hlk : alookup ((st.ioman.update st.clock).1.foldl setReady st.table) pid with
        | none =>
            exfalso
            rcases alookup_foldl_setReady (st.ioman.update st.clock).1 st.table pid
              with he | he
            · rw [hlk, hp0] at he; cases he
            · rw [hlk, hp0] at he; cases he
        | some p =>
            dsimp only
            have hpfacts : p.time_to_completion = p0.time_to_completion ∧
                p.pid = pid := by
              rcases alookup_foldl_setReady (st.ioman.update st.clock).1 st.table pid
                with he | he
              · rw [hlk, hp0] at he
                injection he with he
                subst he
                exact ⟨rfl, hp0pid⟩
              · rw [hlk, hp0] at he
                injection he with he
                subst he
                exact ⟨rfl, hp0pid⟩
            obtain ⟨hpttc, hppid⟩ := hpfacts
            have hq : 1 ≤ S.get_alloted_time sched2 pid := S.alloted_pos _ _
            obtain ⟨hfpid, hfle, hfttc, hfcum, hfpos, hfW, hfT, hfR, hfS⟩ :=
              run_for_facts { p with state := PState.RUNNING }
                (S.get_alloted_time sched2 pid) (ds st.cursor).trig (ds st.cursor).rd
            dsimp only at hfpid hfle hfttc hfcum hfpos hfW hfT hfR hfS
            have hran : 1 ≤ (Process.run_for { p with state := PState.RUNNING }
                (S.get_alloted_time sched2 pid) (ds st.cursor).trig
                (ds st.cursor).rd).2 :=
              hfpos hq (by omega)
            have hr1 : (runDispatch
                ((st.ioman.update st.clock).1.foldl setReady st.table)
                { p with state := PState.RUNNING } (S.get_alloted_time sched2 pid)
                (ds st.cursor).trig (ds st.cursor).rd).1 =
                (Process.run_for { p with state := PState.RUNNING }
                  (S.get_alloted_time sched2 pid) (ds st.cursor).trig
                  (ds st.cursor).rd).1 := rfl
            have hothersA : ∀ k ∈ (schedWaitPids S st).erase pid,
                ttcOf (aset ((st.ioman.update st.clock).1.foldl setReady st.table)
                  pid (Process.run_for { p with state := PState.RUNNING }
                    (S.get_alloted_time sched2 pid) (ds st.cursor).trig
                    (ds st.cursor).rd).1) k = ttcOf st.table k := by
              intro k hk
              have hkne : k ≠ pid := ne_of_mem_erase hnodup hk
              have h1 : ttcOf (aset ((st.ioman.update st.clock).1.foldl setReady
                  st.table) pid (Process.run_for { p with state := PState.RUNNING }
                    (S.get_alloted_time sched2 pid) (ds st.cursor).trig
                    (ds st.cursor).rd).1) k =
                  ttcOf ((st.ioman.update st.clock).1.foldl setReady st.table) k := by
                unfold ttcOf
                rw [alookup_aset_ne _ _ _ _ (fun h => hkne h.symm)]
              exact h1.trans (httc1 k)
            have hltA : ttcOf (aset ((st.ioman.update st.clock).1.foldl setReady
                  st.table) pid (Process.run_for { p with state := PState.RUNNING }
                  (S.get_alloted_time sched2 pid) (ds st.cursor).trig
                  (ds st.cursor).rd).1) pid < ttcOf st.table pid := by
              have h1 : ttcOf (aset ((st.ioman.update st.clock).1.foldl setReady
                  st.table) pid (Process.run_for { p with state := PState.RUNNING }
                    (S.get_alloted_time sched2 pid) (ds st.cursor).trig
                    (ds st.cursor).rd).1) pid =
                  (Process.run_for { p with state := PState.RUNNING }
                    (S.get_alloted_time sched2 pid) (ds st.cursor).trig
                    (ds st.cursor).rd).1.time_to_completion := by
                unfold ttcOf
                rw [alookup_aset]
              rw [h1, hfttc, httc0]
              omega
            by_cases hW : (runDispatch
                ((st.ioman.update st.clock).1.foldl setReady st.table)
                { p with state := PState.RUNNING } (S.get_alloted_time sched2 pid)
                (ds st.cursor).trig (ds st.cursor).rd).1.state = PState.WAITING
            · rw [if_pos hW]
              have hWs : (Process.run_for { p with state := PState.RUNNING }
                  (S.get_alloted_time sched2 pid) (ds st.cursor).trig
                  (ds st.cursor).rd).1.state = PState.WAITING := by
                rw [← hr1]; exact hW
              have hnT : ¬ (Process.run_for { p with state := PState.RUNNING }
                  (S.get_alloted_time sched2 pid) (ds st.cursor).trig
                  (ds st.cursor).rd).1.state = PState.TERMINATED := by
                rw [hWs]; simp
              have hT2 : (runDispatch
                  ((st.ioman.update st.clock).1.foldl setReady st.table)
                  { p with state := PState.RUNNING } (S.get_alloted_time sched2 pid)
                  (ds st.cursor).trig (ds st.cursor).rd).2.1 =
                  aset ((st.ioman.update st.clock).1.foldl setReady st.table) pid
                    (Process.run_for { p with state := PState.RUNNING }
                      (S.get_alloted_time sched2 pid) (ds st.cursor).trig
                      (ds st.cursor).rd).1 := by
                unfold runDispatch
                dsimp only
                rw [if_neg hnT]
                have hkey : ({ p with state := PState.RUNNING } : Process).pid = pid :=
                  hppid
                rw [hkey]
              constructor
              · refine cpuInv_of S _ (schedWaitPids S st) ?_ hnodup ?_
                · rw [schedWaitPids_mk, add_waiting_waiting, waitPids_append]
                  dsimp only
                  rw [hps2, ← hM]
                  exact erase_add_singleton _ _ _ hpmem
                · intro k hk
                  show pidOkB (runDispatch
                    ((st.ioman.update st.clock).1.foldl setReady st.table)
                    { p with state := PState.RUNNING } (S.get_alloted_time sched2 pid)
                    (ds st.cursor).trig (ds st.cursor).rd).2.1 k = true
                  rw [hT2]
                  by_cases hkp : k = pid
                  · subst hkp
                    refine (pidOkB_iff _ _).2 ⟨_, alookup_aset _ _ _, hfW hWs, ?_⟩
                    rw [hfpid]
                    exact hppid
                  · rw [pidOkB_aset_ne _ _ _ _ (fun h => hkp h.symm), hok1 k]
                    exact hall k hk
              · left
                rw [measW_mk, add_waiting_waiting, waitPids_append]
                dsimp only
                rw [hps2, erase_add_singleton _ _ _ hpmem, hM, hT2]
                exact sum_ttc_lt _ _ _ pid hpmemM hothersA hltA
            · rw [if_neg hW]
              by_cases hT : (runDispatch
                  ((st.ioman.update st.clock).1.foldl setReady st.table)
                  { p with state := PState.RUNNING } (S.get_alloted_time sched2 pid)
                  (ds st.cursor).trig (ds st.cursor).rd).1.state = PState.TERMINATED
              · rw [if_pos hT]
                have hTs : (Process.run_for { p with state := PState.RUNNING }
                    (S.get_alloted_time sched2 pid) (ds st.cursor).trig
                    (ds st.cursor).rd).1.state = PState.TERMINATED := by
                  rw [← hr1]; exact hT
                have hT2 : (runDispatch
                    ((st.ioman.update st.clock).1.foldl setReady st.table)
                    { p with state := PState.RUNNING } (S.get_alloted_time sched2 pid)
                    (ds st.cursor).trig (ds st.cursor).rd).2.1 =
                    aremove ((st.ioman.update st.clock).1.foldl setReady st.table)
                      pid := by
                  unfold runDispatch
                  dsimp only
                  rw [if_pos hTs]
                  have hkey : ({ p with state := PState.RUNNING } : Process).pid = pid :=
                    hppid
                  rw [hkey]
                have hNEWf : (S.pids ((st.ioman.update st.clock).1.foldl
                    S.add_process st.sched)).erase pid +
                    (((st.ioman.update st.clock).2.waiting_processes.map Prod.fst :
                      List Pid) : Multiset Pid) =
                    (schedWaitPids S st).erase pid := by
                  rw [← hM]
                  exact (Multiset.erase_add_left_pos _ hpmem).symm
                have hothersR : ∀ k ∈ (schedWaitPids S st).erase pid,
                    ttcOf (aremove ((st.ioman.update st.clock).1.foldl setReady
                      st.table) pid) k = ttcOf st.table k := by
                  intro k hk
                  have hkne : k ≠ pid := ne_of_mem_erase hnodup hk
                  have h1 : ttcOf (aremove ((st.ioman.update st.clock).1.foldl
                      setReady st.table) pid) k =
                      ttcOf ((st.ioman.update st.clock).1.foldl setReady st.table)
                        k := by
                    unfold ttcOf
                    rw [alookup_aremove_ne _ _ _ (fun h => hkne h.symm)]
                  exact h1.trans (httc1 k)
                constructor
                · refine cpuInv_of S _ ((schedWaitPids S st).erase pid) ?_
                    (Multiset.Nodup.erase pid hnodup) ?_
                  · rw [schedWaitPids_mk, hps2]
                    exact hNEWf
                  · intro k hk
                    have hkne : k ≠ pid := ne_of_mem_erase hnodup hk
                    show pidOkB (runDispatch
                      ((st.ioman.update st.clock).1.foldl setReady st.table)
                      { p with state := PState.RUNNING }
                      (S.get_alloted_time sched2 pid)
                      (ds st.cursor).trig (ds st.cursor).rd).2.1 k = true
                    rw [hT2, pidOkB_aremove_ne _ _ _ (fun h => hkne h.symm), hok1 k]
                    exact hall k (Multiset.mem_of_mem_erase hk)
                · left
                  rw [measW_mk, hps2, hNEWf, hT2]
                  refine sum_ttc_erase_lt _ _ _ pid hpmemM hothersR ?_
                  rw [httc0]
                  exact hp0ttc
              · rw [if_neg hT]
                have hRs : (Process.run_for { p with state := PState.RUNNING }
                    (S.get_alloted_time sched2 pid) (ds st.cursor).trig
                    (ds st.cursor).rd).1.state = PState.RUNNING := by
                  rcases hfS with h | h | h
                  · exact absurd (by rw [hr1]; exact h) hW
                  · exact absurd (by rw [hr1]; exact h) hT
                  · exact h
                have hnT : ¬ (Process.run_for { p with state := PState.RUNNING }
                    (S.get_alloted_time sched2 pid) (ds st.cursor).trig
                    (ds st.cursor).rd).1.state = PState.TERMINATED := by
                  rw [hRs]; simp
                have hT2 : (runDispatch
                    ((st.ioman.update st.clock).1.foldl setReady st.table)
                    { p with state := PState.RUNNING } (S.get_alloted_time sched2 pid)
                    (ds st.cursor).trig (ds st.cursor).rd).2.1 =
                    aset ((st.ioman.update st.clock).1.foldl setReady st.table) pid
                      (Process.run_for { p with state := PState.RUNNING }
                        (S.get_alloted_time sched2 pid) (ds st.cursor).trig
                        (ds st.cursor).rd).1 := by
                  unfold runDispatch
                  dsimp only
                  rw [if_neg hnT]
                  have hkey : ({ p with state := PState.RUNNING } : Process).pid = pid :=
                    hppid
                  rw [hkey]
                have hothersB : ∀ k ∈ (schedWaitPids S st).erase pid,
                    ttcOf (aset (runDispatch
                      ((st.ioman.update st.clock).1.foldl setReady st.table)
                      { p with state := PState.RUNNING }
                      (S.get_alloted_time sched2 pid)
                      (ds st.cursor).trig (ds st.cursor).rd).2.1 pid
                      { (runDispatch
                        ((st.ioman.update st.clock).1.foldl setReady st.table)
                        { p with state := PState.RUNNING }
                        (S.get_alloted_time sched2 pid)
                        (ds st.cursor).trig (ds st.cursor).rd).1 with
                          state := PState.READY }) k = ttcOf st.table k := by
                  intro k hk
                  have hkne : k ≠ pid := ne_of_mem_erase hnodup hk
                  have h1 : ttcOf (aset (runDispatch
                      ((st.ioman.update st.clock).1.foldl setReady st.table)
                      { p with state := PState.RUNNING }
                      (S.get_alloted_time sched2 pid)
                      (ds st.cursor).trig (ds st.cursor).rd).2.1 pid
                      { (runDispatch
                        ((st.ioman.update st.clock).1.foldl setReady st.table)
                        { p with state := PState.RUNNING }
                        (S.get_alloted_time sched2 pid)
                        (ds st.cursor).trig (ds st.cursor).rd).1 with
                          state := PState.READY }) k =
                      ttcOf (runDispatch
                        ((st.ioman.update st.clock).1.foldl setReady st.table)
                        { p with state := PState.RUNNING }
                        (S.get_alloted_time sched2 pid)
                        (ds st.cursor).trig (ds st.cursor).rd).2.1 k := by
                    unfold ttcOf
                    rw [alookup_aset_ne _ _ _ _ (fun h => hkne h.symm)]
                  rw [h1, hT2]
                  exact hothersA k hk
                constructor
                · refine cpuInv_of S _ (schedWaitPids S st) ?_ hnodup ?_
                  · rw [schedWaitPids_mk, S.pids_add, hps2,
                      Multiset.cons_erase hpmem]
                    exact hM
                  · intro k hk
                    by_cases hkp : k = pid
                    · rw [hkp]
                      refine (pidOkB_iff _ _).2 ⟨_, alookup_aset _ _ _, ?_, ?_⟩
                      · show 1 ≤ (Process.run_for { p with state := PState.RUNNING }
                          (S.get_alloted_time sched2 pid) (ds st.cursor).trig
                          (ds st.cursor).rd).1.time_to_completion
                        exact hfR hRs
                      · show (runDispatch
                          ((st.ioman.update st.clock).1.foldl setReady st.table)
                          { p with state := PState.RUNNING }
                          (S.get_alloted_time sched2 pid)
                          (ds st.cursor).trig (ds st.cursor).rd).1.pid = pid
                        rw [hr1, hfpid]
                        exact hppid
                    · have hkne : pid ≠ k := fun h => hkp h.symm
                      show pidOkB (aset (runDispatch
                        ((st.ioman.update st.clock).1.foldl setReady st.table)
                        { p with state := PState.RUNNING }
                        (S.get_alloted_time sched2 pid)
                        (ds st.cursor).trig (ds st.cursor).rd).2.1 pid _) k = true
                      rw [pidOkB_aset_ne _ _ _ _ hkne, hT2,
                        pidOkB_aset_ne _ _ _ _ hkne, hok1 k]
                      exact hall k hk
                · left
                  rw [measW_mk, S.pids_add, hps2, Multiset.cons_erase hpmem, hM]
                  refine sum_ttc_lt _ _ _ pid hpmemM hothersB ?_
                  have h1 : ttcOf (aset (runDispatch
                      ((st.ioman.update st.clock).1.foldl setReady st.table)
                      { p with state := PState.RUNNING }
                      (S.get_alloted_time sched2 pid)
                      (ds st.cursor).trig (ds st.cursor).rd).2.1 pid
                      { (runDispatch
                        ((st.ioman.update st.clock).1.foldl setReady st.table)
                        { p with state := PState.RUNNING }
                        (S.get_alloted_time sched2 pid)
                        (ds st.cursor).trig (ds st.cursor).rd).1 with
                          state := PState.READY }) pid =
                      (Process.run_for { p with state := PState.RUNNING }
                        (S.get_alloted_time sched2 pid) (ds st.cursor).trig
                        (ds st.cursor).rd).1.time_to_completion := by
                    unfold ttcOf
                    rw [alookup_aset]
                    rfl
                  rw [h1, hfttc, httc0]
                  omega
  · rw [if_neg hsp]
    have hz : S.pids ((st.ioman.update st.clock).1.foldl S.add_process st.sched) =
        0 := by
      by_contra hne
      exact hsp ((S.has_iff _).2 hne)
    have hr0 : (((st.ioman.update st.clock).1 : List Pid) : Multiset Pid) = 0 := by
      refine Multiset.le_zero.1 ?_
      rw [← hz, hpids1]
      exact Multiset.le_add_right _ _
    have hreade : (st.ioman.update st.clock).1 = [] := (Multiset.coe_eq_zero _).1 hr0
    have hs0 : S.pids st.sched = 0 := by
      refine Multiset.le_zero.1 ?_
      rw [← hz, hpids1]
      exact Multiset.le_add_left _ _
    have hfilt : st.ioman.waiting_processes.filter
        (fun e => decide (e.2 ≤ st.clock)) = [] := by
      have h1 : (st.ioman.waiting_processes.filter
          (fun e => decide (e.2 ≤ st.clock))).map Prod.fst = [] := hreade
      exact (List.map_eq_nil_iff).1 h1
    have hgt : ∀ e ∈ st.ioman.waiting_processes, st.clock < e.2 := by
      intro e he
      have h1 := (List.filter_eq_nil_iff).1 hfilt e he
      simpa using h1
    have hkeep : (st.ioman.update st.clock).2.waiting_processes =
        st.ioman.waiting_processes := by
      show st.ioman.waiting_processes.filter (fun e => decide (st.clock < e.2)) = _
      exact List.filter_eq_self.2 (fun e he => by simpa using hgt e he)
    have hwne : st.ioman.waiting_processes ≠ [] := by
      intro hempty
      unfold cpuDone at hnd0
      rw [hempty] at hnd0
      have hhp : S.has_processes st.sched = false := by
        rcases Bool.eq_false_or_eq_true (S.has_processes st.sched) with h | h
        · exact absurd hs0 ((S.has_iff _).1 h)
        · exact h
      rw [hhp] at hnd0
      simp at hnd0
    constructor
    · refine cpuInv_of S _ (schedWaitPids S st) ?_ hnodup ?_
      · rw [schedWaitPids_mk]
        exact hM
      · intro k hk
        show pidOkB ((st.ioman.update st.clock).1.foldl setReady st.table) k = true
        rw [hok1 k]
        exact hall k hk
    · right
      constructor
      · show measW S _ = measW S st
        rw [measW_mk, hM]
        exact sum_ttc_congr _ _ _ (fun k _ => httc1 k)
      · show measC _ < measC st
        rw [measC_mk, hkeep]
        unfold measC
        have h1 := maxCompletion_lt st.ioman.waiting_processes st.clock hwne hgt
        omega

theorem cpu_terminates_aux {σ : Type} (S : SchedModel σ) (ds : Nat → Draw) :
    ∀ w c (st : CPUState σ), cpuInv S st → measW S st = w → measC st = c →
      ∃ n, cpuDone S (cpuIter S ds n st) = true := by
  intro w
  induction w using Nat.strong_induction_on with
  | _ w ihW =>
      intro c
      induction c using Nat.strong_induction_on with
      | _ c ihC =>
          intro st hInv hW hC
          by_cases hdone : cpuDone S st = true
          · exact ⟨0, hdone⟩
          · have hnd : cpuDone S st = false := Bool.eq_false_iff.2 hdone
            obtain ⟨hInv2, hprog⟩ := cpuStep_progress S ds st hInv hnd
            rcases hprog with hlt | ⟨heq, hltC⟩
            · obtain ⟨n, hn⟩ := ihW (measW S (cpuStep S ds st)) (hW ▸ hlt)
                (measC (cpuStep S ds st)) (cpuStep S ds st) hInv2 rfl rfl
              exact ⟨n + 1, hn⟩
            · obtain ⟨n, hn⟩ := ihC (measC (cpuStep S ds st)) (hC ▸ hltC)
                (cpuStep S ds st) hInv2 (heq.trans hW) rfl
              exact ⟨n + 1, hn⟩

/-- C3.  For every scheduler obeying the interface laws, every finite set of
admitted processes with positive remaining work (and pending I/O entries),
and every stream of random draws, the dispatcher loop `CPU.run` reaches its
exit condition: after finitely many iterations the scheduler holds no ready
process and the I/O manager's waiting list is empty. -/
theorem cpu_run_terminates {σ : Type} (S : SchedModel σ) (ds : Nat → Draw)
    (st : CPUState σ) (hInv : cpuInv S st) :
    ∃ n, S.pids (cpuIter S ds n st).sched = 0 ∧
      (cpuIter S ds n st).ioman.waiting_processes = [] := by
  obtain ⟨n, hn⟩ := cpu_terminates_aux S ds (measW S st) (measC st) st hInv rfl rfl
  simp only [cpuDone, Bool.and_eq_true, Bool.not_eq_true'] at hn
  refine ⟨n, ?_, ?_⟩
  · by_contra hne
    have h2 := (S.has_iff _).2 hne
    rw [hn.1] at h2
    cases h2
  · cases hlist : (cpuIter S ds n st).ioman.waiting_processes with
    | nil => rfl
    | cons e rest =>
        have h3 := hn.2
        rw [hlist] at h3
        simp at h3

theorem cpu_run_terminates_witness :
    cpuInv fifoSched ⟨0, [(1, ⟨1, 0, 2, 0, PState.READY⟩)], [1], ⟨[], 0⟩, 0⟩ ∧
    ∃ n, fifoSched.pids (cpuIter fifoSched (fun _ => ⟨false, 0, 0⟩) n
        ⟨0, [(1, ⟨1, 0, 2, 0, PState.READY⟩)], [1], ⟨[], 0⟩, 0⟩).sched = 0 ∧
      (cpuIter fifoSched (fun _ => ⟨false, 0, 0⟩) n
        ⟨0, [(1, ⟨1, 0, 2, 0, PState.READY⟩)], [1], ⟨[], 0⟩,
          0⟩).ioman.waiting_processes = [] := by
  have hInv : cpuInv fifoSched
      ⟨0, [(1, ⟨1, 0, 2, 0, PState.READY⟩)], [1], ⟨[], 0⟩, 0⟩ := by
    unfold cpuInv
    decide
  exact ⟨hInv, cpu_run_terminates fifoSched (fun _ => ⟨false, 0, 0⟩) _ hInv⟩

theorem filter_eq_takeWhile_sorted (l : List (Pid × Nat)) (now : Nat)
    (h : l.Pairwise (fun a b => a.2 ≤ b.2)) :
    l.filter (fun e => decide (e.2 ≤ now)) =
      l.takeWhile (fun e => decide (e.2 ≤ now)) := by
  induction l with
  | nil => rfl
  | cons e rest ih =>
      obtain ⟨hhead, hrest⟩ := List.pairwise_cons.1 h
      by_cases he : e.2 ≤ now
      · rw [List.filter_cons_of_pos (by simpa using he),
          List.takeWhile_cons_of_pos (by simpa using he), ih hrest]
      · rw [List.filter_cons_of_neg (by simpa using he),
          List.takeWhile_cons_of_neg (by simpa using he)]
        refine List.filter_eq_nil_iff.2 ?_
        intro a ha
        have h2 := hhead a ha
        simp only [decide_eq_true_eq]
        omega

theorem filter_eq_dropWhile_sorted (l : List (Pid × Nat)) (now : Nat)
    (h : l.Pairwise (fun a b => a.2 ≤ b.2)) :
    l.filter (fun e => decide (now < e.2)) =
      l.dropWhile (fun e => decide (e.2 ≤ now)) := by
  induction l with
  | nil => rfl
  | cons e rest ih =>
      obtain ⟨hhead, hrest⟩ := List.pairwise_cons.1 h
      by_cases he : e.2 ≤ now
      · rw [List.filter_cons_of_neg (by simp; omega),
          List.dropWhile_cons_of_pos (by simpa using he), ih hrest]
      · rw [List.filter_cons_of_pos (by simp; omega),
          List.dropWhile_cons_of_neg (by simpa using he)]
        congr 1
        refine List.filter_eq_self.2 ?_
        intro a ha
        have h2 := hhead a ha
        simp only [decide_eq_true_eq]
        omega

/-- C4.  The I/O manager serialises I/O through its watermark: `park` draws a
service time from `[2, 5]`, starts at `max(now, next_free_tick)`, appends the
completion tick and advances the watermark; completion ticks are therefore
nondecreasing in park order (in particular a later park never completes
before an earlier one), and `drain` releases exactly the due prefix of the
waiting list in insertion order. -/
theorem io_fcfs (m : IOMState) (pid pid2 : Pid) (now d now2 d2 : Nat)
    (h : iomInv m) :
    (2 ≤ randint 2 5 d ∧ randint 2 5 d ≤ 5) ∧
    (m.add_waiting_process pid now d).waiting_processes =
      m.waiting_processes ++ [(pid, max now m.next_free_time + randint 2 5 d)] ∧
    (m.add_waiting_process pid now d).next_free_time =
      max now m.next_free_time + randint 2 5 d ∧
    iomInv (m.add_waiting_process pid now d) ∧
    ((m.add_waiting_process pid now d).add_waiting_process pid2 now2
        d2).next_free_time =
      max now2 (max now m.next_free_time + randint 2 5 d) + randint 2 5 d2 ∧
    max now m.next_free_time + randint 2 5 d ≤
      max now2 (max now m.next_free_time + randint 2 5 d) + randint 2 5 d2 ∧
    (∀ a ∈ (m.add_waiting_process pid now d).waiting_processes,
      ∀ b ∈ [(pid2, max now2 (max now m.next_free_time + randint 2 5 d) +
        randint 2 5 d2)], a.2 ≤ b.2) ∧
    (m.update now).1 =
      (m.waiting_processes.takeWhile (fun e => decide (e.2 ≤ now))).map Prod.fst ∧
    (m.update now).2.waiting_processes =
      m.waiting_processes.dropWhile (fun e => decide (e.2 ≤ now)) ∧
    (m.waiting_processes.takeWhile (fun e => decide (e.2 ≤ now))) ++
      (m.waiting_processes.dropWhile (fun e => decide (e.2 ≤ now))) =
      m.waiting_processes := by
  obtain ⟨hsorted, hbound⟩ := h
  have hs1 := randint_bounds 2 5 d (by omega)
  have hs2 := randint_bounds 2 5 d2 (by omega)
  have hinv2 : iomInv (m.add_waiting_process pid now d) := by
    constructor
    · show (m.waiting_processes ++ [_]).Pairwise _
      refine List.pairwise_append.2 ⟨hsorted, by simp, ?_⟩
      intro a ha b hb
      have h1 := hbound a ha
      simp only [List.mem_singleton] at hb
      subst hb
      show a.2 ≤ max now m.next_free_time + randint 2 5 d
      have h2 : m.next_free_time ≤ max now m.next_free_time := le_max_right _ _
      omega
    · intro e he
      show e.2 ≤ max now m.next_free_time + randint 2 5 d
      rcases List.mem_append.1 he with h1 | h1
      · have h2 := hbound e h1
        have h3 : m.next_free_time ≤ max now m.next_free_time := le_max_right _ _
        omega
      · simp only [List.mem_singleton] at h1
        subst h1
        simp
  refine ⟨⟨hs1.1, hs1.2⟩, rfl, rfl, hinv2, rfl, ?_, ?_, ?_, ?_, ?_⟩
  · have h2 : max now m.next_free_time + randint 2 5 d ≤
        max now2 (max now m.next_free_time + randint 2 5 d) := le_max_right _ _
    omega
  · intro a ha b hb
    simp only [List.mem_singleton] at hb
    subst hb
    have h1 := hinv2.2 a ha
    show a.2 ≤ max now2 _ + randint 2 5 d2
    have h2 : (m.add_waiting_process pid now d).next_free_time ≤
        max now2 (m.add_waiting_process pid now d).next_free_time :=
      le_max_right _ _
    have h3 : (m.add_waiting_process pid now d).next_free_time =
        max now m.next_free_time + randint 2 5 d := rfl
    omega
  · show (m.waiting_processes.filter (fun e => decide (e.2 ≤ now))).map Prod.fst = _
    rw [filter_eq_takeWhile_sorted _ _ hsorted]
  · show m.waiting_processes.filter (fun e => decide (now < e.2)) = _
    rw [filter_eq_dropWhile_sorted _ _ hsorted]
  · exact List.takeWhile_append_dropWhile _ _

theorem io_fcfs_witness :
    iomInv ⟨[(7, 4)], 4⟩ ∧
    ((⟨[(7, 4)], 4⟩ : IOMState).add_waiting_process 8 3 0).waiting_processes =
      [(7, 4)] ++ [(8, max 3 4 + randint 2 5 0)] ∧
    ((⟨[(7, 4)], 4⟩ : IOMState).update 3).1 =
      (([(7, 4)] : List (Pid × Nat)).takeWhile
        (fun e => decide (e.2 ≤ 3))).map Prod.fst := by
  have h := io_fcfs ⟨[(7, 4)], 4⟩ 8 9 3 0 5 1 (by unfold iomInv; decide)
  exact ⟨by unfold iomInv; decide, h.2.1, h.2.2.2.2.2.2.2.1⟩

theorem keyLt_trans {a b c : Nat × Nat} (h1 : keyLt a b = true)
    (h2 : keyLt b c = true) : keyLt a c = true := by
  unfold keyLt at h1 h2 ⊢
  simp only [decide_eq_true_eq] at h1 h2 ⊢
  omega

theorem keyLt_total (a b : Nat × Nat) (h1 : ¬ keyLt a b = true)
    (h2 : ¬ (a = b)) : keyLt b a = true := by
  rw [Prod.ext_iff] at h2
  unfold keyLt at h1 ⊢
  simp only [decide_eq_true_eq] at h1 ⊢
  omega

theorem keyLt_vr_le {a b : Nat × Nat} (h : keyLt a b = true) : a.1 ≤ b.1 := by
  unfold keyLt at h
  simp only [decide_eq_true_eq] at h
  omega

theorem mem_sdInsert (e x : (Nat × Nat) × Pid) (l : List ((Nat × Nat) × Pid))
    (h : x ∈ sdInsert e l) : x = e ∨ x ∈ l := by
  induction l with
  | nil => simpa [sdInsert] using h
  | cons y rest ih =>
      unfold sdInsert at h
      by_cases h1 : keyLt e.1 y.1 = true
      · rw [if_pos h1] at h
        rcases List.mem_cons.1 h with h2 | h2
        · exact Or.inl h2
        · exact Or.inr h2
      · rw [if_neg h1] at h
        by_cases h2 : e.1 = y.1
        · rw [if_pos h2] at h
          rcases List.mem_cons.1 h with h3 | h3
          · exact Or.inl h3
          · exact Or.inr (List.mem_cons_of_mem _ h3)
        · rw [if_neg h2] at h
          rcases List.mem_cons.1 h with h3 | h3
          · exact Or.inr (h3 ▸ List.mem_cons_self _ _)
          · rcases ih h3 with h4 | h4
            · exact Or.inl h4
            · exact Or.inr (List.mem_cons_of_mem _ h4)

theorem mem_sdInsert_self (e : (Nat × Nat) × Pid) (l : List ((Nat × Nat) × Pid)) :
    e ∈ sdInsert e l := by
  induction l with
  | nil => simp [sdInsert]
  | cons y rest ih =>
      unfold sdInsert
      by_cases h1 : keyLt e.1 y.1 = true
      · rw [if_pos h1]; exact List.mem_cons_self _ _
      · rw [if_neg h1]
        by_cases h2 : e.1 = y.1
        · rw [if_pos h2]; exact List.mem_cons_self _ _
        · rw [if_neg h2]; exact List.mem_cons_of_mem _ ih

theorem sdInsert_sorted (e : (Nat × Nat) × Pid) (l : List ((Nat × Nat) × Pid))
    (h : l.Pairwise (fun a b => keyLt a.1 b.1 = true)) :
    (sdInsert e l).Pairwise (fun a b => keyLt a.1 b.1 = true) := by
  induction l with
  | nil => simp [sdInsert]
  | cons x rest ih =>
      obtain ⟨hhead, hrest⟩ := List.pairwise_cons.1 h
      unfold sdInsert
      by_cases h1 : keyLt e.1 x.1 = true
      · rw [if_pos h1]
        refine List.pairwise_cons.2 ⟨?_, h⟩
        intro b hb
        rcases List.mem_cons.1 hb with h2 | h2
        · rw [h2]; exact h1
        · exact keyLt_trans h1 (hhead b h2)
      · rw [if_neg h1]
        by_cases h2 : e.1 = x.1
        · rw [if_pos h2]
          refine List.pairwise_cons.2 ⟨?_, hrest⟩
          intro b hb
          rw [h2]
          exact hhead b hb
        · rw [if_neg h2]
          refine List.pairwise_cons.2 ⟨?_, ih hrest⟩
          intro b hb
          rcases mem_sdInsert e b rest hb with h3 | h3
          · rw [h3]
            exact keyLt_total _ _ h1 h2
          · exact hhead b h3

theorem cfsSorted_cleanup (c : CFS) (live : Pid → Bool) (hs : cfsSorted c) :
    cfsSorted (c.cleanup live) :=
  List.Pairwise.sublist (List.filter_sublist _) hs

/-- C5.  CFS admission gives a process entering a non-empty tree the vruntime
`max(cumulative_time_ran, current minimum vruntime)` (the head key of the
sorted tree being the minimum vruntime), and a process entering an empty tree
its own `cumulative_time_ran`; `pick_next` (after cleanup) removes and
returns the entry with the smallest `(vruntime, pid)` key, so the chosen
process has minimum vruntime among the remaining ready processes, ties broken
by pid. -/
theorem cfs_admit_pick_spec (c : CFS) (p : Process) (live : Pid → Bool)
    (hs : cfsSorted c) :
    (c.virtual_tree = [] →
      alookup (c.add_process p).id_to_vruntime p.pid =
        some p.cumulative_time_ran ∧
      (c.add_process p).virtual_tree =
        [((p.cumulative_time_ran, p.pid), p.pid)]) ∧
    (∀ x rest, c.virtual_tree = x :: rest →
      alookup (c.add_process p).id_to_vruntime p.pid =
        some (max p.cumulative_time_ran x.1.1) ∧
      (∀ e ∈ c.virtual_tree, x.1.1 ≤ e.1.1) ∧
      ((max p.cumulative_time_ran x.1.1, p.pid), p.pid) ∈
        (c.add_process p).virtual_tree) ∧
    cfsSorted (c.add_process p) ∧
    ((c.cleanup live).virtual_tree = [] → c.get_next_process live = none) ∧
    (∀ x rest, (c.cleanup live).virtual_tree = x :: rest →
      c.get_next_process live =
        some (x.2, { c.cleanup live with virtual_tree := rest }) ∧
      (∀ e ∈ (c.cleanup live).virtual_tree, x.1 = e.1 ∨ keyLt x.1 e.1 = true) ∧
      (∀ e ∈ (c.cleanup live).virtual_tree, x.1.1 ≤ e.1.1)) := by
  refine ⟨?_, ?_, ?_, ?_, ?_⟩
  · intro hempty
    unfold CFS.add_process
    rw [hempty]
    exact ⟨alookup_aset _ _ _, rfl⟩
  · intro x rest hne
    unfold CFS.add_process
    rw [hne]
    refine ⟨alookup_aset _ _ _, ?_, ?_⟩
    · intro e he
      unfold cfsSorted at hs
      rw [hne] at hs
      rcases List.mem_cons.1 he with h1 | h1
      · rw [h1]
      · exact keyLt_vr_le ((List.pairwise_cons.1 hs).1 e h1)
    · exact mem_sdInsert_self _ _
  · unfold cfsSorted at hs
    unfold CFS.add_process
    cases htree : c.virtual_tree with
    | nil =>
        rw [htree] at hs
        exact sdInsert_sorted _ _ hs
    | cons x rest =>
        rw [htree] at hs
        exact sdInsert_sorted _ _ hs
  · intro hempty
    unfold CFS.get_next_process
    dsimp only
    rw [hempty]
  · intro x rest hne
    have hsc := cfsSorted_cleanup c live hs
    unfold cfsSorted at hsc
    rw [hne] at hsc
    obtain ⟨hhead, -⟩ := List.pairwise_cons.1 hsc
    refine ⟨?_, ?_, ?_⟩
    · unfold CFS.get_next_process
      dsimp only
      rw [hne]
    · intro e he
      rw [hne] at he
      rcases List.mem_cons.1 he with h1 | h1
      · exact Or.inl (by rw [h1])
      · exact Or.inr (hhead e h1)
    · intro e he
      rw [hne] at he
      rcases List.mem_cons.1 he with h1 | h1
      · rw [h1]
      · exact keyLt_vr_le (hhead e h1)

theorem cfs_admit_pick_spec_witness :
    cfsSorted ⟨10, 2, [((4, 2), 2)], [(2, 4)]⟩ ∧
    alookup ((⟨10, 2, [((4, 2), 2)], [(2, 4)]⟩ : CFS).add_process
        ⟨3, 0, 5, 1, PState.READY⟩).id_to_vruntime 3 = some (max 1 4) := by
  have h := cfs_admit_pick_spec ⟨10, 2, [((4, 2), 2)], [(2, 4)]⟩
    ⟨3, 0, 5, 1, PState.READY⟩ (fun _ => true)
    (by unfold cfsSorted; decide)
  exact ⟨by unfold cfsSorted; decide, (h.2.1 ((4, 2), 2) [] rfl).1⟩

theorem getD_set_self {α : Type} (l : List α) (i : Nat) (x d : α)
    (h : i < l.length) : (l.set i x).getD i d = x := by
  induction l generalizing i with
  | nil => simp at h
  | cons a rest ih =>
      cases i with
      | zero => rfl
      | succ j =>
          simp only [List.set_cons_succ, List.getD_cons_succ]
          exact ih j (by simpa using h)

theorem getD_set_ne {α : Type} (l : List α) (i j : Nat) (x d : α)
    (h : i ≠ j) : (l.set i x).getD j d = l.getD j d := by
  induction l generalizing i j with
  | nil => simp
  | cons a rest ih =>
      cases i with
      | zero =>
          cases j with
          | zero => exact absurd rfl h
          | succ k => rfl
      | succ i2 =>
          cases j with
          | zero => rfl
          | succ k =>
              simp only [List.set_cons_succ, List.getD_cons_succ]
              exact ih i2 k (fun hx => h (by rw [hx]))

theorem set_getD_self {α : Type} (l : List α) (i : Nat) (d : α)
    (h : i < l.length) : l.set i (l.getD i d) = l := by
  induction l generalizing i with
  | nil => simp at h
  | cons a rest ih =>
      cases i with
      | zero => rfl
      | succ j =>
          simp only [List.set_cons_succ, List.getD_cons_succ]
          rw [ih j (by simpa using h)]

theorem boostLevel_spec (now : Nat) (q : List Pid) :
    ∀ (m1 : MLFQ) (kept : List Pid), q.Nodup → 0 < m1.queues.length →
    (boostLevel now m1 kept q).2 =
      kept ++ q.filter (fun pid =>
        !(boostCond m1.process_last_boost m1.boost_threshold now pid)) ∧
    (boostLevel now m1 kept q).1.queues =
      m1.queues.set 0 (m1.queues.getD 0 [] ++
        q.filter (boostCond m1.process_last_boost m1.boost_threshold now)) ∧
    (∀ pid, pid ∈ q →
        boostCond m1.process_last_boost m1.boost_threshold now pid = true →
      alookup (boostLevel now m1 kept q).1.process_levels pid = some 0 ∧
      alookup (boostLevel now m1 kept q).1.process_time_in_level pid = some 0 ∧
      alookup (boostLevel now m1 kept q).1.process_last_boost pid = some now) ∧
    (∀ pid, ¬ (pid ∈ q ∧
        boostCond m1.process_last_boost m1.boost_threshold now pid = true) →
      alookup (boostLevel now m1 kept q).1.process_levels pid =
        alookup m1.process_levels pid ∧
      alookup (boostLevel now m1 kept q).1.process_time_in_level pid =
        alookup m1.process_time_in_level pid ∧
      alookup (boostLevel now m1 kept q).1.process_last_boost pid =
        alookup m1.process_last_boost pid) ∧
    (boostLevel now m1 kept q).1.levels = m1.levels ∧
    (boostLevel now m1 kept q).1.boost_threshold = m1.boost_threshold ∧
    (boostLevel now m1 kept q).1.process_previous_cumulative_runtime =
      m1.process_previous_cumulative_runtime ∧
    (boostLevel now m1 kept q).1.queues.length = m1.queues.length := by
  induction q with
  | nil =>
      intro m1 kept hnd hlen
      refine ⟨by simp [boostLevel], ?_, by simp, fun _ _ => ⟨rfl, rfl, rfl⟩,
        rfl, rfl, rfl, rfl⟩
      show m1.queues = m1.queues.set 0 (m1.queues.getD 0 [] ++ [])
      rw [List.append_nil, set_getD_self _ _ _ hlen]
  | cons pid rest ih =>
      intro m1 kept hnd hlen
      obtain ⟨hpid, hndrest⟩ := List.nodup_cons.1 hnd
      by_cases hc : boostCond m1.process_last_boost m1.boost_threshold now pid = true
      · have hstep : boostLevel now m1 kept (pid :: rest) =
            boostLevel now
              { m1 with
                  process_levels := aset m1.process_levels pid 0
                  process_time_in_level := aset m1.process_time_in_level pid 0
                  process_last_boost := aset m1.process_last_boost pid now
                  queues := m1.queues.set 0 ((m1.queues.getD 0 []) ++ [pid]) }
              kept rest := by
          simp only [boostLevel]
          rw [if_pos hc]
        have hcond2 : ∀ k ∈ rest,
            boostCond (aset m1.process_last_boost pid now)
              m1.boost_threshold now k =
            boostCond m1.process_last_boost m1.boost_threshold now k := by
          intro k hk
          have hkne : pid ≠ k := fun h => hpid (h ▸ hk)
          unfold boostCond
          rw [alookup_aset_ne _ _ _ _ hkne]
        have ihm := ih
          { m1 with
              process_levels := aset m1.process_levels pid 0
              process_time_in_level := aset m1.process_time_in_level pid 0
              process_last_boost := aset m1.process_last_boost pid now
              queues := m1.queues.set 0 ((m1.queues.getD 0 []) ++ [pid]) }
          kept hndrest (by simpa using hlen)
        obtain ⟨ih1, ih2, ih3, ih4, ih5, ih6, ih7, ih8⟩ := ihm
        have hfilt : rest.filter (boostCond (aset m1.process_last_boost pid now)
            m1.boost_threshold now) =
            rest.filter (boostCond m1.process_last_boost m1.boost_threshold now) :=
          List.filter_congr hcond2
        have hfiltn : rest.filter (fun k =>
            !(boostCond (aset m1.process_last_boost pid now)
              m1.boost_threshold now k)) =
            rest.filter (fun k =>
              !(boostCond m1.process_last_boost m1.boost_threshold now k)) :=
          List.filter_congr (fun k hk => by rw [hcond2 k hk])
        refine ⟨?_, ?_, ?_, ?_, ?_, ?_, ?_, ?_⟩
        · rw [hstep, ih1, hfiltn, List.filter_cons_of_neg (by simp [hc])]
        · rw [hstep, ih2]
          show (m1.queues.set 0 _).set 0 _ = _
          rw [List.filter_cons_of_pos hc, hfilt,
            getD_set_self _ _ _ _ hlen, List.set_set, List.append_assoc]
          rfl
        · intro k hk hck
          rcases List.mem_cons.1 hk with h1 | h1
          · subst h1
            have hnin : ¬ (k ∈ rest ∧ boostCond (aset m1.process_last_boost k now)
                m1.boost_threshold now k = true) := fun hx => hpid hx.1
            obtain ⟨u1, u2, u3⟩ := ih4 k hnin
            rw [hstep]
            exact ⟨by rw [u1]; exact alookup_aset _ _ _,
              by rw [u2]; exact alookup_aset _ _ _,
              by rw [u3]; exact alookup_aset _ _ _⟩
          · obtain ⟨u1, u2, u3⟩ := ih3 k h1 (by rw [hcond2 k h1]; exact hck)
            have hkne : pid ≠ k := fun h => hpid (h ▸ h1)
            rw [hstep]
            refine ⟨?_, ?_, ?_⟩
            · rw [u1]
            · rw [u2]
            · rw [u3]
        · intro k hknot
          have hkne : pid ≠ k := by
            intro h
            subst h
            exact hknot ⟨List.mem_cons_self _ _, hc⟩
          have hkrest : ¬ (k ∈ rest ∧ boostCond (aset m1.process_last_boost pid now)
              m1.boost_threshold now k = true) := by
            intro hx
            exact hknot ⟨List.mem_cons_of_mem _ hx.1,
              by rw [← hcond2 k hx.1]; exact hx.2⟩
          obtain ⟨u1, u2, u3⟩ := ih4 k hkrest
          rw [hstep]
          refine ⟨?_, ?_, ?_⟩
          · rw [u1]; exact alookup_aset_ne _ _ _ _ hkne
          · rw [u2]; exact alookup_aset_ne _ _ _ _ hkne
          · rw [u3]; exact alookup_aset_ne _ _ _ _ hkne
        · rw [hstep, ih5]
        · rw [hstep, ih6]
        · rw [hstep, ih7]
        · rw [hstep, ih8]
          exact List.length_set _ _ _
      · have hstep : boostLevel now m1 kept (pid :: rest) =
            boostLevel now m1 (kept ++ [pid]) rest := by
          simp only [boostLevel]
          rw [if_neg hc]
        obtain ⟨ih1, ih2, ih3, ih4, ih5, ih6, ih7, ih8⟩ :=
          ih m1 (kept ++ [pid]) hndrest hlen
        refine ⟨?_, ?_, ?_, ?_, ?_, ?_, ?_, ?_⟩
        · rw [hstep, ih1, List.filter_cons_of_pos (by simp [hc]),
            List.append_assoc]
          rfl
        · rw [hstep, ih2, List.filter_cons_of_neg (by simp [hc])]
        · intro k hk hck
          rcases List.mem_cons.1 hk with h1 | h1
          · subst h1
            exact absurd hck hc
          · rw [hstep]
            exact ih3 k h1 hck
        · intro k hknot
          rw [hstep]
          refine ih4 k ?_
          intro hx
          exact hknot ⟨List.mem_cons_of_mem _ hx.1, hx.2⟩
        · rw [hstep, ih5]
        · rw [hstep, ih6]
        · rw [hstep, ih7]
        · rw [hstep, ih8]

theorem mem_flat (L : List (List Pid)) (k : Pid) :
    k ∈ L.foldr (· ++ ·) [] ↔ ∃ l ∈ L, k ∈ l := by
  induction L with
  | nil => simp
  | cons a rest ih =>
      simp only [List.foldr_cons, List.mem_append, ih, List.mem_cons]
      constructor
      · rintro (h | ⟨l, hl, hk⟩)
        · exact ⟨a, Or.inl rfl, h⟩
        · exact ⟨l, Or.inr hl, hk⟩
      · rintro ⟨l, hl | hl, hk⟩
        · exact Or.inl (hl ▸ hk)
        · exact Or.inr ⟨l, hl, hk⟩

theorem autoBoost_fold (now : Nat) (idxs : List Nat) :
    ∀ (m1 : MLFQ),
    (∀ i ∈ idxs, 1 ≤ i ∧ i < m1.queues.length) →
    idxs.Nodup →
    ((idxs.map (fun i => m1.queues.getD i [])).foldr (· ++ ·) []).Nodup →
    (idxs.foldl (fun m i =>
        let bl := boostLevel now m [] (m.queues.getD i [])
        { bl.1 with queues := bl.1.queues.set i bl.2 }) m1).queues.getD 0 [] =
      m1.queues.getD 0 [] ++
        (idxs.map (fun i => (m1.queues.getD i []).filter
          (boostCond m1.process_last_boost m1.boost_threshold now))).foldr
          (· ++ ·) [] ∧
    (∀ i ∈ idxs, (idxs.foldl (fun m i =>
        let bl := boostLevel now m [] (m.queues.getD i [])
        { bl.1 with queues := bl.1.queues.set i bl.2 }) m1).queues.getD i [] =
      (m1.queues.getD i []).filter (fun pid =>
        !(boostCond m1.process_last_boost m1.boost_threshold now pid))) ∧
    (∀ j, ¬ j ∈ idxs → j ≠ 0 → (idxs.foldl (fun m i =>
        let bl := boostLevel now m [] (m.queues.getD i [])
        { bl.1 with queues := bl.1.queues.set i bl.2 }) m1).queues.getD j [] =
      m1.queues.getD j []) ∧
    (∀ pid, (∃ i ∈ idxs, pid ∈ m1.queues.getD i []) →
      boostCond m1.process_last_boost m1.boost_threshold now pid = true →
      alookup (idxs.foldl (fun m i =>
        let bl := boostLevel now m [] (m.queues.getD i [])
        { bl.1 with queues := bl.1.queues.set i bl.2 }) m1).process_levels pid =
        some 0 ∧
      alookup (idxs.foldl (fun m i =>
        let bl := boostLevel now m [] (m.queues.getD i [])
        { bl.1 with queues := bl.1.queues.set i bl.2 })
          m1).process_time_in_level pid = some 0 ∧
      alookup (idxs.foldl (fun m i =>
        let bl := boostLevel now m [] (m.queues.getD i [])
        { bl.1 with queues := bl.1.queues.set i bl.2 })
          m1).process_last_boost pid = some now) ∧
    (∀ pid, ¬ ((∃ i ∈ idxs, pid ∈ m1.queues.getD i []) ∧
        boostCond m1.process_last_boost m1.boost_threshold now pid = true) →
      alookup (idxs.foldl (fun m i =>
        let bl := boostLevel now m [] (m.queues.getD i [])
        { bl.1 with queues := bl.1.queues.set i bl.2 }) m1).process_levels pid =
        alookup m1.process_levels pid ∧
      alookup (idxs.foldl (fun m i =>
        let bl := boostLevel now m [] (m.queues.getD i [])
        { bl.1 with queues := bl.1.queues.set i bl.2 })
          m1).process_time_in_level pid = alookup m1.process_time_in_level pid ∧
      alookup (idxs.foldl (fun m i =>
        let bl := boostLevel now m [] (m.queues.getD i [])
        { bl.1 with queues := bl.1.queues.set i bl.2 })
          m1).process_last_boost pid = alookup m1.process_last_boost pid) ∧
    (idxs.foldl (fun m i =>
        let bl := boostLevel now m [] (m.queues.getD i [])
        { bl.1 with queues := bl.1.queues.set i bl.2 }) m1).levels = m1.levels ∧
    (idxs.foldl (fun m i =>
        let bl := boostLevel now m [] (m.queues.getD i [])
        { bl.1 with queues := bl.1.queues.set i bl.2 }) m1).boost_threshold =
      m1.boost_threshold ∧
    (idxs.foldl (fun m i =>
        let bl := boostLevel now m [] (m.queues.getD i [])
        { bl.1 with queues := bl.1.queues.set i bl.2 })
          m1).process_previous_cumulative_runtime =
      m1.process_previous_cumulative_runtime ∧
    (idxs.foldl (fun m i =>
        let bl := boostLevel now m [] (m.queues.getD i [])
        { bl.1 with queues := bl.1.queues.set i bl.2 }) m1).queues.length =
      m1.queues.length := by
  induction idxs with
  | nil =>
      intro m1 hbound hndi hndq
      exact ⟨by simp, by simp, fun j hj h0 => rfl, by simp, fun pid h => ⟨rfl, rfl, rfl⟩,
        rfl, rfl, rfl, rfl⟩
  | cons i rest ih =>
      intro m1 hbound hndi hndq
      obtain ⟨hi1, hilen⟩ := hbound i (List.mem_cons_self _ _)
      have hlen1 : 0 < m1.queues.length := by omega
      obtain ⟨hinotr, hndrest⟩ := List.nodup_cons.1 hndi
      have hflat : ((i :: rest).map (fun j => m1.queues.getD j [])).foldr
          (· ++ ·) [] =
          m1.queues.getD i [] ++
            ((rest.map (fun j => m1.queues.getD j [])).foldr (· ++ ·) []) := rfl
      rw [hflat] at hndq
      obtain ⟨hndqi, hndqrest, hdisj⟩ := List.nodup_append.1 hndq
      obtain ⟨bs1, bs2, bs3, bs4, bs5, bs6, bs7, bs8⟩ :=
        boostLevel_spec now (m1.queues.getD i []) m1 [] hndqi hlen1
      have hine0 : i ≠ 0 := by omega
      have hstep : (i :: rest).foldl (fun m i =>
          let bl := boostLevel now m [] (m.queues.getD i [])
          { bl.1 with queues := bl.1.queues.set i bl.2 }) m1 =
          rest.foldl (fun m i =>
            let bl := boostLevel now m [] (m.queues.getD i [])
            { bl.1 with queues := bl.1.queues.set i bl.2 })
            { (boostLevel now m1 [] (m1.queues.getD i [])).1 with
                queues := (boostLevel now m1 [] (m1.queues.getD i [])).1.queues.set
                  i (boostLevel now m1 [] (m1.queues.getD i [])).2 } := rfl
      set m2 : MLFQ := { (boostLevel now m1 [] (m1.queues.getD i [])).1 with
          queues := (boostLevel now m1 [] (m1.queues.getD i [])).1.queues.set
            i (boostLevel now m1 [] (m1.queues.getD i [])).2 } with hm2
      have hm2maps : m2.process_levels =
          (boostLevel now m1 [] (m1.queues.getD i [])).1.process_levels ∧
          m2.process_time_in_level =
            (boostLevel now m1 [] (m1.queues.getD i [])).1.process_time_in_level ∧
          m2.process_last_boost =
            (boostLevel now m1 [] (m1.queues.getD i [])).1.process_last_boost ∧
          m2.levels = m1.levels ∧ m2.boost_threshold = m1.boost_threshold ∧
          m2.process_previous_cumulative_runtime =
            m1.process_previous_cumulative_runtime := by
        refine ⟨rfl, rfl, rfl, bs5, bs6, bs7⟩
      have hm2len : m2.queues.length = m1.queues.length := by
        rw [hm2]
        show ((boostLevel now m1 [] (m1.queues.getD i [])).1.queues.set _ _).length = _
        rw [List.length_set]
        exact bs8
      have hm2q0 : m2.queues.getD 0 [] =
          m1.queues.getD 0 [] ++ (m1.queues.getD i []).filter
            (boostCond m1.process_last_boost m1.boost_threshold now) := by
        rw [hm2]
        show ((boostLevel now m1 [] (m1.queues.getD i [])).1.queues.set
          i _).getD 0 [] = _
        rw [getD_set_ne _ _ _ _ _ hine0, bs2,
          getD_set_self _ _ _ _ hlen1]
      have hm2qi : m2.queues.getD i [] =
          (m1.queues.getD i []).filter (fun pid =>
            !(boostCond m1.process_last_boost m1.boost_threshold now pid)) := by
        rw [hm2]
        show ((boostLevel now m1 [] (m1.queues.getD i [])).1.queues.set
          i _).getD i [] = _
        rw [getD_set_self _ _ _ _ (by rw [bs8]; omega), bs1, List.nil_append]
      have hm2qj : ∀ j, j ≠ i → j ≠ 0 →
          m2.queues.getD j [] = m1.queues.getD j [] := by
        intro j hji hj0
        rw [hm2]
        show ((boostLevel now m1 [] (m1.queues.getD i [])).1.queues.set
          i _).getD j [] = _
        rw [getD_set_ne _ _ _ _ _ (fun h => hji h.symm), bs2,
          getD_set_ne _ _ _ _ _ (fun h => hj0 h.symm)]
      have hrestmem : ∀ k, (∃ j ∈ rest, k ∈ m1.queues.getD j []) → k ∉
          m1.queues.getD i [] := by
        rintro k ⟨j, hj, hk⟩ hki
        exact hdisj hki ((mem_flat _ k).2 ⟨m1.queues.getD j [],
          List.mem_map.2 ⟨j, hj, rfl⟩, hk⟩)
      have hlastB : ∀ k, (∃ j ∈ rest, k ∈ m1.queues.getD j []) →
          alookup m2.process_last_boost k = alookup m1.process_last_boost k := by
        intro k hk
        rw [hm2maps.2.2.1]
        exact (bs4 k (fun hx => hrestmem k hk hx.1)).2.2
      have hcond2 : ∀ k, (∃ j ∈ rest, k ∈ m1.queues.getD j []) →
          boostCond m2.process_last_boost m2.boost_threshold now k =
          boostCond m1.process_last_boost m1.boost_threshold now k := by
        intro k hk
        unfold boostCond
        rw [hlastB k hk, hm2maps.2.2.2.2.1]
      have hm2qrest : ∀ j ∈ rest, m2.queues.getD j [] = m1.queues.getD j [] := by
        intro j hj
        have hj1 := (hbound j (List.mem_cons_of_mem _ hj)).1
        exact hm2qj j (fun h => hinotr (h ▸ hj)) (by omega)
      have hfiltrest : ∀ j ∈ rest,
          (m2.queues.getD j []).filter
            (boostCond m2.process_last_boost m2.boost_threshold now) =
          (m1.queues.getD j []).filter
            (boostCond m1.process_last_boost m1.boost_threshold now) := by
        intro j hj
        rw [hm2qrest j hj]
        exact List.filter_congr (fun k hk => hcond2 k ⟨j, hj, hk⟩)
      have hfiltrestn : ∀ j ∈ rest,
          (m2.queues.getD j []).filter (fun pid =>
            !(boostCond m2.process_last_boost m2.boost_threshold now pid)) =
          (m1.queues.getD j []).filter (fun pid =>
            !(boostCond m1.process_last_boost m1.boost_threshold now pid)) := by
        intro j hj
        rw [hm2qrest j hj]
        exact List.filter_congr (fun k hk => by rw [hcond2 k ⟨j, hj, hk⟩])
      obtain ⟨ih1, ih2, ih3, ih4, ih5, ih6, ih7, ih8, ih9⟩ := ih m2
        (fun j hj => ⟨(hbound j (List.mem_cons_of_mem _ hj)).1,
          by rw [hm2len]; exact (hbound j (List.mem_cons_of_mem _ hj)).2⟩)
        hndrest
        (by
          have hmapeq : rest.map (fun j => m2.queues.getD j []) =
              rest.map (fun j => m1.queues.getD j []) :=
            List.map_congr_left hm2qrest
          rw [hmapeq]
          exact hndqrest)
      refine ⟨?_, ?_, ?_, ?_, ?_, ?_, ?_, ?_, ?_⟩
      · rw [hstep, ih1, hm2q0]
        have hmapflt : rest.map (fun j => (m2.queues.getD j []).filter
            (boostCond m2.process_last_boost m2.boost_threshold now)) =
            rest.map (fun j => (m1.queues.getD j []).filter
              (boostCond m1.process_last_boost m1.boost_threshold now)) :=
          List.map_congr_left hfiltrest
        rw [hmapflt, List.append_assoc]
        rfl
      · intro j hj
        rcases List.mem_cons.1 hj with h1 | h1
        · subst h1
          rw [hstep, ih3 j hinotr hine0, hm2qi]
        · rw [hstep, ih2 j h1, hfiltrestn j h1]
      · intro j hj h0
        rw [hstep, ih3 j (fun h => hj (List.mem_cons_of_mem _ h)) h0]
        exact hm2qj j (fun h => hj (h ▸ List.mem_cons_self _ _)) h0
      · rintro pid ⟨j, hj, hpid⟩ hcond
        rcases List.mem_cons.1 hj with h1 | h1
        · subst h1
          obtain ⟨u1, u2, u3⟩ := bs3 pid hpid hcond
          have hnotrest : ¬ ((∃ j2 ∈ rest, pid ∈ m2.queues.getD j2 []) ∧
              boostCond m2.process_last_boost m2.boost_threshold now pid = true) := by
            rintro ⟨⟨j2, hj2, hpj2⟩, -⟩
            rw [hm2qrest j2 hj2] at hpj2
            exact hrestmem pid ⟨j2, hj2, hpj2⟩ hpid
          obtain ⟨v1, v2, v3⟩ := ih5 pid hnotrest
          rw [hstep]
          refine ⟨?_, ?_, ?_⟩
          · rw [v1, hm2maps.1]; exact u1
          · rw [v2, hm2maps.2.1]; exact u2
          · rw [v3, hm2maps.2.2.1]; exact u3
        · have hex : ∃ j2 ∈ rest, pid ∈ m2.queues.getD j2 [] :=
            ⟨j, h1, by rw [hm2qrest j h1]; exact hpid⟩
          obtain ⟨v1, v2, v3⟩ := ih4 pid hex
            (by rw [hcond2 pid ⟨j, h1, hpid⟩]; exact hcond)
          rw [hstep]
          exact ⟨v1, v2, v3⟩
      · intro pid hnot
        have hnoti : ¬ (pid ∈ m1.queues.getD i [] ∧
            boostCond m1.process_last_boost m1.boost_threshold now pid = true) := by
          rintro ⟨h1, h2⟩
          exact hnot ⟨⟨i, List.mem_cons_self _ _, h1⟩, h2⟩
        obtain ⟨u1, u2, u3⟩ := bs4 pid hnoti
        have hnotrest : ¬ ((∃ j2 ∈ rest, pid ∈ m2.queues.getD j2 []) ∧
            boostCond m2.process_last_boost m2.boost_threshold now pid = true) := by
          rintro ⟨⟨j2, hj2, hpj2⟩, hc2⟩
          rw [hm2qrest j2 hj2] at hpj2
          refine hnot ⟨⟨j2, List.mem_cons_of_mem _ hj2, hpj2⟩, ?_⟩
          rw [← hcond2 pid ⟨j2, hj2, hpj2⟩]
          exact hc2
        obtain ⟨v1, v2, v3⟩ := ih5 pid hnotrest
        rw [hstep]
        refine ⟨?_, ?_, ?_⟩
        · rw [v1, hm2maps.1]; exact u1
        · rw [v2, hm2maps.2.1]; exact u2
        · rw [v3, hm2maps.2.2.1]; exact u3
      · rw [hstep, ih6, hm2maps.2.2.2.1]
      · rw [hstep, ih7, hm2maps.2.2.2.2.1]
      · rw [hstep, ih8, hm2maps.2.2.2.2.2]
      · rw [hstep, ih9, hm2len]

/-- C6.  MLFQ: a first admission records `last_boost[pid] = now` (placing the
process at level 0 with `time_in_level 0` and enqueueing it at level 0), and
`auto_boost_processes` (run by every `get_next_process` after cleanup) boosts
exactly those processes of the non-top levels whose
`now − last_boost ≥ boost_threshold`: each boosted process is appended to
queue 0 (levels processed in order, FIFO within each level), its level set to
0, `time_in_level` reset and `last_boost` set to `now`, while every other
process keeps its queue position, its level and its side-table entries. -/
theorem mlfq_admission_boost_spec (m : MLFQ) (p : Process) (now : Nat)
    (hnew : alookup m.process_levels p.pid = none)
    (hnd : (((List.range' 1 (m.queues.length - 1)).map
      (fun i => m.queues.getD i [])).foldr (· ++ ·) []).Nodup) :
    (alookup (m.add_process p now).process_levels p.pid = some 0 ∧
     alookup (m.add_process p now).process_time_in_level p.pid = some 0 ∧
     alookup (m.add_process p now).process_last_boost p.pid = some now ∧
     (m.add_process p now).queues =
       m.queues.set 0 (m.queues.getD 0 [] ++ [p.pid])) ∧
    ((m.auto_boost_processes now).queues.getD 0 [] =
      m.queues.getD 0 [] ++
        ((List.range' 1 (m.queues.length - 1)).map
          (fun i => (m.queues.getD i []).filter
            (boostCond m.process_last_boost m.boost_threshold now))).foldr
          (· ++ ·) []) ∧
    (∀ i, 1 ≤ i → i < m.queues.length →
      (m.auto_boost_processes now).queues.getD i [] =
        (m.queues.getD i []).filter (fun pid =>
          !(boostCond m.process_last_boost m.boost_threshold now pid))) ∧
    (∀ pid i, 1 ≤ i → i < m.queues.length → pid ∈ m.queues.getD i [] →
      boostCond m.process_last_boost m.boost_threshold now pid = true →
      alookup (m.auto_boost_processes now).process_levels pid = some 0 ∧
      alookup (m.auto_boost_processes now).process_time_in_level pid = some 0 ∧
      alookup (m.auto_boost_processes now).process_last_boost pid = some now) ∧
    (∀ pid, ¬ (∃ i, 1 ≤ i ∧ i < m.queues.length ∧ pid ∈ m.queues.getD i [] ∧
        boostCond m.process_last_boost m.boost_threshold now pid = true) →
      alookup (m.auto_boost_processes now).process_levels pid =
        alookup m.process_levels pid ∧
      alookup (m.auto_boost_processes now).process_time_in_level pid =
        alookup m.process_time_in_level pid ∧
      alookup (m.auto_boost_processes now).process_last_boost pid =
        alookup m.process_last_boost pid) := by
  have hiss : (alookup m.process_levels p.pid).isSome = false := by
    rw [hnew]; rfl
  have hb := autoBoost_fold now (List.range' 1 (m.queues.length - 1)) m
    (fun i hi => by
      rw [List.mem_range'_1] at hi
      omega)
    (List.nodup_range' _ _)
    hnd
  obtain ⟨hb1, hb2, hb3, hb4, hb5, -, -, -, -⟩ := hb
  have hab : m.auto_boost_processes now =
      (List.range' 1 (m.queues.length - 1)).foldl (fun m i =>
        let bl := boostLevel now m [] (m.queues.getD i [])
        { bl.1 with queues := bl.1.queues.set i bl.2 }) m := rfl
  refine ⟨?_, ?_, ?_, ?_, ?_⟩
  · unfold MLFQ.add_process
    rw [if_neg (by rw [hiss]; simp)]
    dsimp only
    refine ⟨alookup_aset _ _ _, alookup_aset _ _ _, alookup_aset _ _ _, ?_⟩
    rw [alookup_aset]
    simp only [Option.getD_some]
  · rw [hab]
    exact hb1
  · intro i h1 h2
    rw [hab]
    exact hb2 i (by rw [List.mem_range'_1]; omega)
  · intro pid i h1 h2 hmem hcond
    rw [hab]
    exact hb4 pid ⟨i, by rw [List.mem_range'_1]; omega, hmem⟩ hcond
  · intro pid hnot
    rw [hab]
    refine hb5 pid ?_
    rintro ⟨⟨i, hi, hmem⟩, hcond⟩
    rw [List.mem_range'_1] at hi
    exact hnot ⟨i, by omega, by omega, hmem, hcond⟩

theorem mlfq_admission_boost_spec_witness :
    alookup ([(5, 1)] : List (Pid × Nat)) 7 = none ∧
    alookup ((⟨[3, 6, 12], [[], [5], []], [(5, 1)], [(5, 2)], [(5, 3)],
        [(5, 0)], 50⟩ : MLFQ).add_process
        ⟨7, 0, 4, 0, PState.READY⟩ 60).process_last_boost 7 = some 60 ∧
    alookup ((⟨[3, 6, 12], [[], [5], []], [(5, 1)], [(5, 2)], [(5, 3)],
        [(5, 0)], 50⟩ : MLFQ).auto_boost_processes 60).process_levels 5 =
      some 0 := by
  have h := mlfq_admission_boost_spec
    ⟨[3, 6, 12], [[], [5], []], [(5, 1)], [(5, 2)], [(5, 3)], [(5, 0)], 50⟩
    ⟨7, 0, 4, 0, PState.READY⟩ 60 (by decide) (by decide)
  exact ⟨by decide, h.1.2.2.1,
    (h.2.2.2.1 5 1 (by decide) (by decide) (by decide) (by decide)).1⟩

/-- C7 counterexample.  With the default quanta `[3, 6, 12]`, a process that
is dispatched twice for 2 ticks each time (each strictly below the level-0
quantum 3) is nevertheless demoted to level 1, because
`update_usage_time` accumulates `time_in_level` across dispatches and only
resets on demotion or boost: after the first admission at time 0 and
re-admissions with cumulative runtimes 2 and 4 (single-dispatch deltas 2
and 2), `process_levels[1] = 1 ≠ 0`. -/
theorem mlfq_level0_counterexample :
    (2 < 3 ∧ 2 < 3) ∧
    alookup ((((⟨[3, 6, 12], [[], [], []], [], [], [], [], 50⟩ : MLFQ).add_process
        ⟨1, 0, 10, 0, PState.READY⟩ 0).add_process
        ⟨1, 0, 8, 2, PState.READY⟩ 2).add_process
        ⟨1, 0, 6, 4, PState.READY⟩ 4).process_levels 1 = some 1 ∧
    some 1 ≠ some 0 := by
  exact ⟨⟨by decide, by decide⟩, by decide, by decide⟩

/-- C7 (amended).  In the MLFQ scheduler a process at level 0 stays at
level 0 as long as the run time accumulated in `time_in_level` since its
last reset — summed over all dispatches, not per single dispatch — stays
strictly below the level-0 quantum: for any sequence of dispatch deltas
whose total, added to the current accumulator, is below `levels[0]`, the
process is never demoted and the accumulator is the running sum. -/
theorem mlfq_level0_amended (pid : Pid) (ds : List Nat) :
    ∀ (m : MLFQ) (t : Nat),
    alookup m.process_levels pid = some 0 →
    alookup m.process_time_in_level pid = some t →
    t + ds.sum < m.levels.getD 0 0 →
    alookup (ds.foldl (fun acc d => acc.update_usage_time pid d)
      m).process_levels pid = some 0 ∧
    alookup (ds.foldl (fun acc d => acc.update_usage_time pid d)
      m).process_time_in_level pid = some (t + ds.sum) := by
  induction ds with
  | nil =>
      intro m t h0 ht hlt
      simpa using ⟨h0, ht⟩
  | cons d rest ih =>
      intro m t h0 ht hlt
      have hsum : d ≤ d + rest.sum := Nat.le_add_right _ _
      have hstep : m.update_usage_time pid d =
          { m with process_time_in_level := aset m.process_time_in_level pid (t + d) } := by
        unfold MLFQ.update_usage_time
        rw [h0, ht]
        simp only [Option.getD_some, List.sum_cons] at hlt ⊢
        rw [if_neg (by omega)]
      simp only [List.foldl_cons]
      rw [hstep]
      have hres := ih
        { m with process_time_in_level := aset m.process_time_in_level pid (t + d) }
        (t + d) h0 (alookup_aset _ _ _) (by
          show t + d + rest.sum < m.levels.getD 0 0
          simp only [List.sum_cons] at hlt
          omega)
      refine ⟨hres.1, ?_⟩
      rw [hres.2]
      simp only [List.sum_cons]
      congr 1
      omega

theorem mlfq_level0_amended_witness :
    alookup ([(1, 0)] : List (Pid × Nat)) 1 = some 0 ∧
    alookup ((([1, 1] : List Nat).foldl
      (fun acc d => acc.update_usage_time 1 d)
      (⟨[3, 6, 12], [[], [], []], [(1, 0)], [(1, 0)], [(1, 0)], [(1, 0)],
        50⟩ : MLFQ)).process_levels) 1 = some 0 := by
  have h := mlfq_level0_amended 1 [1, 1]
    ⟨[3, 6, 12], [[], [], []], [(1, 0)], [(1, 0)], [(1, 0)], [(1, 0)], 50⟩
    0 (by decide) (by decide) (by decide)
  exact ⟨by decide, h.1⟩

theorem lotteryPickLoop_isSome (w : Nat) :
    ∀ (entries : List (Pid × Nat)) (cum : Nat),
    entries ≠ [] → w ≤ cum + (entries.map Prod.snd).sum →
    (lotteryPickLoop w cum entries).isSome = true := by
  intro entries
  induction entries with
  | nil => intro cum h _; exact absurd rfl h
  | cons e rest ih =>
      intro cum _ hle
      obtain ⟨pid, t⟩ := e
      unfold lotteryPickLoop
      by_cases hw : w ≤ cum + t
      · rw [if_pos hw]; rfl
      · rw [if_neg hw]
        have hrest : rest ≠ [] := by
          intro hnil
          subst hnil
          simp at hle
          omega
        refine ih (cum + t) hrest ?_
        simp only [List.map_cons, List.sum_cons] at hle
        omega

theorem sum_filter_split (l : List (Pid × Nat)) (live : Pid → Bool) :
    ((l.filter (fun e => live e.1)).map Prod.snd).sum +
      ((l.filter (fun e => !live e.1)).map Prod.snd).sum =
    (l.map Prod.snd).sum := by
  induction l with
  | nil => simp
  | cons e rest ih =>
      by_cases h : live e.1 = true
      · simp [List.filter_cons, h] at ih ⊢
        omega
      · simp [List.filter_cons, h] at ih ⊢
        omega

theorem aset_fresh_append {α : Type} (l : List (Pid × α)) (k : Pid) (v : α)
    (h : alookup l k = none) : aset l k v = l ++ [(k, v)] := by
  induction l with
  | nil => rfl
  | cons e rest ih =>
      obtain ⟨k1, v1⟩ := e
      by_cases h1 : k1 = k
      · subst h1
        simp [alookup] at h
      · rw [aset, if_neg h1, ih (by simpa [alookup, h1] using h)]
        rfl

theorem lottery_cleanup_inv (L : Lottery) (live : Pid → Bool)
    (hinv : lotteryInv L) : lotteryInv (L.cleanup live) := by
  unfold lotteryInv at hinv ⊢
  unfold Lottery.cleanup
  dsimp only
  have h := sum_filter_split L.entries live
  omega

theorem sum_filter_out (l : List (Pid × Nat)) (pid : Pid) (t : Nat)
    (hnd : (l.map Prod.fst).Nodup) (hlk : alookup l pid = some t) :
    ((l.filter (fun e => e.1 ≠ pid)).map Prod.snd).sum + t =
      (l.map Prod.snd).sum := by
  induction l with
  | nil => simp [alookup] at hlk
  | cons e rest ih =>
      obtain ⟨k1, v1⟩ := e
      simp only [List.map_cons, List.nodup_cons] at hnd
      by_cases h1 : k1 = pid
      · subst h1
        have hv : v1 = t := by simpa [alookup] using hlk
        have hrest : rest.filter (fun e => e.1 ≠ k1) = rest := by
          refine List.filter_eq_self.2 ?_
          intro e he
          have hm : e.1 ∈ rest.map Prod.fst := List.mem_map.2 ⟨e, he, rfl⟩
          simp only [decide_eq_true_eq]
          intro hx
          exact hnd.1 (hx ▸ hm)
        simp only [List.filter_cons]
        rw [if_neg (by simp), hrest]
        simp only [List.map_cons, List.sum_cons]
        omega
      · simp only [List.filter_cons]
        rw [if_pos (by simp [h1])]
        simp only [List.map_cons, List.sum_cons]
        have hlk2 : alookup rest pid = some t := by
          simpa [alookup, h1] using hlk
        have hih := ih hnd.2 hlk2
        omega

theorem alookup_isSome_of_mem_fst (l : List (Pid × Nat)) (k : Pid)
    (h : k ∈ l.map Prod.fst) : ∃ t, alookup l k = some t := by
  induction l with
  | nil => cases h
  | cons e rest ih =>
      obtain ⟨k1, v1⟩ := e
      by_cases h1 : k1 = k
      · exact ⟨v1, by simp [alookup, h1]⟩
      · rcases List.mem_cons.1 h with h2 | h2
        · exact absurd h2.symm h1
        · obtain ⟨t2, ht2⟩ := ih h2
          exact ⟨t2, by simpa [alookup, h1] using ht2⟩

theorem lotteryPickLoop_mem (w : Nat) :
    ∀ (entries : List (Pid × Nat)) (cum : Nat) (pid : Pid),
    lotteryPickLoop w cum entries = some pid → pid ∈ entries.map Prod.fst := by
  intro entries
  induction entries with
  | nil => intro cum pid h; simp [lotteryPickLoop] at h
  | cons e rest ih =>
      intro cum pid h
      obtain ⟨k1, t1⟩ := e
      unfold lotteryPickLoop at h
      by_cases hw : w ≤ cum + t1
      · rw [if_pos hw] at h
        injection h with h
        subst h
        exact List.mem_cons_self _ _
      · rw [if_neg hw] at h
        exact List.mem_cons_of_mem _ (ih (cum + t1) pid h)

/-- C10.  Lottery bookkeeping: admitting a fresh pid and cleanup both keep
`total_tickets` equal to the sum of the per-pid ticket counts, and under that
invariant every `get_next_process` on a scheduler that is non-empty after
cleanup draws `w ∈ [1, total_tickets]`, the accumulating scan always reaches
a winner (so the final "Lottery draw failed" branch is unreachable), and the
winner's removal preserves the invariant. -/
theorem lottery_draw_total_spec (L : Lottery) (live : Pid → Bool)
    (pid : Pid) (tickets d : Nat) (hinv : lotteryInv L) :
    (alookup L.entries pid = none → lotteryInv (L.add_process pid tickets)) ∧
    lotteryInv (L.cleanup live) ∧
    ((L.cleanup live).entries ≠ [] → 1 ≤ (L.cleanup live).total_tickets →
      (lotteryPickLoop (randint 1 (L.cleanup live).total_tickets d) 0
        (L.cleanup live).entries).isSome = true ∧
      (L.get_next_process live d).isSome = true) ∧
    (((L.cleanup live).entries.map Prod.fst).Nodup →
      ∀ pid2 L2, L.get_next_process live d = some (pid2, L2) →
        lotteryInv L2) := by
  have hclean := lottery_cleanup_inv L live hinv
  refine ⟨?_, hclean, ?_, ?_⟩
  · intro hfresh
    unfold lotteryInv Lottery.add_process
    dsimp only
    rw [aset_fresh_append _ _ _ hfresh]
    simp only [List.map_append, List.sum_append, List.map_cons, List.sum_cons,
      List.map_nil, List.sum_nil]
    unfold lotteryInv at hinv
    omega
  · intro hne htot
    have hloop : (lotteryPickLoop (randint 1 (L.cleanup live).total_tickets d) 0
        (L.cleanup live).entries).isSome = true := by
      refine lotteryPickLoop_isSome _ _ 0 hne ?_
      have hb := randint_bounds 1 (L.cleanup live).total_tickets d htot
      unfold lotteryInv at hclean
      omega
    refine ⟨hloop, ?_⟩
    unfold Lottery.get_next_process
    dsimp only
    rw [if_neg (by simpa [List.isEmpty_eq_false] using hne)]
    obtain ⟨pid2, hpid2⟩ := Option.isSome_iff_exists.1 hloop
    rw [hpid2]
    rfl
  · intro hnd pid2 L2 hsome
    unfold Lottery.get_next_process at hsome
    dsimp only at hsome
    by_cases hemp : (L.cleanup live).entries.isEmpty = true
    · rw [if_pos hemp] at hsome
      cases hsome
    · rw [if_neg hemp] at hsome
      cases hloop : lotteryPickLoop (randint 1 (L.cleanup live).total_tickets d)
          0 (L.cleanup live).entries with
      | none => rw [hloop] at hsome; cases hsome
      | some pidw =>
          rw [hloop] at hsome
          injection hsome with hsome
          have hpid : pidw = pid2 := congrArg Prod.fst hsome
          subst hpid
          have hmem : pidw ∈ (L.cleanup live).entries.map Prod.fst :=
            lotteryPickLoop_mem _ _ _ _ hloop
          obtain ⟨t2, ht2⟩ := alookup_isSome_of_mem_fst _ _ hmem
          have hL2 : L2 = { L.cleanup live with
              entries := (L.cleanup live).entries.filter (fun e => e.1 ≠ pidw)
              total_tickets := (L.cleanup live).total_tickets -
                (alookup (L.cleanup live).entries pidw).getD 0 } :=
            (congrArg Prod.snd hsome).symm
          rw [hL2]
          unfold lotteryInv
          dsimp only
          rw [ht2]
          have hsplit := sum_filter_out (L.cleanup live).entries pidw t2 hnd ht2
          unfold lotteryInv at hclean
          simp only [Option.getD_some]
          omega

theorem lottery_draw_total_spec_witness :
    lotteryInv ⟨5, [(1, 10), (2, 10)], 20⟩ ∧
    ([(1, 10), (2, 10)] : List (Pid × Nat)) ≠ [] ∧
    (lotteryPickLoop (randint 1 20 7) 0 [(1, 10), (2, 10)]).isSome = true := by
  have h := lottery_draw_total_spec ⟨5, [(1, 10), (2, 10)], 20⟩
    (fun _ => true) 3 10 7 (by unfold lotteryInv; decide)
  refine ⟨by unfold lotteryInv; decide, by decide, ?_⟩
  have h2 := (h.2.2.1 (by decide) (by decide)).1
  exact h2

theorem bestFitLoop_go (total : Nat) :
    ∀ (l : List (Nat × Nat)) (i : Nat) (acc : Option (Nat × Nat)),
    (∀ p, acc = some p → total ≤ p.2) →
    (bestFitLoop total l i acc = none →
        acc = none ∧ ∀ r ∈ l, r.2 < total) ∧
    (∀ j s, bestFitLoop total l i acc = some (j, s) →
      total ≤ s ∧
      (∀ k r, l.get? k = some r → total ≤ r.2 → s ≤ r.2) ∧
      (acc = some (j, s) ∨
        ∃ k r, l.get? k = some r ∧ j = i + k ∧ s = r.2 ∧
          (∀ p, acc = some p → s < p.2) ∧
          (∀ k2 r2, k2 < k → l.get? k2 = some r2 → total ≤ r2.2 → s < r2.2))) := by
  intro l
  induction l with
  | nil =>
      intro i acc hacc
      constructor
      · intro h
        exact ⟨h, by simp⟩
      · intro j s h
        refine ⟨hacc _ h, ?_, Or.inl h⟩
        intro k r hk hf
        have hnil : (([] : List (Nat × Nat)).get? k) = none := rfl
        rw [hnil] at hk
        cases hk
  | cons r rest ih =>
      intro i acc hacc
      by_cases hcond :
          (decide (total ≤ r.2) && acc.all (fun b => decide (r.2 < b.2))) = true
      · have hstep : bestFitLoop total (r :: rest) i acc =
            bestFitLoop total rest (i + 1) (some (i, r.2)) := by
          simp only [bestFitLoop]
          rw [if_pos hcond]
        simp only [Bool.and_eq_true, decide_eq_true_eq] at hcond
        obtain ⟨hf, hall⟩ := hcond
        have himp : ∀ p, acc = some p → r.2 < p.2 := by
          intro p hp
          rw [hp] at hall
          simpa using hall
        obtain ⟨ih1, ih2⟩ := ih (i + 1) (some (i, r.2)) (by
          intro p hp
          obtain rfl : (i, r.2) = p := Option.some_inj.1 hp
          exact hf)
        constructor
        · intro h
          rw [hstep] at h
          obtain ⟨h1, -⟩ := ih1 h
          cases h1
        · intro j s h
          rw [hstep] at h
          obtain ⟨hts, hmin, hdisj⟩ := ih2 j s h
          refine ⟨hts, ?_, ?_⟩
          · intro k r2 hk hf2
            cases k with
            | zero =>
                rw [List.get?_cons_zero] at hk
                obtain rfl : r = r2 := Option.some_inj.1 hk
                rcases hdisj with hL | hR
                · have hsr : s = r.2 := by
                    have h2 := Option.some_inj.1 hL
                    have : r.2 = s := congrArg Prod.snd h2
                    omega
                  omega
                · obtain ⟨-, -, -, -, -, hltacc, -⟩ := hR
                  exact le_of_lt (hltacc (i, r.2) rfl)
            | succ k2 =>
                rw [List.get?_cons_succ] at hk
                exact hmin k2 r2 hk hf2
          · rcases hdisj with hL | hR
            · right
              have h2 := Option.some_inj.1 hL
              have hji : i = j := congrArg Prod.fst h2
              have hsr : r.2 = s := congrArg Prod.snd h2
              refine ⟨0, r, List.get?_cons_zero, by omega, hsr.symm, ?_, ?_⟩
              · intro p hp
                rw [← hsr]
                exact himp p hp
              · intro k2 r2 hk2 hget hf2
                exact absurd hk2 (Nat.not_lt_zero k2)
            · right
              obtain ⟨k, r2, hget, hj, hs, hltacc, hfirst⟩ := hR
              refine ⟨k + 1, r2, by rw [List.get?_cons_succ]; exact hget,
                by omega, hs, ?_, ?_⟩
              · intro p hp
                exact lt_trans (hltacc (i, r.2) rfl) (himp p hp)
              · intro k2 r3 hk2 hget3 hf3
                cases k2 with
                | zero =>
                    rw [List.get?_cons_zero] at hget3
                    obtain rfl : r = r3 := Option.some_inj.1 hget3
                    exact hltacc (i, r.2) rfl
                | succ k3 =>
                    rw [List.get?_cons_succ] at hget3
                    exact hfirst k3 r3 (by omega) hget3 hf3
      · have hstep : bestFitLoop total (r :: rest) i acc =
            bestFitLoop total rest (i + 1) acc := by
          simp only [bestFitLoop]
          rw [if_neg hcond]
        have hor : r.2 < total ∨ ∃ p, acc = some p ∧ p.2 ≤ r.2 := by
          by_cases hf : total ≤ r.2
          · right
            cases acc with
            | none =>
                exfalso
                exact hcond (by simp [hf])
            | some p =>
                refine ⟨p, rfl, ?_⟩
                by_contra hlt
                push_neg at hlt
                exact hcond (by simp [hf, hlt])
          · left
            omega
        obtain ⟨ih1, ih2⟩ := ih (i + 1) acc hacc
        constructor
        · intro h
          rw [hstep] at h
          obtain ⟨h1, h2⟩ := ih1 h
          refine ⟨h1, ?_⟩
          intro r2 hr2
          rcases List.mem_cons.1 hr2 with hr2 | hr2
          · subst hr2
            rcases hor with h3 | ⟨p, hp, -⟩
            · exact h3
            · rw [h1] at hp
              cases hp
          · exact h2 r2 hr2
        · intro j s h
          rw [hstep] at h
          obtain ⟨hts, hmin, hdisj⟩ := ih2 j s h
          have hsltr : (total ≤ r.2) → s ≤ r.2 := by
            intro hf2
            rcases hor with h3 | ⟨p, hp, hple⟩
            · omega
            · rcases hdisj with hL | hR
              · rw [hL] at hp
                have := congrArg Prod.snd (Option.some_inj.1 hp)
                simp only at this
                omega
              · obtain ⟨-, -, -, -, -, hltacc, -⟩ := hR
                exact le_of_lt (lt_of_lt_of_le (hltacc p hp) hple)
          refine ⟨hts, ?_, ?_⟩
          · intro k r2 hk hf2
            cases k with
            | zero =>
                rw [List.get?_cons_zero] at hk
                obtain rfl : r = r2 := Option.some_inj.1 hk
                exact hsltr hf2
            | succ k2 =>
                rw [List.get?_cons_succ] at hk
                exact hmin k2 r2 hk hf2
          · rcases hdisj with hL | hR
            · exact Or.inl hL
            · right
              obtain ⟨k, r2, hget, hj, hs, hltacc, hfirst⟩ := hR
              refine ⟨k + 1, r2, by rw [List.get?_cons_succ]; exact hget,
                by omega, hs, hltacc, ?_⟩
              intro k2 r3 hk2 hget3 hf3
              cases k2 with
              | zero =>
                  rw [List.get?_cons_zero] at hget3
                  obtain rfl : r = r3 := Option.some_inj.1 hget3
                  rcases hor with h3 | ⟨p, hp, hple⟩
                  · omega
                  · exact lt_of_lt_of_le (hltacc p hp) hple
              | succ k3 =>
                  rw [List.get?_cons_succ] at hget3
                  exact hfirst k3 r3 (by omega) hget3 hf3

theorem bestFitPick_none (l : List (Nat × Nat)) (total : Nat)
    (h : ∀ r ∈ l, r.2 < total) : bestFitPick l total = none := by
  unfold bestFitPick
  cases hres : bestFitLoop total l 0 none with
  | none => rfl
  | some q =>
      obtain ⟨j, s⟩ := q
      have hchar := (bestFitLoop_go total l 0 none
        (by intro p hp; cases hp)).2 j s hres
      obtain ⟨hts, -, hdisj⟩ := hchar
      rcases hdisj with hL | ⟨k, r, hget, -, hs, -, -⟩
      · cases hL
      · have hmem : r ∈ l := List.get?_mem hget
        have := h r hmem
        omega

theorem bestFitPick_some (l : List (Nat × Nat)) (total : Nat) (j : Nat)
    (h : bestFitPick l total = some j) :
    ∃ r, l.get? j = some r ∧ total ≤ r.2 ∧
      (∀ k r2, l.get? k = some r2 → total ≤ r2.2 → r.2 ≤ r2.2) ∧
      (∀ k r2, k < j → l.get? k = some r2 → total ≤ r2.2 → r.2 < r2.2) := by
  unfold bestFitPick at h
  cases hres : bestFitLoop total l 0 none with
  | none =>
      rw [hres] at h
      cases h
  | some q =>
      rw [hres] at h
      obtain ⟨j2, s⟩ := q
      have hj : j2 = j := by
        have h2 : some (j2, s).1 = some j := h
        exact Option.some_inj.1 h2
      subst hj
      have hchar := (bestFitLoop_go total l 0 none
        (by intro p hp; cases hp)).2 j2 s hres
      obtain ⟨hts, hmin, hdisj⟩ := hchar
      rcases hdisj with hL | ⟨k, r, hget, hj, hs, -, hfirst⟩
      · cases hL
      · have hkj : k = j2 := by omega
        subst hkj
        subst hs
        refine ⟨r, hget, hts, hmin, ?_⟩
        intro k2 r2 hk2 hget2 hf2
        exact hfirst k2 r2 hk2 hget2 hf2

theorem bestFitPick_isSome (l : List (Nat × Nat)) (total : Nat)
    (r0 : Nat × Nat) (h0 : r0 ∈ l) (hf : total ≤ r0.2) :
    ∃ j, bestFitPick l total = some j := by
  cases hp : bestFitPick l total with
  | some j => exact ⟨j, rfl⟩
  | none =>
      unfold bestFitPick at hp
      cases hres : bestFitLoop total l 0 none with
      | some q =>
          rw [hres] at hp
          cases hp
      | none =>
          have hh := (bestFitLoop_go total l 0 none
            (by intro p hp2; cases hp2)).1 hres
          have := hh.2 r0 h0
          omega

theorem chain_get_le (l : List (Nat × Nat)) (hch : chainBlocks l)
    (i k : Nat) (r r2 : Nat × Nat) (hik : i < k)
    (h1 : l.get? i = some r) (h2 : l.get? k = some r2) :
    r.1 + r.2 ≤ r2.1 := by
  obtain ⟨hi, hgi⟩ := List.get?_eq_some.1 h1
  obtain ⟨hk2, hgk⟩ := List.get?_eq_some.1 h2
  have hp := List.pairwise_iff_get.1 hch ⟨i, hi⟩ ⟨k, hk2⟩ hik
  rw [hgi, hgk] at hp
  exact hp

/-- C9.  `BestFitAllocator.malloc` with request `n` and `total = n + 8`:
if no free region has size at least `total` it raises `OutOfMemory` and
leaves the allocator unchanged; otherwise it selects the free region of
smallest size at least `total`, breaking ties by lowest start address
(given the free list sorted by start, as the allocator maintains), writes
`total` into the 8-byte header at the region's start, removes the region
when it fits exactly and otherwise shrinks it from the front, and returns
the region's start plus 8. -/
theorem best_fit_malloc_spec (st : XFitState) (n : Nat)
    (hchain : chainBlocks st.free_list) :
    ((∀ r ∈ st.free_list, r.2 < n + 8) →
        bestFitMalloc st n = none ∧ mallocRun bestFitPick st n = st) ∧
    ((∃ r0 ∈ st.free_list, n + 8 ≤ r0.2) →
      ∃ i r, st.free_list.get? i = some r ∧ n + 8 ≤ r.2 ∧
        (∀ r2 ∈ st.free_list, n + 8 ≤ r2.2 → r.2 ≤ r2.2) ∧
        (∀ r2 ∈ st.free_list, n + 8 ≤ r2.2 → r2.2 = r.2 → r.1 ≤ r2.1) ∧
        bestFitMalloc st n = some (r.1 + 8,
          { st with
              memory := writeHeader st.memory r.1 (n + 8)
              free_list :=
                if r.2 = n + 8 then st.free_list.eraseIdx i
                else st.free_list.set i (r.1 + (n + 8), r.2 - (n + 8)) }) ∧
        writeHeader st.memory r.1 (n + 8) r.1 = n + 8) := by
  constructor
  · intro h
    have hpick := bestFitPick_none st.free_list (n + 8) h
    have h1 : bestFitMalloc st n = none := by
      simp only [bestFitMalloc, xmalloc, hpick]
    refine ⟨h1, ?_⟩
    have h1x : xmalloc bestFitPick st n = none := h1
    simp only [mallocRun, h1x]
  · rintro ⟨r0, h0, hf0⟩
    obtain ⟨i, hpick⟩ := bestFitPick_isSome st.free_list (n + 8) r0 h0 hf0
    obtain ⟨r, hget, hfit, hmin, hfirst⟩ :=
      bestFitPick_some st.free_list (n + 8) i hpick
    refine ⟨i, r, hget, hfit, ?_, ?_, ?_, by simp [writeHeader]⟩
    · intro r2 h2 hf2
      obtain ⟨k, hk⟩ := List.mem_iff_get?.1 h2
      exact hmin k r2 hk hf2
    · intro r2 h2 hf2 heq
      obtain ⟨k, hk⟩ := List.mem_iff_get?.1 h2
      by_cases hki : k < i
      · exact absurd heq (by have := hfirst k r2 hki hk hf2; omega)
      · rcases Nat.lt_or_ge i k with hik | hik
        · have hc := chain_get_le st.free_list hchain i k r r2 hik hget hk
          omega
        · have hkeq : k = i := by omega
          subst hkeq
          rw [hk] at hget
          obtain rfl : r2 = r := Option.some_inj.1 hget
          omega
    · simp only [bestFitMalloc, xmalloc, hpick, hget]

theorem best_fit_malloc_spec_witness :
    chainBlocks ((⟨100, fun _ => 0,
        [(0, 10), (20, 9), (40, 9)]⟩ : XFitState).free_list) ∧
    (((∀ r ∈ (⟨100, fun _ => 0,
          [(0, 10), (20, 9), (40, 9)]⟩ : XFitState).free_list, r.2 < 1 + 8) →
        bestFitMalloc ⟨100, fun _ => 0, [(0, 10), (20, 9), (40, 9)]⟩ 1 = none ∧
        mallocRun bestFitPick
          ⟨100, fun _ => 0, [(0, 10), (20, 9), (40, 9)]⟩ 1 =
          ⟨100, fun _ => 0, [(0, 10), (20, 9), (40, 9)]⟩) ∧
    ((∃ r0 ∈ (⟨100, fun _ => 0,
          [(0, 10), (20, 9), (40, 9)]⟩ : XFitState).free_list, 1 + 8 ≤ r0.2) →
      ∃ i r, (⟨100, fun _ => 0,
          [(0, 10), (20, 9), (40, 9)]⟩ : XFitState).free_list.get? i = some r ∧
        1 + 8 ≤ r.2 ∧
        (∀ r2 ∈ (⟨100, fun _ => 0,
            [(0, 10), (20, 9), (40, 9)]⟩ : XFitState).free_list,
          1 + 8 ≤ r2.2 → r.2 ≤ r2.2) ∧
        (∀ r2 ∈ (⟨100, fun _ => 0,
            [(0, 10), (20, 9), (40, 9)]⟩ : XFitState).free_list,
          1 + 8 ≤ r2.2 → r2.2 = r.2 → r.1 ≤ r2.1) ∧
        bestFitMalloc ⟨100, fun _ => 0, [(0, 10), (20, 9), (40, 9)]⟩ 1 =
          some (r.1 + 8,
          { (⟨100, fun _ => 0,
              [(0, 10), (20, 9), (40, 9)]⟩ : XFitState) with
              memory := writeHeader (fun _ => 0) r.1 (1 + 8)
              free_list :=
                if r.2 = 1 + 8 then
                  ([(0, 10), (20, 9), (40, 9)] :
                    List (Nat × Nat)).eraseIdx i
                else
                  ([(0, 10), (20, 9), (40, 9)] :
                    List (Nat × Nat)).set i (r.1 + (1 + 8), r.2 - (1 + 8)) }) ∧
        writeHeader (fun _ => 0) r.1 (1 + 8) r.1 = 1 + 8)) := by
  refine ⟨by unfold chainBlocks; decide, ?_⟩
  exact best_fit_malloc_spec ⟨100, fun _ => 0, [(0, 10), (20, 9), (40, 9)]⟩ 1
    (by unfold chainBlocks; decide)

theorem mem_listSet (y : Nat) :
    ∀ l : List (Nat × Nat), y ∈ listSet l ↔ ∃ b ∈ l, y ∈ blockSet b := by
  intro l
  induction l with
  | nil => simp [listSet]
  | cons b rest ih =>
      show y ∈ blockSet b ∪ listSet rest ↔ _
      simp only [Finset.mem_union, ih, List.mem_cons]
      constructor
      · rintro (h | ⟨b2, hb2, hy2⟩)
        · exact ⟨b, Or.inl rfl, h⟩
        · exact ⟨b2, Or.inr hb2, hy2⟩
      · rintro ⟨b2, hb2 | hb2, hy2⟩
        · subst hb2
          exact Or.inl hy2
        · exact Or.inr ⟨b2, hb2, hy2⟩

theorem blockSet_subset_listSet {b : Nat × Nat} {l : List (Nat × Nat)}
    (h : b ∈ l) : blockSet b ⊆ listSet l := by
  intro y hy
  exact (mem_listSet y l).2 ⟨b, h, hy⟩

theorem listSet_append (l l2 : List (Nat × Nat)) :
    listSet (l ++ l2) = listSet l ∪ listSet l2 := by
  induction l with
  | nil =>
      show listSet l2 = listSet [] ∪ listSet l2
      rw [show listSet [] = (∅ : Finset Nat) from rfl, Finset.empty_union]
  | cons b rest ih =>
      show blockSet b ∪ listSet (rest ++ l2) = (blockSet b ∪ listSet rest) ∪ listSet l2
      rw [ih, Finset.union_assoc]

theorem listSet_perm {l l2 : List (Nat × Nat)} (h : l.Perm l2) :
    listSet l = listSet l2 := by
  induction h with
  | nil => rfl
  | cons x h2 ih =>
      show blockSet x ∪ _ = blockSet x ∪ _
      rw [ih]
  | swap x y l3 =>
      show blockSet y ∪ (blockSet x ∪ listSet l3) =
        blockSet x ∪ (blockSet y ∪ listSet l3)
      rw [← Finset.union_assoc, Finset.union_comm (blockSet y) (blockSet x),
        Finset.union_assoc]
  | trans h1 h2 ih1 ih2 => rw [ih1, ih2]

theorem listSet_eraseIdx :
    ∀ (l : List (Nat × Nat)) (i : Nat) (r : Nat × Nat),
    l.get? i = some r →
    blockSet r ∪ listSet (l.eraseIdx i) = listSet l := by
  intro l
  induction l with
  | nil =>
      intro i r h
      rw [show (([] : List (Nat × Nat)).get? i) = none from rfl] at h
      cases h
  | cons b rest ih =>
      intro i r h
      cases i with
      | zero =>
          rw [List.get?_cons_zero] at h
          obtain rfl : b = r := Option.some_inj.1 h
          rfl
      | succ j =>
          rw [List.get?_cons_succ] at h
          show blockSet r ∪ (blockSet b ∪ listSet (rest.eraseIdx j)) =
            blockSet b ∪ listSet rest
          rw [← ih j r h, ← Finset.union_assoc,
            Finset.union_comm (blockSet r) (blockSet b), Finset.union_assoc]

theorem listSet_set :
    ∀ (l : List (Nat × Nat)) (i : Nat) (x : Nat × Nat), i < l.length →
    listSet (l.set i x) = blockSet x ∪ listSet (l.eraseIdx i) := by
  intro l
  induction l with
  | nil =>
      intro i x h
      simp at h
  | cons b rest ih =>
      intro i x h
      cases i with
      | zero => rfl
      | succ j =>
          show blockSet b ∪ listSet (rest.set j x) =
            blockSet x ∪ (blockSet b ∪ listSet (rest.eraseIdx j))
          rw [ih j x (by simpa using h), ← Finset.union_assoc,
            Finset.union_comm (blockSet b) (blockSet x), Finset.union_assoc]

theorem chain_disjoint {l : List (Nat × Nat)} (h : chainBlocks l) :
    l.Pairwise (fun a b => Disjoint (blockSet a) (blockSet b)) := by
  unfold chainBlocks at h
  refine h.imp ?_
  intro a b hab
  rw [Finset.disjoint_left]
  intro y hy1 hy2
  simp only [blockSet, Finset.mem_Ico] at hy1 hy2
  omega

theorem chain_of_sorted_disjoint {l : List (Nat × Nat)}
    (hs : l.Pairwise (fun a b => a.1 ≤ b.1))
    (hd : l.Pairwise (fun a b => Disjoint (blockSet a) (blockSet b)))
    (hp : posBlocks l) : chainBlocks l := by
  induction l with
  | nil => exact List.Pairwise.nil
  | cons b rest ih =>
      obtain ⟨hs1, hs2⟩ := List.pairwise_cons.1 hs
      obtain ⟨hd1, hd2⟩ := List.pairwise_cons.1 hd
      refine List.pairwise_cons.2
        ⟨?_, ih hs2 hd2 (fun x hx => hp x (List.mem_cons_of_mem _ hx))⟩
      intro y hy
      have h1 := hs1 y hy
      have h2 := hd1 y hy
      have hb := hp b (List.mem_cons_self _ _)
      have hyp := hp y (List.mem_cons_of_mem _ hy)
      by_contra hlt
      push_neg at hlt
      have hm1 : y.1 ∈ blockSet b := by
        simp only [blockSet, Finset.mem_Ico]
        omega
      have hm2 : y.1 ∈ blockSet y := by
        simp only [blockSet, Finset.mem_Ico]
        omega
      exact Finset.disjoint_left.1 h2 hm1 hm2

theorem chain_set :
    ∀ (l : List (Nat × Nat)) (i : Nat) (r x : Nat × Nat),
    l.get? i = some r → chainBlocks l →
    r.1 ≤ x.1 → x.1 + x.2 ≤ r.1 + r.2 →
    chainBlocks (l.set i x) := by
  intro l
  induction l with
  | nil =>
      intro i r x h
      rw [show (([] : List (Nat × Nat)).get? i) = none from rfl] at h
      cases h
  | cons b rest ih =>
      intro i r x hget hch h1 h2
      obtain ⟨hc1, hc2⟩ := List.pairwise_cons.1 hch
      cases i with
      | zero =>
          rw [List.get?_cons_zero] at hget
          obtain rfl : b = r := Option.some_inj.1 hget
          refine List.pairwise_cons.2 ⟨?_, hc2⟩
          intro y hy
          have := hc1 y hy
          omega
      | succ j =>
          rw [List.get?_cons_succ] at hget
          refine List.pairwise_cons.2 ⟨?_, ih j r x hget hc2 h1 h2⟩
          intro y hy
          rcases List.mem_or_eq_of_mem_set hy with hy2 | hy2
          · exact hc1 y hy2
          · subst hy2
            have hrmem : r ∈ rest := List.get?_mem hget
            have := hc1 r hrmem
            omega

theorem posBlocks_sublist {l l2 : List (Nat × Nat)} (h : l.Sublist l2)
    (hp : posBlocks l2) : posBlocks l :=
  fun b hb => hp b (h.subset hb)

theorem posBlocks_set {l : List (Nat × Nat)} {i : Nat} {x : Nat × Nat}
    (hp : posBlocks l) (hx : 0 < x.2) : posBlocks (l.set i x) := by
  intro b hb
  rcases List.mem_or_eq_of_mem_set hb with h | h
  · exact hp b h
  · subst h
    exact hx

theorem sortInsert_perm (x : Nat × Nat) :
    ∀ l : List (Nat × Nat), (sortInsert x l).Perm (x :: l) := by
  intro l
  induction l with
  | nil => exact List.Perm.refl _
  | cons y rest ih =>
      unfold sortInsert
      by_cases h : y.1 < x.1
      · rw [if_pos h]
        exact (ih.cons y).trans (List.Perm.swap x y rest)
      · rw [if_neg h]

theorem sortByStart_perm : ∀ l : List (Nat × Nat), (sortByStart l).Perm l := by
  intro l
  induction l with
  | nil => exact List.Perm.refl _
  | cons x rest ih =>
      exact (sortInsert_perm x (sortByStart rest)).trans (ih.cons x)

theorem sortInsert_sorted (x : Nat × Nat) :
    ∀ l : List (Nat × Nat), l.Pairwise (fun a b => a.1 ≤ b.1) →
    (sortInsert x l).Pairwise (fun a b => a.1 ≤ b.1) := by
  intro l
  induction l with
  | nil =>
      intro h
      exact List.pairwise_cons.2 ⟨by simp, List.Pairwise.nil⟩
  | cons y rest ih =>
      intro h
      obtain ⟨h1, h2⟩ := List.pairwise_cons.1 h
      unfold sortInsert
      by_cases hc : y.1 < x.1
      · rw [if_pos hc]
        refine List.pairwise_cons.2 ⟨?_, ih h2⟩
        intro z hz
        have hz2 := (sortInsert_perm x rest).mem_iff.1 hz
        rcases List.mem_cons.1 hz2 with rfl | hz3
        · omega
        · exact h1 z hz3
      · rw [if_neg hc]
        refine List.pairwise_cons.2 ⟨?_, h⟩
        intro z hz
        rcases List.mem_cons.1 hz with rfl | hz2
        · omega
        · have := h1 z hz2
          omega

theorem sortByStart_sorted : ∀ l : List (Nat × Nat),
    (sortByStart l).Pairwise (fun a b => a.1 ≤ b.1) := by
  intro l
  induction l with
  | nil => exact List.Pairwise.nil
  | cons x rest ih => exact sortInsert_sorted x (sortByStart rest) ih

theorem disjoint_listSet_right {s : Finset Nat} {l : List (Nat × Nat)}
    (h : ∀ x ∈ l, Disjoint s (blockSet x)) : Disjoint s (listSet l) := by
  induction l with
  | nil =>
      show Disjoint s (∅ : Finset Nat)
      exact Finset.disjoint_empty_right s
  | cons b rest ih =>
      show Disjoint s (blockSet b ∪ listSet rest)
      rw [Finset.disjoint_union_right]
      exact ⟨h b (List.mem_cons_self _ _),
        ih (fun x hx => h x (List.mem_cons_of_mem _ hx))⟩

theorem coalesceAux_spec :
    ∀ (l : List (Nat × Nat)) (cur : Nat × Nat),
    chainBlocks (cur :: l) → posBlocks (cur :: l) →
    chainBlocks (coalesceAux cur l) ∧ posBlocks (coalesceAux cur l) ∧
    listSet (coalesceAux cur l) = blockSet cur ∪ listSet l ∧
    ∀ x ∈ coalesceAux cur l, cur.1 ≤ x.1 := by
  intro l
  induction l with
  | nil =>
      intro cur hch hp
      refine ⟨?_, ?_, rfl, ?_⟩
      · exact List.pairwise_cons.2 ⟨by simp, List.Pairwise.nil⟩
      · intro b hb
        rcases List.mem_cons.1 hb with rfl | hb2
        · exact hp b (List.mem_cons_self _ _)
        · cases hb2
      · intro x hx
        rcases List.mem_cons.1 hx with rfl | hx2
        · exact Nat.le_refl _
        · cases hx2
  | cons nxt rest ih =>
      intro cur hch hp
      obtain ⟨hc1, hc2⟩ := List.pairwise_cons.1 hch
      have hnle : cur.1 + cur.2 ≤ nxt.1 := hc1 nxt (List.mem_cons_self _ _)
      have hcpos : 0 < cur.2 := hp cur (List.mem_cons_self _ _)
      have hnpos : 0 < nxt.2 :=
        hp nxt (List.mem_cons_of_mem _ (List.mem_cons_self _ _))
      by_cases h : cur.1 + cur.2 = nxt.1
      · have hstep : coalesceAux cur (nxt :: rest) =
            coalesceAux (cur.1, cur.2 + nxt.2) rest := by
          simp only [coalesceAux]
          rw [if_pos h]
        have hch2 : chainBlocks ((cur.1, cur.2 + nxt.2) :: rest) := by
          obtain ⟨hn1, hn2⟩ := List.pairwise_cons.1 hc2
          refine List.pairwise_cons.2 ⟨?_, hn2⟩
          intro y hy
          have := hn1 y hy
          show cur.1 + (cur.2 + nxt.2) ≤ y.1
          omega
        have hp2 : posBlocks ((cur.1, cur.2 + nxt.2) :: rest) := by
          intro b hb
          rcases List.mem_cons.1 hb with rfl | hb2
          · show 0 < cur.2 + nxt.2
            omega
          · exact hp b (List.mem_cons_of_mem _ (List.mem_cons_of_mem _ hb2))
        obtain ⟨i1, i2, i3, i4⟩ := ih (cur.1, cur.2 + nxt.2) hch2 hp2
        rw [hstep]
        have hbs : blockSet (cur.1, cur.2 + nxt.2) =
            blockSet cur ∪ blockSet nxt := by
          show Finset.Ico cur.1 (cur.1 + (cur.2 + nxt.2)) =
            Finset.Ico cur.1 (cur.1 + cur.2) ∪ Finset.Ico nxt.1 (nxt.1 + nxt.2)
          rw [show nxt.1 = cur.1 + cur.2 from h.symm,
            Finset.Ico_union_Ico_eq_Ico
              (by omega : cur.1 ≤ cur.1 + cur.2)
              (by omega : cur.1 + cur.2 ≤ cur.1 + cur.2 + nxt.2)]
          congr 1
          omega
        refine ⟨i1, i2, ?_, ?_⟩
        · rw [i3, hbs, Finset.union_assoc]
          rfl
        · intro x hx
          exact i4 x hx
      · have hstep : coalesceAux cur (nxt :: rest) =
            cur :: coalesceAux nxt rest := by
          simp only [coalesceAux]
          rw [if_neg h]
        obtain ⟨i1, i2, i3, i4⟩ :=
          ih nxt hc2 (fun b hb => hp b (List.mem_cons_of_mem _ hb))
        rw [hstep]
        refine ⟨?_, ?_, ?_, ?_⟩
        · refine List.pairwise_cons.2 ⟨?_, i1⟩
          intro y hy
          have := i4 y hy
          omega
        · intro b hb
          rcases List.mem_cons.1 hb with rfl | hb2
          · exact hcpos
          · exact i2 b hb2
        · show blockSet cur ∪ listSet (coalesceAux nxt rest) =
            blockSet cur ∪ listSet (nxt :: rest)
          rw [i3]
          rfl
        · intro x hx
          rcases List.mem_cons.1 hx with rfl | hx2
          · exact Nat.le_refl _
          · have := i4 x hx2
            omega

theorem coalesce_spec (l : List (Nat × Nat)) (hch : chainBlocks l)
    (hp : posBlocks l) :
    chainBlocks (coalesce l) ∧ posBlocks (coalesce l) ∧
    listSet (coalesce l) = listSet l := by
  cases l with
  | nil => exact ⟨List.Pairwise.nil, fun b hb => absurd hb (List.not_mem_nil b), rfl⟩
  | cons x rest =>
      obtain ⟨i1, i2, i3, -⟩ := coalesceAux_spec rest x hch hp
      exact ⟨i1, i2, i3⟩

theorem coalesceAux_full :
    ∀ (l : List (Nat × Nat)) (cur : Nat × Nat) (m : Nat),
    chainBlocks (cur :: l) → posBlocks (cur :: l) →
    listSet (cur :: l) = Finset.Ico cur.1 m →
    coalesceAux cur l = [(cur.1, m - cur.1)] := by
  intro l
  induction l with
  | nil =>
      intro cur m hch hp hls
      have hpos : 0 < cur.2 := hp cur (List.mem_cons_self _ _)
      have hext := Finset.ext_iff.1 hls
      have e2 := hext (cur.1 + cur.2 - 1)
      have e3 := hext (cur.1 + cur.2)
      simp only [listSet, blockSet, Finset.mem_union, Finset.mem_Ico,
        Finset.not_mem_empty, or_false] at e2 e3
      show [cur] = [(cur.1, m - cur.1)]
      rw [show m - cur.1 = cur.2 by omega]
  | cons nxt rest ih =>
      intro cur m hch hp hls
      obtain ⟨hc1, hc2⟩ := List.pairwise_cons.1 hch
      have hnle : cur.1 + cur.2 ≤ nxt.1 := hc1 nxt (List.mem_cons_self _ _)
      have hcpos : 0 < cur.2 := hp cur (List.mem_cons_self _ _)
      have hnpos : 0 < nxt.2 :=
        hp nxt (List.mem_cons_of_mem _ (List.mem_cons_self _ _))
      by_cases h : cur.1 + cur.2 = nxt.1
      · have hstep : coalesceAux cur (nxt :: rest) =
            coalesceAux (cur.1, cur.2 + nxt.2) rest := by
          simp only [coalesceAux]
          rw [if_pos h]
        have hch2 : chainBlocks ((cur.1, cur.2 + nxt.2) :: rest) := by
          obtain ⟨hn1, hn2⟩ := List.pairwise_cons.1 hc2
          refine List.pairwise_cons.2 ⟨?_, hn2⟩
          intro y hy
          have := hn1 y hy
          show cur.1 + (cur.2 + nxt.2) ≤ y.1
          omega
        have hp2 : posBlocks ((cur.1, cur.2 + nxt.2) :: rest) := by
          intro b hb
          rcases List.mem_cons.1 hb with rfl | hb2
          · show 0 < cur.2 + nxt.2
            omega
          · exact hp b (List.mem_cons_of_mem _ (List.mem_cons_of_mem _ hb2))
        have hbs : blockSet (cur.1, cur.2 + nxt.2) =
            blockSet cur ∪ blockSet nxt := by
          show Finset.Ico cur.1 (cur.1 + (cur.2 + nxt.2)) =
            Finset.Ico cur.1 (cur.1 + cur.2) ∪ Finset.Ico nxt.1 (nxt.1 + nxt.2)
          rw [show nxt.1 = cur.1 + cur.2 from h.symm,
            Finset.Ico_union_Ico_eq_Ico
              (by omega : cur.1 ≤ cur.1 + cur.2)
              (by omega : cur.1 + cur.2 ≤ cur.1 + cur.2 + nxt.2)]
          congr 1
          omega
        have hls2 : listSet ((cur.1, cur.2 + nxt.2) :: rest) =
            Finset.Ico cur.1 m := by
          rw [← hls]
          show blockSet (cur.1, cur.2 + nxt.2) ∪ listSet rest =
            blockSet cur ∪ (blockSet nxt ∪ listSet rest)
          rw [hbs, Finset.union_assoc]
        rw [hstep]
        exact ih (cur.1, cur.2 + nxt.2) m hch2 hp2 hls2
      · exfalso
        have hext := Finset.ext_iff.1 hls
        have hnm : nxt.1 < m := by
          have hmem : nxt.1 ∈ listSet (cur :: nxt :: rest) :=
            (mem_listSet _ _).2 ⟨nxt,
              List.mem_cons_of_mem _ (List.mem_cons_self _ _),
              by simp only [blockSet, Finset.mem_Ico]; omega⟩
          have := (hext nxt.1).1 hmem
          simp only [Finset.mem_Ico] at this
          omega
        have hpmem : cur.1 + cur.2 ∈ Finset.Ico cur.1 m :=
          Finset.mem_Ico.2 ⟨by omega, by omega⟩
        have hpl := (hext (cur.1 + cur.2)).2 hpmem
        obtain ⟨b, hb, hbs2⟩ := (mem_listSet _ _).1 hpl
        simp only [blockSet, Finset.mem_Ico] at hbs2
        rcases List.mem_cons.1 hb with rfl | hb2
        · omega
        · rcases List.mem_cons.1 hb2 with rfl | hb3
          · omega
          · have := (List.pairwise_cons.1 hc2).1 b hb3
            omega

theorem coalesce_full (l : List (Nat × Nat)) (n : Nat)
    (hch : chainBlocks l) (hp : posBlocks l)
    (hls : listSet l = Finset.Ico 0 n) (hn : 0 < n) :
    coalesce l = [(0, n)] := by
  cases l with
  | nil =>
      exfalso
      have h0 : (0 : Nat) ∈ Finset.Ico 0 n := Finset.mem_Ico.2 ⟨Nat.le_refl 0, hn⟩
      rw [← hls] at h0
      exact absurd h0 (Finset.not_mem_empty 0)
  | cons x rest =>
      have hpx : 0 < x.2 := hp x (List.mem_cons_self _ _)
      have hx0 : x.1 = 0 := by
        have h0 : (0 : Nat) ∈ listSet (x :: rest) := by
          rw [hls]
          exact Finset.mem_Ico.2 ⟨Nat.le_refl 0, hn⟩
        obtain ⟨b, hb, hbs⟩ := (mem_listSet _ _).1 h0
        simp only [blockSet, Finset.mem_Ico] at hbs
        rcases List.mem_cons.1 hb with rfl | hb2
        · omega
        · have := (List.pairwise_cons.1 hch).1 b hb2
          omega
      have heq := coalesceAux_full rest x n hch hp (by rw [hls, hx0])
      show coalesceAux x rest = [(0, n)]
      rw [heq, hx0]
      simp

theorem perm_cons_erase_pair {b : Nat × Nat} :
    ∀ {l : List (Nat × Nat)}, b ∈ l → l.Perm (b :: l.erase b) := by
  intro l
  induction l with
  | nil =>
      intro h
      cases h
  | cons x rest ih =>
      intro h
      by_cases hx : x = b
      · subst hx
        rw [List.erase_cons_head]
      · rw [List.erase_cons_tail (by simp [hx])]
        have hb : b ∈ rest := by
          rcases List.mem_cons.1 h with h1 | h1
          · exact absurd h1.symm hx
          · exact h1
        exact ((ih hb).cons x).trans (List.Perm.swap b x _)

theorem erase_eq_nil {b : Nat × Nat} {l : List (Nat × Nat)}
    (hmem : b ∈ l) (h : l.erase b = []) : l = [b] := by
  have hperm : l.Perm (b :: l.erase b) := perm_cons_erase_pair hmem
  rw [h] at hperm
  exact List.perm_singleton.1 hperm

theorem listSet_subset_of_sublist {l l2 : List (Nat × Nat)}
    (h : l.Sublist l2) : listSet l ⊆ listSet l2 := by
  intro y hy
  obtain ⟨b, hb, hyb⟩ := (mem_listSet y l).1 hy
  exact (mem_listSet y l2).2 ⟨b, h.subset hb, hyb⟩

theorem pairwise_eraseIdx_disjoint :
    ∀ (l : List (Nat × Nat)) (i : Nat) (r : Nat × Nat),
    l.get? i = some r →
    l.Pairwise (fun a b => Disjoint (blockSet a) (blockSet b)) →
    ∀ x ∈ l.eraseIdx i, Disjoint (blockSet r) (blockSet x) := by
  intro l
  induction l with
  | nil =>
      intro i r h
      rw [show (([] : List (Nat × Nat)).get? i) = none from rfl] at h
      cases h
  | cons b rest ih =>
      intro i r hget hpw x hx
      obtain ⟨h1, h2⟩ := List.pairwise_cons.1 hpw
      cases i with
      | zero =>
          rw [List.get?_cons_zero] at hget
          obtain rfl : b = r := Option.some_inj.1 hget
          exact h1 x hx
      | succ j =>
          rw [List.get?_cons_succ] at hget
          rcases List.mem_cons.1 hx with rfl | hx2
          · exact (h1 r (List.get?_mem hget)).symm
          · exact ih j r hget h2 x hx2

theorem pairwise_disjoint_of_perm {l l2 : List (Nat × Nat)} (h : l.Perm l2)
    (hp : l.Pairwise (fun a b => Disjoint (blockSet a) (blockSet b))) :
    l2.Pairwise (fun a b => Disjoint (blockSet a) (blockSet b)) := by
  induction h with
  | nil => exact hp
  | cons x h2 ih =>
      obtain ⟨h1, h3⟩ := List.pairwise_cons.1 hp
      exact List.pairwise_cons.2
        ⟨fun y hy => h1 y (h2.symm.subset hy), ih h3⟩
  | swap x y l3 =>
      obtain ⟨p1, hp2⟩ := List.pairwise_cons.1 hp
      obtain ⟨p2, hp3⟩ := List.pairwise_cons.1 hp2
      refine List.pairwise_cons.2 ⟨?_, List.pairwise_cons.2 ⟨?_, hp3⟩⟩
      · intro z hz
        rcases List.mem_cons.1 hz with rfl | hz2
        · exact (p1 x (List.mem_cons_self _ _)).symm
        · exact p2 z hz2
      · intro z hz
        exact p1 z (List.mem_cons_of_mem _ hz)
  | trans h1 h2 ih1 ih2 => exact ih2 (ih1 hp)

theorem heapInv_init (n : Nat) (hn : 0 < n) :
    HeapInv ⟨XFitState.init n, [], true⟩ n := by
  refine ⟨?_, ?_, ?_, ?_, ?_, ?_, ?_, rfl, fun _ => rfl⟩
  · intro b hb
    rcases List.mem_cons.1 hb with rfl | hb2
    · exact hn
    · cases hb2
  · intro b hb
    cases hb
  · exact List.pairwise_cons.2
      ⟨fun y hy => absurd hy (List.not_mem_nil y), List.Pairwise.nil⟩
  · exact List.Pairwise.nil
  · show Disjoint (listSet [(0, n)]) (∅ : Finset Nat)
    exact Finset.disjoint_empty_right _
  · show (blockSet (0, n) ∪ ∅) ∪ ∅ = Finset.Ico 0 n
    rw [Finset.union_empty, Finset.union_empty]
    show Finset.Ico 0 (0 + n) = Finset.Ico 0 n
    rw [Nat.zero_add]
  · intro b hb
    cases hb

theorem heapInv_malloc (pick : List (Nat × Nat) → Nat → Option Nat)
    (hps : PickSpec pick) (n : Nat) (s : SimState)
    (n2 ptr : Nat) (st2 : XFitState)
    (hinv : HeapInv s n) (hx : xmalloc pick s.st n2 = some (ptr, st2)) :
    HeapInv ⟨st2, (ptr - 8, n2 + 8) :: s.allocd, true⟩ n := by
  cases hp : pick s.st.free_list (n2 + 8) with
  | none =>
      simp only [xmalloc, hp] at hx
      exact Option.noConfusion hx
  | some i =>
      cases hg : s.st.free_list.get? i with
      | none =>
          simp only [xmalloc, hp, hg] at hx
          exact Option.noConfusion hx
      | some r0 =>
          simp only [xmalloc, hp, hg, Option.some.injEq, Prod.mk.injEq] at hx
          obtain ⟨hptr, hst2⟩ := hx
          subst hptr
          subst hst2
          rw [show r0.1 + 8 - 8 = r0.1 by omega]
          obtain ⟨rr, hgr, hfit⟩ := hps _ _ _ hp
          rw [hg] at hgr
          obtain rfl : r0 = rr := Option.some_inj.1 hgr
          have hr0mem : r0 ∈ s.st.free_list := List.get?_mem hg
          obtain ⟨hilen, -⟩ := List.get?_eq_some.1 hg
          have hr0pos : 0 < r0.2 := hinv.pos_f r0 hr0mem
          have hdsj := chain_disjoint hinv.chain_f
          have herdsj := pairwise_eraseIdx_disjoint _ i r0 hg hdsj
          have hbsub : blockSet (r0.1, n2 + 8) ⊆ blockSet r0 := by
            show Finset.Ico r0.1 (r0.1 + (n2 + 8)) ⊆
              Finset.Ico r0.1 (r0.1 + r0.2)
            exact Finset.Ico_subset_Ico (Nat.le_refl _) (by omega)
          have hheadne : ∀ b ∈ s.allocd, b.1 ≠ r0.1 := by
            intro b hb2 hbe
            have hm1 : r0.1 ∈ blockSet r0 := by
              simp only [blockSet, Finset.mem_Ico]
              omega
            have hm2 : b.1 ∈ blockSet b := by
              have := hinv.pos_a b hb2
              simp only [blockSet, Finset.mem_Ico]
              omega
            rw [hbe] at hm2
            exact Finset.disjoint_left.1 hinv.disj_fa
              (blockSet_subset_listSet hr0mem hm1)
              (blockSet_subset_listSet hb2 hm2)
          have hhead : ∀ b ∈ s.allocd,
              Disjoint (blockSet (r0.1, n2 + 8)) (blockSet b) := by
            intro b hb2
            exact Finset.disjoint_of_subset_left
              (le_trans hbsub (blockSet_subset_listSet hr0mem))
              (Finset.disjoint_of_subset_right
                (blockSet_subset_listSet hb2) hinv.disj_fa)
          by_cases hex : r0.2 = n2 + 8
          · rw [if_pos hex]
            have hbeq : blockSet (r0.1, n2 + 8) = blockSet r0 := by
              rw [← hex]
            refine ⟨?_, ?_, ?_, ?_, ?_, ?_, ?_, hinv.tot, ?_⟩
            · exact posBlocks_sublist (List.eraseIdx_sublist _ _) hinv.pos_f
            · intro b hb2
              rcases List.mem_cons.1 hb2 with rfl | hb3
              · show 0 < n2 + 8
                omega
              · exact hinv.pos_a b hb3
            · exact List.Pairwise.sublist (List.eraseIdx_sublist _ _)
                hinv.chain_f
            · exact List.pairwise_cons.2 ⟨hhead, hinv.disj_a⟩
            · show Disjoint (listSet (s.st.free_list.eraseIdx i))
                (blockSet (r0.1, n2 + 8) ∪ listSet s.allocd)
              rw [Finset.disjoint_union_right, hbeq]
              exact ⟨(disjoint_listSet_right herdsj).symm,
                Finset.disjoint_of_subset_left
                  (listSet_subset_of_sublist (List.eraseIdx_sublist _ _))
                  hinv.disj_fa⟩
            · show listSet (s.st.free_list.eraseIdx i) ∪
                (blockSet (r0.1, n2 + 8) ∪ listSet s.allocd) = Finset.Ico 0 n
              rw [hbeq, ← Finset.union_assoc,
                Finset.union_comm (listSet (s.st.free_list.eraseIdx i))
                  (blockSet r0),
                listSet_eraseIdx _ _ _ hg, hinv.cover]
            · intro b hb2
              rcases List.mem_cons.1 hb2 with rfl | hb3
              · show writeHeader s.st.memory r0.1 (n2 + 8) r0.1 = n2 + 8
                simp [writeHeader]
              · show writeHeader s.st.memory r0.1 (n2 + 8) b.1 = b.2
                unfold writeHeader
                rw [if_neg (hheadne b hb3)]
                exact hinv.hdr b hb3
            · intro h
              cases h
          · rw [if_neg hex]
            have hxpos : 0 < (r0.1 + (n2 + 8), r0.2 - (n2 + 8)).2 := by
              show 0 < r0.2 - (n2 + 8)
              omega
            have hcomb : blockSet (r0.1, n2 + 8) ∪
                blockSet (r0.1 + (n2 + 8), r0.2 - (n2 + 8)) = blockSet r0 := by
              show Finset.Ico r0.1 (r0.1 + (n2 + 8)) ∪
                Finset.Ico (r0.1 + (n2 + 8))
                  (r0.1 + (n2 + 8) + (r0.2 - (n2 + 8))) =
                Finset.Ico r0.1 (r0.1 + r0.2)
              rw [show r0.1 + (n2 + 8) + (r0.2 - (n2 + 8)) = r0.1 + r0.2
                  by omega,
                Finset.Ico_union_Ico_eq_Ico (by omega) (by omega)]
            have hdisjbx : Disjoint (blockSet (r0.1, n2 + 8))
                (blockSet (r0.1 + (n2 + 8), r0.2 - (n2 + 8))) := by
              rw [Finset.disjoint_left]
              intro y hy1 hy2
              simp only [blockSet, Finset.mem_Ico] at hy1 hy2
              omega
            have hxsub : blockSet (r0.1 + (n2 + 8), r0.2 - (n2 + 8)) ⊆
                blockSet r0 := by
              show Finset.Ico (r0.1 + (n2 + 8))
                  (r0.1 + (n2 + 8) + (r0.2 - (n2 + 8))) ⊆
                Finset.Ico r0.1 (r0.1 + r0.2)
              exact Finset.Ico_subset_Ico (by omega) (by omega)
            have hFls : listSet (s.st.free_list.set i
                  (r0.1 + (n2 + 8), r0.2 - (n2 + 8))) ∪
                blockSet (r0.1, n2 + 8) = listSet s.st.free_list := by
              rw [listSet_set _ _ _ hilen, Finset.union_assoc,
                Finset.union_comm (listSet (s.st.free_list.eraseIdx i))
                  (blockSet (r0.1, n2 + 8)),
                ← Finset.union_assoc,
                Finset.union_comm
                  (blockSet (r0.1 + (n2 + 8), r0.2 - (n2 + 8)))
                  (blockSet (r0.1, n2 + 8)),
                hcomb, listSet_eraseIdx _ _ _ hg]
            refine ⟨?_, ?_, ?_, ?_, ?_, ?_, ?_, hinv.tot, ?_⟩
            · exact posBlocks_set hinv.pos_f hxpos
            · intro b hb2
              rcases List.mem_cons.1 hb2 with rfl | hb3
              · show 0 < n2 + 8
                omega
              · exact hinv.pos_a b hb3
            · exact chain_set _ i r0 _ hg hinv.chain_f (by omega)
                (by show r0.1 + (n2 + 8) + (r0.2 - (n2 + 8)) ≤ r0.1 + r0.2
                    omega)
            · exact List.pairwise_cons.2 ⟨hhead, hinv.disj_a⟩
            · show Disjoint (listSet (s.st.free_list.set i
                  (r0.1 + (n2 + 8), r0.2 - (n2 + 8))))
                (blockSet (r0.1, n2 + 8) ∪ listSet s.allocd)
              rw [listSet_set _ _ _ hilen, Finset.disjoint_union_right,
                Finset.disjoint_union_left, Finset.disjoint_union_left]
              refine ⟨⟨hdisjbx.symm,
                Finset.disjoint_of_subset_right hbsub
                  (disjoint_listSet_right herdsj).symm⟩, ?_, ?_⟩
              · exact Finset.disjoint_of_subset_left
                  (le_trans hxsub (blockSet_subset_listSet hr0mem))
                  hinv.disj_fa
              · exact Finset.disjoint_of_subset_left
                  (listSet_subset_of_sublist (List.eraseIdx_sublist _ _))
                  hinv.disj_fa
            · show listSet (s.st.free_list.set i
                  (r0.1 + (n2 + 8), r0.2 - (n2 + 8))) ∪
                (blockSet (r0.1, n2 + 8) ∪ listSet s.allocd) = Finset.Ico 0 n
              rw [← Finset.union_assoc, hFls, hinv.cover]
            · intro b hb2
              rcases List.mem_cons.1 hb2 with rfl | hb3
              · show writeHeader s.st.memory r0.1 (n2 + 8) r0.1 = n2 + 8
                simp [writeHeader]
              · show writeHeader s.st.memory r0.1 (n2 + 8) b.1 = b.2
                unfold writeHeader
                rw [if_neg (hheadne b hb3)]
                exact hinv.hdr b hb3
            · intro h
              cases h

theorem heapInv_free (n : Nat) (s : SimState) (ptr : Nat) (bb : Nat × Nat)
    (hinv : HeapInv s n) (hbbdef : bb = (ptr - 8, s.st.memory (ptr - 8)))
    (hb : bb ∈ s.allocd) :
    HeapInv ⟨s.st.free ptr, s.allocd.erase bb, true⟩ n := by
  have hfl : (s.st.free ptr).free_list =
      coalesce (sortByStart (s.st.free_list ++ [bb])) := by
    rw [hbbdef]
    rfl
  have hbpos : 0 < bb.2 := hinv.pos_a bb hb
  have hL0pos : posBlocks (s.st.free_list ++ [bb]) := by
    intro x hx
    rcases List.mem_append.1 hx with h1 | h1
    · exact hinv.pos_f x h1
    · rcases List.mem_cons.1 h1 with rfl | h2
      · exact hbpos
      · cases h2
  have hL0disj : (s.st.free_list ++ [bb]).Pairwise
      (fun a b => Disjoint (blockSet a) (blockSet b)) := by
    rw [List.pairwise_append]
    refine ⟨chain_disjoint hinv.chain_f,
      List.pairwise_cons.2
        ⟨fun y hy => absurd hy (List.not_mem_nil y), List.Pairwise.nil⟩, ?_⟩
    intro x hx y hy
    rcases List.mem_cons.1 hy with rfl | h2
    · exact Finset.disjoint_of_subset_left (blockSet_subset_listSet hx)
        (Finset.disjoint_of_subset_right (blockSet_subset_listSet hb)
          hinv.disj_fa)
    · cases h2
  have hperm := sortByStart_perm (s.st.free_list ++ [bb])
  have hL1pos : posBlocks (sortByStart (s.st.free_list ++ [bb])) :=
    fun x hx => hL0pos x (hperm.subset hx)
  have hL1disj := pairwise_disjoint_of_perm hperm.symm hL0disj
  have hL1chain := chain_of_sorted_disjoint
    (sortByStart_sorted (s.st.free_list ++ [bb])) hL1disj hL1pos
  obtain ⟨hc1, hc2, hc3⟩ := coalesce_spec _ hL1chain hL1pos
  have hls2 : listSet (coalesce (sortByStart (s.st.free_list ++ [bb]))) =
      listSet s.st.free_list ∪ blockSet bb := by
    rw [hc3, listSet_perm hperm, listSet_append]
    show _ ∪ (blockSet bb ∪ ∅) = _
    rw [Finset.union_empty]
  have hpermA := perm_cons_erase_pair hb
  have hpwA := pairwise_disjoint_of_perm hpermA hinv.disj_a
  obtain ⟨hpwA1, hpwA2⟩ := List.pairwise_cons.1 hpwA
  refine ⟨?_, ?_, ?_, hpwA2, ?_, ?_, ?_, hinv.tot, ?_⟩
  · show posBlocks (s.st.free ptr).free_list
    rw [hfl]
    exact hc2
  · intro b2 hb2
    exact hinv.pos_a b2 ((List.erase_sublist _ _).subset hb2)
  · show chainBlocks (s.st.free ptr).free_list
    rw [hfl]
    exact hc1
  · show Disjoint (listSet (s.st.free ptr).free_list)
      (listSet (s.allocd.erase bb))
    rw [hfl, hls2, Finset.disjoint_union_left]
    refine ⟨?_, disjoint_listSet_right hpwA1⟩
    exact Finset.disjoint_of_subset_right
      (listSet_subset_of_sublist (List.erase_sublist _ _)) hinv.disj_fa
  · show listSet (s.st.free ptr).free_list ∪
      listSet (s.allocd.erase bb) = Finset.Ico 0 n
    rw [hfl, hls2, Finset.union_assoc,
      show blockSet bb ∪ listSet (s.allocd.erase bb) =
        listSet (bb :: s.allocd.erase bb) from rfl,
      ← listSet_perm hpermA]
    exact hinv.cover
  · intro b2 hb2
    show (s.st.free ptr).memory b2.1 = b2.2
    exact hinv.hdr b2 ((List.erase_sublist _ _).subset hb2)
  · intro h
    have hall : s.allocd = [bb] := erase_eq_nil hb h
    have hn : 0 < n := by
      have hm : bb.1 ∈ Finset.Ico 0 n := by
        rw [← hinv.cover]
        refine Finset.mem_union_right _ ?_
        refine blockSet_subset_listSet hb ?_
        simp only [blockSet, Finset.mem_Ico]
        omega
      simp only [Finset.mem_Ico] at hm
      omega
    have hcov2 : listSet (sortByStart (s.st.free_list ++ [bb])) =
        Finset.Ico 0 n := by
      rw [listSet_perm hperm, listSet_append]
      show listSet s.st.free_list ∪ (blockSet bb ∪ ∅) = _
      rw [Finset.union_empty]
      have hcv := hinv.cover
      rw [hall, show listSet [bb] = blockSet bb ∪ ∅ from rfl,
        Finset.union_empty] at hcv
      exact hcv
    show (s.st.free ptr).free_list = [(0, n)]
    rw [hfl]
    exact coalesce_full _ n hL1chain hL1pos hcov2 hn

theorem heapInv_simStep (pick : List (Nat × Nat) → Nat → Option Nat)
    (hps : PickSpec pick) (n : Nat) (s : SimState) (op : HeapOp)
    (hinv : HeapInv s n) : HeapInv (simStep pick s op) n := by
  unfold simStep
  by_cases hok : s.ok = false
  · rw [if_pos hok]
    exact hinv
  · rw [if_neg hok]
    cases op with
    | alloc n2 =>
        dsimp only
        cases hx : xmalloc pick s.st n2 with
        | none => exact hinv
        | some pr =>
            obtain ⟨ptr, st2⟩ := pr
            exact heapInv_malloc pick hps n s n2 ptr st2 hinv hx
    | dealloc ptr =>
        by_cases hb : (ptr - 8, s.st.memory (ptr - 8)) ∈ s.allocd
        · dsimp only
          rw [if_pos hb]
          exact heapInv_free n s ptr (ptr - 8, s.st.memory (ptr - 8))
            hinv rfl hb
        · dsimp only
          rw [if_neg hb]
          exact ⟨hinv.pos_f, hinv.pos_a, hinv.chain_f, hinv.disj_a,
            hinv.disj_fa, hinv.cover, hinv.hdr, hinv.tot, hinv.coal⟩

theorem heapInv_foldl (pick : List (Nat × Nat) → Nat → Option Nat)
    (hps : PickSpec pick) (n : Nat) :
    ∀ (ops : List HeapOp) (s : SimState), HeapInv s n →
    HeapInv (ops.foldl (simStep pick) s) n := by
  intro ops
  induction ops with
  | nil =>
      intro s h
      exact h
  | cons op rest ih =>
      intro s h
      exact ih _ (heapInv_simStep pick hps n s op h)

theorem findIdx_opt_spec (p : (Nat × Nat) → Bool) :
    ∀ (l : List (Nat × Nat)) (st i : Nat), List.findIdx? p l st = some i →
    ∃ k r, l.get? k = some r ∧ p r = true ∧ i = st + k := by
  intro l
  induction l with
  | nil =>
      intro st i h
      rw [List.findIdx?_nil] at h
      cases h
  | cons a rest ih =>
      intro st i h
      rw [List.findIdx?_cons] at h
      by_cases hp2 : p a = true
      · rw [if_pos hp2] at h
        obtain rfl : st = i := Option.some_inj.1 h
        exact ⟨0, a, List.get?_cons_zero, hp2, by omega⟩
      · rw [if_neg hp2] at h
        obtain ⟨k, r, hg, hpr, hik⟩ := ih (st + 1) i h
        exact ⟨k + 1, r, by rw [List.get?_cons_succ]; exact hg, hpr, by omega⟩

theorem firstFitPick_spec : PickSpec firstFitPick := by
  intro l total i h
  unfold firstFitPick at h
  obtain ⟨k, r, hg, hpr, hik⟩ := findIdx_opt_spec _ l 0 i h
  rw [decide_eq_true_eq] at hpr
  have hki : k = i := by omega
  subst hki
  exact ⟨r, hg, hpr⟩

theorem bestFitPick_spec : PickSpec bestFitPick := by
  intro l total i h
  obtain ⟨r, hg, hf, -, -⟩ := bestFitPick_some l total i h
  exact ⟨r, hg, hf⟩

theorem worstFitLoop_valid (total : Nat) :
    ∀ (l : List (Nat × Nat)) (i : Nat) (acc : Option (Nat × Nat)),
    ∀ j s, worstFitLoop total l i acc = some (j, s) →
      acc = some (j, s) ∨
      ∃ k r, l.get? k = some r ∧ j = i + k ∧ s = r.2 ∧ total ≤ r.2 := by
  intro l
  induction l with
  | nil =>
      intro i acc j s h
      exact Or.inl h
  | cons r rest ih =>
      intro i acc j s h
      by_cases hcond :
          (decide (total ≤ r.2) && acc.all (fun b => decide (b.2 < r.2))) = true
      · have hstep : worstFitLoop total (r :: rest) i acc =
            worstFitLoop total rest (i + 1) (some (i, r.2)) := by
          simp only [worstFitLoop]
          rw [if_pos hcond]
        rw [hstep] at h
        rcases ih (i + 1) (some (i, r.2)) j s h with
          h2 | ⟨k, r2, hget, hj, hs, hf⟩
        · right
          have hji : i = j := congrArg Prod.fst (Option.some_inj.1 h2)
          have hsr : r.2 = s := congrArg Prod.snd (Option.some_inj.1 h2)
          simp only [Bool.and_eq_true, decide_eq_true_eq] at hcond
          exact ⟨0, r, List.get?_cons_zero, by omega, hsr.symm, hcond.1⟩
        · right
          exact ⟨k + 1, r2, by rw [List.get?_cons_succ]; exact hget,
            by omega, hs, hf⟩
      · have hstep : worstFitLoop total (r :: rest) i acc =
            worstFitLoop total rest (i + 1) acc := by
          simp only [worstFitLoop]
          rw [if_neg hcond]
        rw [hstep] at h
        rcases ih (i + 1) acc j s h with h2 | ⟨k, r2, hget, hj, hs, hf⟩
        · exact Or.inl h2
        · exact Or.inr ⟨k + 1, r2, by rw [List.get?_cons_succ]; exact hget,
            by omega, hs, hf⟩

theorem worstFitPick_spec : PickSpec worstFitPick := by
  intro l total i h
  unfold worstFitPick at h
  cases hres : worstFitLoop total l 0 none with
  | none =>
      rw [hres] at h
      cases h
  | some q =>
      rw [hres] at h
      obtain ⟨j2, s⟩ := q
      have hj : j2 = i := by
        have h2 : some (j2, s).1 = some i := h
        exact Option.some_inj.1 h2
      subst hj
      rcases worstFitLoop_valid total l 0 none j2 s hres with
        h2 | ⟨k, r2, hget, hjk, hs, hf⟩
      · cases h2
      · have hkj : k = j2 := by omega
        subst hkj
        exact ⟨r2, hget, hf⟩

/-- C8.  Each fit policy (first, best, worst) always hands `malloc` the index
of a free region large enough for the request; and for every such policy and
every `malloc`/`free` workload on a fresh arena of `n > 0` bytes in which
every pointer returned by `malloc` is freed exactly once (each `free`
receives a live `malloc` result — `ok` stays `true` — and no allocation is
left outstanding at the end), the final free list has coalesced back to the
single region `(0, n)`. -/
theorem heap_free_coalesces :
    PickSpec firstFitPick ∧ PickSpec bestFitPick ∧ PickSpec worstFitPick ∧
    ∀ (pick : List (Nat × Nat) → Nat → Option Nat) (n : Nat)
      (ops : List HeapOp), PickSpec pick → 0 < n →
      (simRun pick n ops).ok = true →
      (simRun pick n ops).allocd = [] →
      (simRun pick n ops).st.free_list = [(0, n)] := by
  refine ⟨firstFitPick_spec, bestFitPick_spec, worstFitPick_spec, ?_⟩
  intro pick n ops hps hn hok hal
  have hinv : HeapInv (simRun pick n ops) n := by
    unfold simRun
    exact heapInv_foldl pick hps n ops _ (heapInv_init n hn)
  exact hinv.coal hal

theorem heap_free_coalesces_witness :
    ((0 : Nat) < 30 ∧
      (simRun firstFitPick 30 [HeapOp.alloc 2, HeapOp.alloc 3,
        HeapOp.dealloc 8, HeapOp.dealloc 18]).ok = true ∧
      (simRun firstFitPick 30 [HeapOp.alloc 2, HeapOp.alloc 3,
        HeapOp.dealloc 8, HeapOp.dealloc 18]).allocd = []) ∧
    (simRun firstFitPick 30 [HeapOp.alloc 2, HeapOp.alloc 3,
      HeapOp.dealloc 8, HeapOp.dealloc 18]).st.free_list = [(0, 30)] := by
  refine ⟨⟨by decide, by decide, by decide⟩, ?_⟩
  exact heap_free_coalesces.2.2.2 firstFitPick 30
    [HeapOp.alloc 2, HeapOp.alloc 3, HeapOp.dealloc 8, HeapOp.dealloc 18]
    firstFitPick_spec (by decide) (by decide) (by decide)

end PyOS
